import Mathlib

/-!
Verification of the graphql-compiler core against its specification.

The repository contains two implementations of the fragment inliner and
selection merger:
  * `src/lib/inline-relay-query.ts` (referred to below with a `Lib` suffix),
    whose merge key is the alias concatenated with `JSON.stringify` of the raw
    argument AST nodes, and
  * the variant in `src/unnamed/part_001` (no suffix below), which normalizes
    argument values, sorts argument pairs by name (`createArgumentKey`) and
    deduplicates with `deduplicateSelections`.
Both are embedded here, together with the definition splitter
(`src/lib/graphql-parser.ts`) and the definition grouper
(`src/lib/graphql-merge.ts`).

Modelling conventions:
  * GraphQL AST nodes are shallowly embedded; `loc` (source position)
    properties, which `graphql-js` attaches to parsed nodes, are not part of
    the model.  Where source code serializes whole AST nodes with
    `JSON.stringify` (the `Lib` merge key, the `other:` dedup key), the model
    serializes the loc-free node; source positions could only make those keys
    finer, and no theorem below asserts a merge through such a key with
    non-empty arguments.
  * JavaScript's partial recursion is modelled with explicit fuel: `IRes.out`
    marks fuel exhaustion and corresponds to a run of the JavaScript code
    that has not returned yet (for cyclic fragment references it never does).
    Fuel is consumed exactly when a fragment spread is expanded, so the fuel
    needed equals the fragment nesting depth of the input.
  * `String.prototype.localeCompare` (no locale argument) is modelled for the
    ASCII strings this program manipulates, following the ICU root collation
    as implemented by Node's default locale: a case-insensitive primary pass,
    then lowercase-before-uppercase on primary ties.  Non-letter characters
    compare by code point.
  * `Array.prototype.sort` with a consistent comparator is a stable sort; it
    is modelled by a stable insertion sort `jsSortBy`, which produces the
    unique stable, sorted permutation.
-/

/-! ## GraphQL AST (the fragment of `graphql-js` nodes used by the sources) -/

/-- A GraphQL `ValueNode` (`Variable`, literals, `ListValue`, `ObjectValue`).
`IntValue`, `FloatValue`, `StringValue` and `EnumValue` carry their raw string
value, `BooleanValue` a boolean, exactly as in `graphql-js`. -/
inductive Value where
  | variableV (name : String)
  | intV (value : String)
  | floatV (value : String)
  | stringV (value : String)
  | booleanV (value : Bool)
  | nullV
  | enumV (value : String)
  | listV (values : List Value)
  | objectV (fields : List (String × Value))

/-- A GraphQL `ArgumentNode`: a name and a value. -/
structure Argument where
  name : String
  value : Value

/-- A GraphQL `SelectionNode`: a field (with optional alias, arguments and
optional nested selection set), an inline fragment (optional type condition,
required selection set), or a fragment spread (referenced fragment name).
A `SelectionSetNode` is modelled as its list of selections. -/
inductive Selection where
  | field (alias? : Option String) (name : String) (arguments : List Argument)
      (selectionSet : Option (List Selection))
  | inlineFragment (typeCondition : Option String) (selections : List Selection)
  | fragmentSpread (name : String)

/-- A GraphQL definition: an operation (name, selection set) or a fragment
definition (name, type condition, selection set). -/
inductive DefinitionNode where
  | operationDef (name : String) (selections : List Selection)
  | fragmentDef (name : String) (typeCondition : String) (selections : List Selection)

/-- A GraphQL `DocumentNode`: an ordered sequence of definitions. -/
structure DocumentNode where
  definitions : List DefinitionNode

namespace Selection

mutual

/-- Size of a selection tree (arguments and names do not count); used as the
termination measure of the merge recursion. -/
def sizeSel : Selection → Nat
  | .field _ _ _ none => 1
  | .field _ _ _ (some s) => 1 + sizeL s
  | .inlineFragment _ s => 1 + sizeL s
  | .fragmentSpread _ => 1

/-- Total size of a list of selection trees. -/
def sizeL : List Selection → Nat
  | [] => 0
  | s :: rest => sizeSel s + sizeL rest

end

@[simp] theorem sizeL_nil : sizeL [] = 0 := rfl

@[simp] theorem sizeL_cons (s : Selection) (l : List Selection) :
    sizeL (s :: l) = sizeSel s + sizeL l := rfl

theorem sizeSel_pos (s : Selection) : 1 ≤ sizeSel s := by
  cases s with
  | field a n ar so => cases so <;> simp [sizeSel]
  | inlineFragment t s => simp [sizeSel]
  | fragmentSpread n => simp [sizeSel]

theorem sizeL_append (l1 l2 : List Selection) :
    sizeL (l1 ++ l2) = sizeL l1 + sizeL l2 := by
  induction l1 with
  | nil => simp
  | cons x xs ih => simp [ih]; ring

/-- The nested selection set of a node, when it has one (`node.selectionSet`
in the sources; inline fragments always have one, spreads never do). -/
def getSet : Selection → Option (List Selection)
  | .field _ _ _ so => so
  | .inlineFragment _ s => some s
  | .fragmentSpread _ => none

/-- Replace the selection set of a node, keeping everything else: the model of
the object spread `{ ...existing, selectionSet: newSet }` in the sources.
For a fragment spread (which cannot occur on the merge paths that use this)
the node is returned unchanged. -/
def withSet : Selection → Option (List Selection) → Selection
  | .field a n ar _, so => .field a n ar so
  | .inlineFragment t s, so => .inlineFragment t (so.getD s)
  | .fragmentSpread n, _ => .fragmentSpread n

theorem sizeL_lt_of_getSet {x : Selection} {s : List Selection} (h : getSet x = some s) :
    sizeL s < sizeSel x := by
  cases x with
  | field a n ar so =>
    cases so with
    | none => simp [getSet] at h
    | some t =>
      simp only [getSet, Option.some.injEq] at h
      subst h; simp [sizeSel]
  | inlineFragment t u =>
    simp only [getSet, Option.some.injEq] at h
    subst h; simp [sizeSel]
  | fragmentSpread n => simp [getSet] at h

theorem sizeSel_withSet_some (x : Selection) (s : List Selection) :
    sizeSel (withSet x (some s)) ≤ 1 + sizeL s := by
  cases x with
  | field a n ar so => simp [withSet, sizeSel]
  | inlineFragment t u => simp [withSet, sizeSel]
  | fragmentSpread n => simp [withSet, sizeSel]

end Selection

/-! ## JavaScript values and `JSON.stringify` -/

/-- A JavaScript value as produced by `normalizeValueNode` and consumed by
`JSON.stringify`: null, boolean, string, array, or a plain object whose
properties are kept in insertion order (the enumeration order of string keys
in a JavaScript object). -/
inductive JsValue where
  | nullJ
  | boolJ (b : Bool)
  | strJ (s : String)
  | arrJ (values : List JsValue)
  | objJ (fields : List (String × JsValue))

/-- Lower-case hexadecimal digit, as used by `JSON.stringify` for `\u` escapes. -/
def hexDigit (n : Nat) : Char :=
  if n < 10 then Char.ofNat (48 + n) else Char.ofNat (87 + n)

/-- Escape one character the way `JSON.stringify` escapes characters inside a
string literal. -/
def jsonEscapeChar (c : Char) : String :=
  if c = '"' then "\\\""
  else if c = '\\' then "\\\\"
  else if c = Char.ofNat 8 then "\\b"
  else if c = Char.ofNat 12 then "\\f"
  else if c = '\n' then "\\n"
  else if c = Char.ofNat 13 then "\\r"
  else if c = '\t' then "\\t"
  else if c.toNat < 32 then
    "\\u00" ++ String.mk [hexDigit (c.toNat / 16), hexDigit (c.toNat % 16)]
  else String.mk [c]

/-- Escape a whole string for `JSON.stringify` (without the surrounding quotes). -/
def jsonEscape (s : String) : String :=
  String.join (s.toList.map jsonEscapeChar)

mutual

/-- Model of `JSON.stringify` on the `JsValue` fragment above (no spaces,
object properties in insertion order, exactly as `JSON.stringify` with one
argument prints them). -/
def stringify : JsValue → String
  | .nullJ => "null"
  | .boolJ true => "true"
  | .boolJ false => "false"
  | .strJ s => "\"" ++ jsonEscape s ++ "\""
  | .arrJ vs => "[" ++ stringifyArr vs ++ "]"
  | .objJ fs => "\x7b" ++ stringifyObj fs ++ "\x7d"

/-- Comma-separated serialization of array elements. -/
def stringifyArr : List JsValue → String
  | [] => ""
  | [v] => stringify v
  | v :: rest => stringify v ++ "," ++ stringifyArr rest

/-- Comma-separated serialization of object properties. -/
def stringifyObj : List (String × JsValue) → String
  | [] => ""
  | [(k, v)] => "\"" ++ jsonEscape k ++ "\":" ++ stringify v
  | (k, v) :: rest => "\"" ++ jsonEscape k ++ "\":" ++ stringify v ++ "," ++ stringifyObj rest

end

/-! ## The model of `String.prototype.localeCompare` and `Array.prototype.sort` -/

/-- Primary collation weight of a character: letters are folded to lower case,
all other characters keep their code point.  This models the primary
(case-insensitive) pass of the ICU root collation for the ASCII strings this
program compares. -/
def primWeight (c : Char) : Nat :=
  if 65 ≤ c.toNat ∧ c.toNat ≤ 90 then c.toNat + 32 else c.toNat

/-- Case weight of a character: in the root collation lower case sorts before
upper case when the primary weights tie. -/
def caseWeight (c : Char) : Nat :=
  if 65 ≤ c.toNat ∧ c.toNat ≤ 90 then 1 else 0

/-- Lexicographic comparison of two weight lists. -/
def lexNat : List Nat → List Nat → Ordering
  | [], [] => .eq
  | [], _ :: _ => .lt
  | _ :: _, [] => .gt
  | a :: as, b :: bs =>
    if a < b then .lt else if b < a then .gt else lexNat as bs

/-- Model of `a.localeCompare(b)` under Node's default locale for ASCII
strings: compare the primary (case-folded) weights first and break ties with
the case weights (lower case first). -/
def localeCompare (a b : String) : Ordering :=
  match lexNat (a.toList.map primWeight) (b.toList.map primWeight) with
  | .eq => lexNat (a.toList.map caseWeight) (b.toList.map caseWeight)
  | o => o

/-- The "does not compare greater" test `cmp(a, b) <= 0` used when a
JavaScript comparator result feeds `Array.prototype.sort`. -/
def localeLe (a b : String) : Bool :=
  localeCompare a b ≠ .gt

/-- Stable insertion of an element into a sorted list: the element is placed
before the first entry that is not strictly below it, so that entries
comparing equal keep their original relative order. -/
def jsInsert (le : α → α → Bool) (x : α) : List α → List α
  | [] => [x]
  | y :: ys => if le y x ∧ ¬ le x y then y :: jsInsert le x ys else x :: y :: ys

/-- Model of `Array.prototype.sort` with a consistent comparator: the unique
stable sort with respect to the comparator's total preorder (implemented as a
stable insertion sort). -/
def jsSortBy (le : α → α → Bool) : List α → List α
  | [] => []
  | x :: xs => jsInsert le x (jsSortBy le xs)

/-! ## JavaScript objects / `Map`s with string keys

Property assignment (`obj[k] = v`, `map.set(k, v)`) overwrites an existing
key in place and otherwise appends; enumeration (`Object.entries`,
`map.values()`) follows that insertion order. -/

/-- Lookup of a string key (`obj[k]`, `map.get(k)`). -/
def jsObjGet (m : List (String × β)) (k : String) : Option β :=
  match m with
  | [] => none
  | (k', v) :: rest => if k' = k then some v else jsObjGet rest k

/-- Assignment to a string key (`obj[k] = v`, `map.set(k, v)`): overwrite in
place, else append. -/
def jsObjSet (m : List (String × β)) (k : String) (v : β) : List (String × β) :=
  match m with
  | [] => [(k, v)]
  | (k', w) :: rest => if k' = k then (k', v) :: rest else (k', w) :: jsObjSet rest k v

/-! ## Argument canonicalization (`src/unnamed/part_001`) -/

mutual

/-- Model of `normalizeValueNode`: normalize a GraphQL value node by removing
position information.  Object fields become a JavaScript object built by
property assignment in source order; lists map their elements; a variable
becomes the tagged object `{ type: 'variable', name }`; boolean literals keep
their boolean value and string-carrying literals their raw string; null (and
the defensive default) becomes null. -/
def normalizeValueNode : Value → JsValue
  | .objectV fields => .objJ (normalizeObjFields [] fields)
  | .listV vs => .arrJ (normalizeValueList vs)
  | .variableV n => .objJ [("type", .strJ "variable"), ("name", .strJ n)]
  | .booleanV b => .boolJ b
  | .stringV v => .strJ v
  | .intV v => .strJ v
  | .floatV v => .strJ v
  | .enumV v => .strJ v
  | .nullV => .nullJ

/-- The `reduce` in `normalizeValueNode`'s `ObjectValue` case: fold the fields
into a JavaScript object by property assignment. -/
def normalizeObjFields (acc : List (String × JsValue)) :
    List (String × Value) → List (String × JsValue)
  | [] => acc
  | (k, v) :: rest => normalizeObjFields (jsObjSet acc k (normalizeValueNode v)) rest

/-- Element-wise normalization of a `ListValue`. -/
def normalizeValueList : List Value → List JsValue
  | [] => []
  | v :: rest => normalizeValueNode v :: normalizeValueList rest

end

/-- Model of `createArgumentKey`: the canonical, deterministic key for an
argument list.  No arguments gives the empty key; otherwise the arguments are
normalized to `{ name, value }` records, sorted by name with `localeCompare`,
and serialized with `JSON.stringify`. -/
def createArgumentKey (args : List Argument) : String :=
  match args with
  | [] => ""
  | _ =>
    let normalizedArgs := args.map fun a => (a.name, normalizeValueNode a.value)
    let sorted := jsSortBy (fun p q => localeLe p.1 q.1) normalizedArgs
    stringify (.arrJ (sorted.map fun p => .objJ [("name", .strJ p.1), ("value", p.2)]))

/-- Model of `createFieldKey`: the alias when present, else the field name,
concatenated with the canonical argument key. -/
def createFieldKey (alias? : Option String) (name : String) (args : List Argument) : String :=
  alias?.getD name ++ createArgumentKey args

/-- Model of `createInlineFragmentKey`: `inline:` plus the type condition name
(empty string when absent). -/
def createInlineFragmentKey (tc : Option String) : String :=
  "inline:" ++ tc.getD ""

/-- The loc-free JSON form of a `FragmentSpread` node, used by the defensive
`other:` key in `deduplicateSelections`. -/
def jsonOfSpread (n : String) : JsValue :=
  .objJ [("kind", .strJ "FragmentSpread"),
         ("name", .objJ [("kind", .strJ "Name"), ("value", .strJ n)])]

/-- The key `deduplicateSelections` assigns to a selection that is neither a
field nor an inline fragment. -/
def otherKey (n : String) : String :=
  "other:FragmentSpread:" ++ stringify (jsonOfSpread n)

/-! ## The selection map of `deduplicateSelections` -/

open Selection in
/-- The ordered values of the `Map` used by `deduplicateSelections`. -/
def mValues (m : List (String × Selection)) : List Selection := m.map (·.2)

open Selection in
/-- Total selection size stored in the map, the termination measure of the
merge recursion. -/
def sizeM (m : List (String × Selection)) : Nat := sizeL (mValues m)

@[simp] theorem mValues_nil : mValues [] = [] := rfl

@[simp] theorem sizeM_nil : sizeM [] = 0 := rfl

open Selection

theorem sizeSel_le_sizeM_of_get {m : List (String × Selection)} {k : String}
    {v : Selection} (h : jsObjGet m k = some v) : sizeSel v ≤ sizeM m := by
  induction m with
  | nil => simp [jsObjGet] at h
  | cons p rest ih =>
    obtain ⟨k', w⟩ := p
    simp only [jsObjGet] at h
    by_cases hk : k' = k
    · simp only [hk, if_pos rfl] at h
      cases h
      simp [sizeM, mValues]
    · simp only [if_neg hk] at h
      have := ih h
      simp only [sizeM, mValues, List.map_cons, sizeL_cons] at *
      omega

theorem sizeM_set_of_get_some {m : List (String × Selection)} {k : String}
    {old : Selection} (h : jsObjGet m k = some old) (v : Selection) :
    sizeM (jsObjSet m k v) + sizeSel old = sizeM m + sizeSel v := by
  induction m with
  | nil => simp [jsObjGet] at h
  | cons p rest ih =>
    obtain ⟨k', w⟩ := p
    simp only [jsObjGet] at h
    by_cases hk : k' = k
    · simp only [hk, if_pos rfl] at h
      cases h
      simp [jsObjSet, hk, sizeM, mValues]
      omega
    · simp only [if_neg hk] at h
      have := ih h
      simp only [jsObjSet, if_neg hk, sizeM, mValues, List.map_cons, sizeL_cons] at *
      omega

theorem sizeM_set_of_get_none {m : List (String × Selection)} {k : String}
    (h : jsObjGet m k = none) (v : Selection) :
    sizeM (jsObjSet m k v) = sizeM m + sizeSel v := by
  induction m with
  | nil => simp [jsObjSet, sizeM, mValues]
  | cons p rest ih =>
    obtain ⟨k', w⟩ := p
    simp only [jsObjGet] at h
    by_cases hk : k' = k
    · simp [hk] at h
    · simp only [if_neg hk] at h
      have := ih h
      simp only [jsObjSet, if_neg hk, sizeM, mValues, List.map_cons, sizeL_cons] at *
      omega

theorem sizeM_set_le (m : List (String × Selection)) (k : String) (v : Selection) :
    sizeM (jsObjSet m k v) ≤ sizeM m + sizeSel v := by
  cases h : jsObjGet m k with
  | none => exact le_of_eq (sizeM_set_of_get_none h v)
  | some old =>
    have h1 := sizeM_set_of_get_some h v
    have h2 := sizeSel_pos old
    omega

theorem sizeL_getSetD_lt (x : Selection) : sizeL ((getSet x).getD []) < sizeSel x := by
  cases h : getSet x with
  | none => simpa using sizeSel_pos x
  | some s => simpa using sizeL_lt_of_getSet h

/-! ## `deduplicateSelections` (`src/unnamed/part_001`)

The algorithm folds the input into an insertion-ordered `Map` keyed by merge
key; on a key collision of two set-bearing entries it merges their nested
selection sets by concatenating them and recursing.  That nested recursion is
bounded by the total selection size, which strictly shrinks at each nesting
level; the model makes the bound explicit as a fuel parameter that is
consumed only when a nested merge starts, and `dedupGoF_spec` below proves
that any fuel beyond the size bound computes the same (fuel-independent)
result, so `deduplicateSelections`, which supplies sufficient fuel, is the
total function computed by the JavaScript code. -/

def dedupGoF : Nat → List (String × Selection) → List Selection → List (String × Selection)
  | _, m, [] => m
  | fuel, m, sel :: rest =>
    match sel with
    | .field a n ar so =>
      match jsObjGet m (createFieldKey a n ar) with
      | some existing =>
        match existing, so with
        | .field a1 n1 ar1 (some s1), some s2 =>
          -- both carry a selection set: recursively merge the concatenation
          match fuel with
          | 0 => m
          | fuel' + 1 =>
            dedupGoF (fuel' + 1)
              (jsObjSet m (createFieldKey a n ar)
                (.field a1 n1 ar1 (some (mValues (dedupGoF fuel' [] (s1 ++ s2)))))) rest
        | .field a1 n1 ar1 (some s1), none =>
          -- the new entry is a leaf: keep the existing selection set
          dedupGoF fuel
            (jsObjSet m (createFieldKey a n ar) (.field a1 n1 ar1 (some s1))) rest
        | .field a1 n1 ar1 none, some s2 =>
          -- the recorded entry is a leaf: it adopts the new selection set
          dedupGoF fuel
            (jsObjSet m (createFieldKey a n ar) (.field a1 n1 ar1 (some s2))) rest
        | .field a1 n1 ar1 none, none =>
          -- neither carries a selection set: the map is left unchanged
          dedupGoF fuel m rest
        | .inlineFragment t1 s1, some s2 =>
          -- an inline fragment recorded under a field key behaves like a
          -- set-bearing entry (it has a `selectionSet` property)
          match fuel with
          | 0 => m
          | fuel' + 1 =>
            dedupGoF (fuel' + 1)
              (jsObjSet m (createFieldKey a n ar)
                (.inlineFragment t1 (mValues (dedupGoF fuel' [] (s1 ++ s2))))) rest
        | .inlineFragment t1 s1, none =>
          dedupGoF fuel
            (jsObjSet m (createFieldKey a n ar) (.inlineFragment t1 s1)) rest
        | .fragmentSpread n1, some s2 =>
          -- `{ ...spread, selectionSet }` leaves the modelled node unchanged
          dedupGoF fuel (jsObjSet m (createFieldKey a n ar) (.fragmentSpread n1)) rest
        | .fragmentSpread n1, none =>
          dedupGoF fuel m rest
      | none => dedupGoF fuel (jsObjSet m (createFieldKey a n ar) (.field a n ar so)) rest
    | .inlineFragment t s2 =>
      match jsObjGet m (createInlineFragmentKey t) with
      | some existing =>
        match fuel with
        | 0 => m
        | fuel' + 1 =>
          dedupGoF (fuel' + 1)
            (jsObjSet m (createInlineFragmentKey t)
              (withSet existing
                (some (mValues (dedupGoF fuel' [] ((getSet existing).getD [] ++ s2)))))) rest
      | none =>
        dedupGoF fuel (jsObjSet m (createInlineFragmentKey t) (.inlineFragment t s2)) rest
    | .fragmentSpread n =>
      dedupGoF fuel (jsObjSet m (otherKey n) (.fragmentSpread n)) rest
termination_by fuel m l => (fuel, l.length)
decreasing_by all_goals (simp only [Prod.lex_def, List.length_cons, true_and, and_true]; omega)

theorem sizeL_mValues (m : List (String × Selection)) : sizeL (mValues m) = sizeM m := rfl

theorem dedupGoF_size (fuel : Nat) (m : List (String × Selection)) (l : List Selection) :
    sizeM m + sizeL l ≤ fuel → sizeM (dedupGoF fuel m l) ≤ sizeM m + sizeL l := by
  induction fuel, m, l using dedupGoF.induct with
  | case1 x m =>
    intro hb
    simp [dedupGoF]
  | case2 m rest a n ar a1 n1 ar1 s1 s2 hget =>
    intro hb
    exfalso
    have h1 := sizeSel_pos (Selection.field a n ar (some s2))
    simp only [sizeL_cons] at hb
    omega
  | case3 m rest a n ar a1 n1 ar1 s1 s2 fuel2 hget ih1 ih2 =>
    intro hb
    have hEx := sizeSel_le_sizeM_of_get hget
    simp only [sizeSel] at hEx
    simp only [sizeL_cons, sizeSel] at hb
    have hbIn : sizeM ([] : List (String × Selection)) + sizeL (s1 ++ s2) ≤ fuel2 := by
      simp only [sizeM_nil, sizeL_append]
      omega
    have h1 := ih1 hbIn
    simp only [sizeM_nil, sizeL_append] at h1
    have hSet := sizeM_set_of_get_some hget
      (Selection.field a1 n1 ar1 (some (mValues (dedupGoF fuel2 [] (s1 ++ s2)))))
    simp only [sizeSel, sizeL_mValues] at hSet
    have hbRest : sizeM (jsObjSet m (createFieldKey a n ar)
        (Selection.field a1 n1 ar1 (some (mValues (dedupGoF fuel2 [] (s1 ++ s2)))))) +
        sizeL rest ≤ fuel2 + 1 := by omega
    have h2 := ih2 hbRest
    simp only [dedupGoF, hget, sizeL_cons, sizeSel]
    omega
  | case4 fuel m rest a n ar a1 n1 ar1 s1 hget ih =>
    intro hb
    have hEx := sizeSel_le_sizeM_of_get hget
    simp only [sizeSel] at hEx
    simp only [sizeL_cons, sizeSel] at hb
    have hSet := sizeM_set_of_get_some hget (Selection.field a1 n1 ar1 (some s1))
    simp only [sizeSel] at hSet
    have h2 := ih (by omega)
    simp only [dedupGoF, hget, sizeL_cons, sizeSel]
    omega
  | case5 fuel m rest a n ar a1 n1 ar1 s2 hget ih =>
    intro hb
    have hEx := sizeSel_le_sizeM_of_get hget
    simp only [sizeSel] at hEx
    simp only [sizeL_cons, sizeSel] at hb
    have hSet := sizeM_set_of_get_some hget (Selection.field a1 n1 ar1 (some s2))
    simp only [sizeSel] at hSet
    have h2 := ih (by omega)
    simp only [dedupGoF, hget, sizeL_cons, sizeSel]
    omega
  | case6 fuel m rest a n ar a1 n1 ar1 hget ih =>
    intro hb
    simp only [sizeL_cons, sizeSel] at hb
    have h2 := ih (by omega)
    simp only [dedupGoF, hget, sizeL_cons, sizeSel]
    omega
  | case7 m rest a n ar t1 s1 s2 hget =>
    intro hb
    exfalso
    have h1 := sizeSel_pos (Selection.field a n ar (some s2))
    simp only [sizeL_cons] at hb
    omega
  | case8 m rest a n ar t1 s1 s2 fuel2 hget ih1 ih2 =>
    intro hb
    have hEx := sizeSel_le_sizeM_of_get hget
    simp only [sizeSel] at hEx
    simp only [sizeL_cons, sizeSel] at hb
    have hbIn : sizeM ([] : List (String × Selection)) + sizeL (s1 ++ s2) ≤ fuel2 := by
      simp only [sizeM_nil, sizeL_append]
      omega
    have h1 := ih1 hbIn
    simp only [sizeM_nil, sizeL_append] at h1
    have hSet := sizeM_set_of_get_some hget
      (Selection.inlineFragment t1 (mValues (dedupGoF fuel2 [] (s1 ++ s2))))
    simp only [sizeSel, sizeL_mValues] at hSet
    have h2 := ih2 (by omega)
    simp only [dedupGoF, hget, sizeL_cons, sizeSel]
    omega
  | case9 fuel m rest a n ar t1 s1 hget ih =>
    intro hb
    have hEx := sizeSel_le_sizeM_of_get hget
    simp only [sizeSel] at hEx
    simp only [sizeL_cons, sizeSel] at hb
    have hSet := sizeM_set_of_get_some hget (Selection.inlineFragment t1 s1)
    simp only [sizeSel] at hSet
    have h2 := ih (by omega)
    simp only [dedupGoF, hget, sizeL_cons, sizeSel]
    omega
  | case10 fuel m rest a n ar n1 s2 hget ih =>
    intro hb
    have hEx := sizeSel_le_sizeM_of_get hget
    simp only [sizeSel] at hEx
    simp only [sizeL_cons, sizeSel] at hb
    have hSet := sizeM_set_of_get_some hget (Selection.fragmentSpread n1)
    simp only [sizeSel] at hSet
    have h2 := ih (by omega)
    simp only [dedupGoF, hget, sizeL_cons, sizeSel]
    omega
  | case11 fuel m rest a n ar n1 hget ih =>
    intro hb
    simp only [sizeL_cons, sizeSel] at hb
    have h2 := ih (by omega)
    simp only [dedupGoF, hget, sizeL_cons, sizeSel]
    omega
  | case12 fuel m rest a n ar so hget ih =>
    intro hb
    simp only [sizeL_cons] at hb
    have hSet := sizeM_set_of_get_none hget (Selection.field a n ar so)
    have h2 := ih (by omega)
    simp only [dedupGoF, hget, sizeL_cons]
    omega
  | case13 m rest t s existing hget =>
    intro hb
    exfalso
    have h1 := sizeSel_pos (Selection.inlineFragment t s)
    simp only [sizeL_cons] at hb
    omega
  | case14 m rest t s existing hget fuel2 ih1 ih2 =>
    intro hb
    have hEx := sizeSel_le_sizeM_of_get hget
    have hS1 := sizeL_getSetD_lt existing
    simp only [sizeL_cons, sizeSel] at hb
    have hbIn : sizeM ([] : List (String × Selection)) +
        sizeL ((getSet existing).getD [] ++ s) ≤ fuel2 := by
      simp only [sizeM_nil, sizeL_append]
      omega
    have h1 := ih1 hbIn
    simp only [sizeM_nil, sizeL_append] at h1
    have hMerged := sizeSel_withSet_some existing
      (mValues (dedupGoF fuel2 [] ((getSet existing).getD [] ++ s)))
    have hSet := sizeM_set_of_get_some hget
      (withSet existing (some (mValues (dedupGoF fuel2 [] ((getSet existing).getD [] ++ s)))))
    simp only [sizeL_mValues] at hMerged
    have h2 := ih2 (by omega)
    simp only [dedupGoF, hget, sizeL_cons, sizeSel]
    omega
  | case15 fuel m rest t s hget ih =>
    intro hb
    simp only [sizeL_cons, sizeSel] at hb
    have hSet := sizeM_set_of_get_none hget (Selection.inlineFragment t s)
    simp only [sizeSel] at hSet
    have h2 := ih (by omega)
    simp only [dedupGoF, hget, sizeL_cons, sizeSel]
    omega
  | case16 fuel m rest n ih =>
    intro hb
    simp only [sizeL_cons, sizeSel] at hb
    have hSet := sizeM_set_le m (otherKey n) (Selection.fragmentSpread n)
    simp only [sizeSel] at hSet
    have h2 := ih (by omega)
    simp only [dedupGoF, sizeL_cons, sizeSel]
    omega

theorem dedupGoF_irrel (fuel : Nat) (m : List (String × Selection)) (l : List Selection) :
    sizeM m + sizeL l ≤ fuel → ∀ fuelB, sizeM m + sizeL l ≤ fuelB →
    dedupGoF fuel m l = dedupGoF fuelB m l := by
  induction fuel, m, l using dedupGoF.induct with
  | case1 x m =>
    intro hb fuelB hbB
    simp [dedupGoF]
  | case2 m rest a n ar a1 n1 ar1 s1 s2 hget =>
    intro hb fuelB hbB
    exfalso
    have h1 := sizeSel_pos (Selection.field a n ar (some s2))
    simp only [sizeL_cons] at hb
    omega
  | case3 m rest a n ar a1 n1 ar1 s1 s2 fuel2 hget ih1 ih2 =>
    intro hb fuelB hbB
    have hEx := sizeSel_le_sizeM_of_get hget
    simp only [sizeSel] at hEx
    simp only [sizeL_cons, sizeSel] at hb hbB
    cases fuelB with
    | zero => exfalso; omega
    | succ fB =>
      have hbIn : sizeM ([] : List (String × Selection)) + sizeL (s1 ++ s2) ≤ fuel2 := by
        simp only [sizeM_nil, sizeL_append]; omega
      have hbInB : sizeM ([] : List (String × Selection)) + sizeL (s1 ++ s2) ≤ fB := by
        simp only [sizeM_nil, sizeL_append]; omega
      have h1eq := ih1 hbIn fB hbInB
      have hsz := dedupGoF_size fuel2 [] (s1 ++ s2) hbIn
      simp only [sizeM_nil, sizeL_append] at hsz
      have hSet := sizeM_set_of_get_some hget
        (Selection.field a1 n1 ar1 (some (mValues (dedupGoF fuel2 [] (s1 ++ s2)))))
      simp only [sizeSel, sizeL_mValues] at hSet
      simp only [dedupGoF, hget]
      rw [← h1eq]
      exact ih2 (by omega) (fB + 1) (by omega)
  | case4 fuel m rest a n ar a1 n1 ar1 s1 hget ih =>
    intro hb fuelB hbB
    have hEx := sizeSel_le_sizeM_of_get hget
    simp only [sizeSel] at hEx
    simp only [sizeL_cons, sizeSel] at hb hbB
    have hSet := sizeM_set_of_get_some hget (Selection.field a1 n1 ar1 (some s1))
    simp only [sizeSel] at hSet
    simp only [dedupGoF, hget]
    exact ih (by omega) fuelB (by omega)
  | case5 fuel m rest a n ar a1 n1 ar1 s2 hget ih =>
    intro hb fuelB hbB
    have hEx := sizeSel_le_sizeM_of_get hget
    simp only [sizeSel] at hEx
    simp only [sizeL_cons, sizeSel] at hb hbB
    have hSet := sizeM_set_of_get_some hget (Selection.field a1 n1 ar1 (some s2))
    simp only [sizeSel] at hSet
    simp only [dedupGoF, hget]
    exact ih (by omega) fuelB (by omega)
  | case6 fuel m rest a n ar a1 n1 ar1 hget ih =>
    intro hb fuelB hbB
    simp only [sizeL_cons, sizeSel] at hb hbB
    simp only [dedupGoF, hget]
    exact ih (by omega) fuelB (by omega)
  | case7 m rest a n ar t1 s1 s2 hget =>
    intro hb fuelB hbB
    exfalso
    have h1 := sizeSel_pos (Selection.field a n ar (some s2))
    simp only [sizeL_cons] at hb
    omega
  | case8 m rest a n ar t1 s1 s2 fuel2 hget ih1 ih2 =>
    intro hb fuelB hbB
    have hEx := sizeSel_le_sizeM_of_get hget
    simp only [sizeSel] at hEx
    simp only [sizeL_cons, sizeSel] at hb hbB
    cases fuelB with
    | zero => exfalso; omega
    | succ fB =>
      have hbIn : sizeM ([] : List (String × Selection)) + sizeL (s1 ++ s2) ≤ fuel2 := by
        simp only [sizeM_nil, sizeL_append]; omega
      have hbInB : sizeM ([] : List (String × Selection)) + sizeL (s1 ++ s2) ≤ fB := by
        simp only [sizeM_nil, sizeL_append]; omega
      have h1eq := ih1 hbIn fB hbInB
      have hsz := dedupGoF_size fuel2 [] (s1 ++ s2) hbIn
      simp only [sizeM_nil, sizeL_append] at hsz
      have hSet := sizeM_set_of_get_some hget
        (Selection.inlineFragment t1 (mValues (dedupGoF fuel2 [] (s1 ++ s2))))
      simp only [sizeSel, sizeL_mValues] at hSet
      simp only [dedupGoF, hget]
      rw [← h1eq]
      exact ih2 (by omega) (fB + 1) (by omega)
  | case9 fuel m rest a n ar t1 s1 hget ih =>
    intro hb fuelB hbB
    have hEx := sizeSel_le_sizeM_of_get hget
    simp only [sizeSel] at hEx
    simp only [sizeL_cons, sizeSel] at hb hbB
    have hSet := sizeM_set_of_get_some hget (Selection.inlineFragment t1 s1)
    simp only [sizeSel] at hSet
    simp only [dedupGoF, hget]
    exact ih (by omega) fuelB (by omega)
  | case10 fuel m rest a n ar n1 s2 hget ih =>
    intro hb fuelB hbB
    have hEx := sizeSel_le_sizeM_of_get hget
    simp only [sizeSel] at hEx
    simp only [sizeL_cons, sizeSel] at hb hbB
    have hSet := sizeM_set_of_get_some hget (Selection.fragmentSpread n1)
    simp only [sizeSel] at hSet
    simp only [dedupGoF, hget]
    exact ih (by omega) fuelB (by omega)
  | case11 fuel m rest a n ar n1 hget ih =>
    intro hb fuelB hbB
    simp only [sizeL_cons, sizeSel] at hb hbB
    simp only [dedupGoF, hget]
    exact ih (by omega) fuelB (by omega)
  | case12 fuel m rest a n ar so hget ih =>
    intro hb fuelB hbB
    simp only [sizeL_cons] at hb hbB
    have hSet := sizeM_set_of_get_none hget (Selection.field a n ar so)
    simp only [dedupGoF, hget]
    exact ih (by omega) fuelB (by omega)
  | case13 m rest t s existing hget =>
    intro hb fuelB hbB
    exfalso
    have h1 := sizeSel_pos (Selection.inlineFragment t s)
    simp only [sizeL_cons] at hb
    omega
  | case14 m rest t s existing hget fuel2 ih1 ih2 =>
    intro hb fuelB hbB
    have hEx := sizeSel_le_sizeM_of_get hget
    have hS1 := sizeL_getSetD_lt existing
    simp only [sizeL_cons, sizeSel] at hb hbB
    cases fuelB with
    | zero => exfalso; omega
    | succ fB =>
      have hbIn : sizeM ([] : List (String × Selection)) +
          sizeL ((getSet existing).getD [] ++ s) ≤ fuel2 := by
        simp only [sizeM_nil, sizeL_append]; omega
      have hbInB : sizeM ([] : List (String × Selection)) +
          sizeL ((getSet existing).getD [] ++ s) ≤ fB := by
        simp only [sizeM_nil, sizeL_append]; omega
      have h1eq := ih1 hbIn fB hbInB
      have hsz := dedupGoF_size fuel2 [] ((getSet existing).getD [] ++ s) hbIn
      simp only [sizeM_nil, sizeL_append] at hsz
      have hMerged := sizeSel_withSet_some existing
        (mValues (dedupGoF fuel2 [] ((getSet existing).getD [] ++ s)))
      simp only [sizeL_mValues] at hMerged
      have hSet := sizeM_set_of_get_some hget
        (withSet existing (some (mValues (dedupGoF fuel2 [] ((getSet existing).getD [] ++ s)))))
      simp only [dedupGoF, hget]
      rw [← h1eq]
      exact ih2 (by omega) (fB + 1) (by omega)
  | case15 fuel m rest t s hget ih =>
    intro hb fuelB hbB
    simp only [sizeL_cons, sizeSel] at hb hbB
    have hSet := sizeM_set_of_get_none hget (Selection.inlineFragment t s)
    simp only [sizeSel] at hSet
    simp only [dedupGoF, hget]
    exact ih (by omega) fuelB (by omega)
  | case16 fuel m rest n ih =>
    intro hb fuelB hbB
    simp only [sizeL_cons, sizeSel] at hb hbB
    have hSet := sizeM_set_le m (otherKey n) (Selection.fragmentSpread n)
    simp only [sizeSel] at hSet
    simp only [dedupGoF]
    exact ih (by omega) fuelB (by omega)



/-- Model of `deduplicateSelections`: fold the selections into the keyed map
and return its values in insertion order.  The fuel `sizeL l` is sufficient
by `dedupGoF_irrel`. -/
def deduplicateSelections (l : List Selection) : List Selection :=
  mValues (dedupGoF (sizeL l) [] l)

/-- Model of `mergeSelectionSets` (`part_001`): concatenate and deduplicate. -/
def mergeSelectionSets (s1 s2 : List Selection) : List Selection :=
  deduplicateSelections (s1 ++ s2)

/-- One loop iteration of `deduplicateSelections` on the selection map. -/
def dedupStep (m : List (String × Selection)) (sel : Selection) :
    List (String × Selection) :=
  match sel with
  | .field a n ar so =>
    match jsObjGet m (createFieldKey a n ar) with
    | some existing =>
      match existing, so with
      | .field a1 n1 ar1 (some s1), some s2 =>
        jsObjSet m (createFieldKey a n ar)
          (.field a1 n1 ar1 (some (deduplicateSelections (s1 ++ s2))))
      | .field a1 n1 ar1 (some s1), none =>
        jsObjSet m (createFieldKey a n ar) (.field a1 n1 ar1 (some s1))
      | .field a1 n1 ar1 none, some s2 =>
        jsObjSet m (createFieldKey a n ar) (.field a1 n1 ar1 (some s2))
      | .field _ _ _ none, none => m
      | .inlineFragment t1 s1, some s2 =>
        jsObjSet m (createFieldKey a n ar)
          (.inlineFragment t1 (deduplicateSelections (s1 ++ s2)))
      | .inlineFragment t1 s1, none =>
        jsObjSet m (createFieldKey a n ar) (.inlineFragment t1 s1)
      | .fragmentSpread n1, some _ =>
        jsObjSet m (createFieldKey a n ar) (.fragmentSpread n1)
      | .fragmentSpread _, none => m
    | none => jsObjSet m (createFieldKey a n ar) (.field a n ar so)
  | .inlineFragment t s2 =>
    match jsObjGet m (createInlineFragmentKey t) with
    | some existing =>
      jsObjSet m (createInlineFragmentKey t)
        (withSet existing (some (deduplicateSelections ((getSet existing).getD [] ++ s2))))
    | none => jsObjSet m (createInlineFragmentKey t) (.inlineFragment t s2)
  | .fragmentSpread n => jsObjSet m (otherKey n) (.fragmentSpread n)

/-- The canonical (sufficiently fueled) run of the deduplication loop. -/
def dedupRun (m : List (String × Selection)) (l : List Selection) :
    List (String × Selection) :=
  dedupGoF (sizeM m + sizeL l) m l

theorem sizeL_dedup_le (l : List Selection) :
    sizeL (deduplicateSelections l) ≤ sizeL l := by
  have h := dedupGoF_size (sizeL l) [] l (by simp)
  simpa [deduplicateSelections, sizeL_mValues] using h

theorem sizeM_dedupStep_le (m : List (String × Selection)) (sel : Selection) :
    sizeM (dedupStep m sel) ≤ sizeM m + sizeSel sel := by
  cases sel with
  | field a n ar so =>
    cases hget : jsObjGet m (createFieldKey a n ar) with
    | none =>
      simp only [dedupStep, hget]
      exact sizeM_set_le _ _ _
    | some existing =>
      have hEx := sizeSel_le_sizeM_of_get hget
      cases existing with
      | field a1 n1 ar1 so1 =>
        cases so1 with
        | some s1 =>
          cases so with
          | some s2 =>
            have hd := sizeL_dedup_le (s1 ++ s2)
            have hSet := sizeM_set_of_get_some hget
              (Selection.field a1 n1 ar1 (some (deduplicateSelections (s1 ++ s2))))
            simp only [dedupStep, hget, sizeSel, sizeL_append] at *
            omega
          | none =>
            have hSet := sizeM_set_of_get_some hget (Selection.field a1 n1 ar1 (some s1))
            simp only [dedupStep, hget, sizeSel] at *
            omega
        | none =>
          cases so with
          | some s2 =>
            have hSet := sizeM_set_of_get_some hget (Selection.field a1 n1 ar1 (some s2))
            simp only [dedupStep, hget, sizeSel] at *
            omega
          | none =>
            simp only [dedupStep, hget, sizeSel]
            omega
      | inlineFragment t1 s1 =>
        cases so with
        | some s2 =>
          have hd := sizeL_dedup_le (s1 ++ s2)
          have hSet := sizeM_set_of_get_some hget
            (Selection.inlineFragment t1 (deduplicateSelections (s1 ++ s2)))
          simp only [dedupStep, hget, sizeSel, sizeL_append] at *
          omega
        | none =>
          have hSet := sizeM_set_of_get_some hget (Selection.inlineFragment t1 s1)
          simp only [dedupStep, hget, sizeSel] at *
          omega
      | fragmentSpread n1 =>
        cases so with
        | some s2 =>
          have hSet := sizeM_set_of_get_some hget (Selection.fragmentSpread n1)
          simp only [dedupStep, hget, sizeSel] at *
          omega
        | none =>
          simp only [dedupStep, hget, sizeSel]
          omega
  | inlineFragment t s2 =>
    cases hget : jsObjGet m (createInlineFragmentKey t) with
    | none =>
      simp only [dedupStep, hget]
      exact sizeM_set_le _ _ _
    | some existing =>
      have hEx := sizeSel_le_sizeM_of_get hget
      have hS1 := sizeL_getSetD_lt existing
      have hd := sizeL_dedup_le ((getSet existing).getD [] ++ s2)
      have hMerged := sizeSel_withSet_some existing
        (deduplicateSelections ((getSet existing).getD [] ++ s2))
      have hSet := sizeM_set_of_get_some hget
        (withSet existing (some (deduplicateSelections ((getSet existing).getD [] ++ s2))))
      simp only [dedupStep, hget, sizeSel, sizeL_append] at *
      omega
  | fragmentSpread n =>
    simp only [dedupStep, sizeSel]
    have hSet := sizeM_set_le m (otherKey n) (Selection.fragmentSpread n)
    simp only [sizeSel] at hSet
    omega

@[simp] theorem dedupRun_nil (m : List (String × Selection)) : dedupRun m [] = m := by
  simp [dedupRun, dedupGoF]

theorem dedupRun_cons (m : List (String × Selection)) (sel : Selection)
    (rest : List Selection) :
    dedupRun m (sel :: rest) = dedupRun (dedupStep m sel) rest := by
  have hstep : sizeM (dedupStep m sel) ≤ sizeM m + sizeSel sel := sizeM_dedupStep_le m sel
  have hshift : ∀ (f : Nat) (m' : List (String × Selection)),
      sizeM m' ≤ sizeM m + sizeSel sel → sizeM m + sizeL (sel :: rest) ≤ f →
      dedupGoF f m' rest = dedupRun m' rest := by
    intro f m' h hf
    refine dedupGoF_irrel _ m' rest ?_ _ le_rfl
    simp only [sizeL_cons] at hf
    omega
  cases sel with
  | field a n ar so =>
    cases hget : jsObjGet m (createFieldKey a n ar) with
    | none =>
      conv_lhs => simp only [dedupRun]
      simp only [dedupGoF, hget]
      have heq : dedupStep m (Selection.field a n ar so) =
          jsObjSet m (createFieldKey a n ar) (Selection.field a n ar so) := by
        simp [dedupStep, hget]
      rw [← heq]
      exact hshift _ _ hstep le_rfl
    | some existing =>
      have hEx := sizeSel_le_sizeM_of_get hget
      cases existing with
      | field a1 n1 ar1 so1 =>
        cases so1 with
        | some s1 =>
          cases so with
          | some s2 =>
            -- the one genuinely recursive case: bump the fuel to successor form
            have hB := dedupGoF_irrel (sizeM m + sizeL (.field a n ar (some s2) :: rest)) m
              (.field a n ar (some s2) :: rest) le_rfl
              (sizeM m + sizeL (.field a n ar (some s2) :: rest) + 1) (by omega)
            conv_lhs => simp only [dedupRun]
            rw [hB]
            simp only [dedupGoF, hget]
            have hIn : dedupGoF (sizeM m + sizeL (Selection.field a n ar (some s2) :: rest)) []
                (s1 ++ s2) = dedupGoF (sizeL (s1 ++ s2)) [] (s1 ++ s2) := by
              refine dedupGoF_irrel _ _ _ ?_ _ (by simp)
              simp only [sizeSel] at hEx
              simp only [sizeM_nil, sizeL_append, sizeL_cons, sizeSel]
              omega
            rw [hIn]
            have heq : dedupStep m (Selection.field a n ar (some s2)) =
                jsObjSet m (createFieldKey a n ar)
                  (Selection.field a1 n1 ar1 (some (mValues (dedupGoF (sizeL (s1 ++ s2)) []
                    (s1 ++ s2))))) := by
              simp [dedupStep, hget, deduplicateSelections]
            rw [← heq]
            exact hshift _ _ hstep (by omega)
          | none =>
            conv_lhs => simp only [dedupRun]
            simp only [dedupGoF, hget]
            have heq : dedupStep m (Selection.field a n ar none) =
                jsObjSet m (createFieldKey a n ar) (Selection.field a1 n1 ar1 (some s1)) := by
              simp [dedupStep, hget]
            rw [← heq]
            exact hshift _ _ hstep le_rfl
        | none =>
          cases so with
          | some s2 =>
            conv_lhs => simp only [dedupRun]
            simp only [dedupGoF, hget]
            have heq : dedupStep m (Selection.field a n ar (some s2)) =
                jsObjSet m (createFieldKey a n ar) (Selection.field a1 n1 ar1 (some s2)) := by
              simp [dedupStep, hget]
            rw [← heq]
            exact hshift _ _ hstep le_rfl
          | none =>
            conv_lhs => simp only [dedupRun]
            simp only [dedupGoF, hget]
            have heq : dedupStep m (Selection.field a n ar none) = m := by
              simp [dedupStep, hget]
            rw [heq]
            exact hshift _ _ (Nat.le_add_right _ _) le_rfl
      | inlineFragment t1 s1 =>
        cases so with
        | some s2 =>
          have hB := dedupGoF_irrel (sizeM m + sizeL (.field a n ar (some s2) :: rest)) m
            (.field a n ar (some s2) :: rest) le_rfl
            (sizeM m + sizeL (.field a n ar (some s2) :: rest) + 1) (by omega)
          conv_lhs => simp only [dedupRun]
          rw [hB]
          simp only [dedupGoF, hget]
          have hIn : dedupGoF (sizeM m + sizeL (Selection.field a n ar (some s2) :: rest)) []
              (s1 ++ s2) = dedupGoF (sizeL (s1 ++ s2)) [] (s1 ++ s2) := by
            refine dedupGoF_irrel _ _ _ ?_ _ (by simp)
            simp only [sizeSel] at hEx
            simp only [sizeM_nil, sizeL_append, sizeL_cons, sizeSel]
            omega
          rw [hIn]
          have heq : dedupStep m (Selection.field a n ar (some s2)) =
              jsObjSet m (createFieldKey a n ar)
                (Selection.inlineFragment t1 (mValues (dedupGoF (sizeL (s1 ++ s2)) []
                  (s1 ++ s2)))) := by
            simp [dedupStep, hget, deduplicateSelections]
          rw [← heq]
          exact hshift _ _ hstep (by omega)
        | none =>
          conv_lhs => simp only [dedupRun]
          simp only [dedupGoF, hget]
          have heq : dedupStep m (Selection.field a n ar none) =
              jsObjSet m (createFieldKey a n ar) (Selection.inlineFragment t1 s1) := by
            simp [dedupStep, hget]
          rw [← heq]
          exact hshift _ _ hstep le_rfl
      | fragmentSpread n1 =>
        cases so with
        | some s2 =>
          conv_lhs => simp only [dedupRun]
          simp only [dedupGoF, hget]
          have heq : dedupStep m (Selection.field a n ar (some s2)) =
              jsObjSet m (createFieldKey a n ar) (Selection.fragmentSpread n1) := by
            simp [dedupStep, hget]
          rw [← heq]
          exact hshift _ _ hstep le_rfl
        | none =>
          conv_lhs => simp only [dedupRun]
          simp only [dedupGoF, hget]
          have heq : dedupStep m (Selection.field a n ar none) = m := by
            simp [dedupStep, hget]
          rw [heq]
          exact hshift _ _ (Nat.le_add_right _ _) le_rfl
  | inlineFragment t s2 =>
    cases hget : jsObjGet m (createInlineFragmentKey t) with
    | none =>
      conv_lhs => simp only [dedupRun]
      simp only [dedupGoF, hget]
      have heq : dedupStep m (Selection.inlineFragment t s2) =
          jsObjSet m (createInlineFragmentKey t) (Selection.inlineFragment t s2) := by
        simp [dedupStep, hget]
      rw [← heq]
      exact hshift _ _ hstep le_rfl
    | some existing =>
      have hEx := sizeSel_le_sizeM_of_get hget
      have hS1 := sizeL_getSetD_lt existing
      have hB := dedupGoF_irrel (sizeM m + sizeL (.inlineFragment t s2 :: rest)) m
        (.inlineFragment t s2 :: rest) le_rfl
        (sizeM m + sizeL (.inlineFragment t s2 :: rest) + 1) (by omega)
      conv_lhs => simp only [dedupRun]
      rw [hB]
      simp only [dedupGoF, hget]
      have hIn : dedupGoF (sizeM m + sizeL (Selection.inlineFragment t s2 :: rest)) []
          ((getSet existing).getD [] ++ s2) =
          dedupGoF (sizeL ((getSet existing).getD [] ++ s2)) []
            ((getSet existing).getD [] ++ s2) := by
        refine dedupGoF_irrel _ _ _ ?_ _ (by simp)
        simp only [sizeM_nil, sizeL_append, sizeL_cons, sizeSel]
        omega
      rw [hIn]
      have heq : dedupStep m (Selection.inlineFragment t s2) =
          jsObjSet m (createInlineFragmentKey t)
            (withSet existing (some (mValues (dedupGoF
              (sizeL ((getSet existing).getD [] ++ s2)) []
              ((getSet existing).getD [] ++ s2))))) := by
        simp [dedupStep, hget, deduplicateSelections]
      rw [← heq]
      exact hshift _ _ hstep (by omega)
  | fragmentSpread n =>
    conv_lhs => simp only [dedupRun]
    simp only [dedupGoF]
    have heq : dedupStep m (Selection.fragmentSpread n) =
        jsObjSet m (otherKey n) (Selection.fragmentSpread n) := by
      simp [dedupStep]
    rw [← heq]
    exact hshift _ _ hstep le_rfl

theorem deduplicateSelections_eq_run (l : List Selection) :
    deduplicateSelections l = mValues (dedupRun [] l) := by
  simp [deduplicateSelections, dedupRun]


/-! ## The fragment inliner (`src/unnamed/part_001`)

`inlineFragmentSpreads` recursively replaces each fragment spread by the
(recursively inlined, deduplicated) selections of the fragment it names, and
deduplicates every selection list it rebuilds.  The JavaScript recursion is
unbounded for cyclic fragment references; it is modelled with a fuel
parameter that is consumed exactly when a spread is expanded, so the fuel
needed is the fragment nesting depth of the input and `IRes.out` (fuel
exhausted at every bound) models a run that never returns. -/

/-- A `FragmentDefinitionNode` as stored in the `FragmentMap`. -/
structure FragNode where
  fname : String
  typeCondition : String
  selections : List Selection

/-- Model of `buildFragmentMap`: walk the definitions and assign
`fragmentMap[def.name.value] = def` (later definitions overwrite earlier
ones, keeping the first position, as JavaScript object assignment does). -/
def buildFragmentMap (doc : DocumentNode) : List (String × FragNode) :=
  doc.definitions.foldl
    (fun fm d =>
      match d with
      | .fragmentDef n tc sels => jsObjSet fm n ⟨n, tc, sels⟩
      | .operationDef _ _ => fm)
    []

/-- Result of a fueled inliner run: `out` is fuel exhaustion (the JavaScript
run has not returned), `err` a thrown `Error` with its message, `ok` a normal
return. -/
inductive IRes (α : Type) where
  | out
  | err (msg : String)
  | ok (val : α)

/-- Model of the selection-list walk of `inlineFragmentSpreads`: a spread is
replaced by the deduplicated, recursively inlined selections of its fragment
(failing when the fragment is absent from the map); a field or inline
fragment keeps its place with its nested selection set recursively processed
and deduplicated; the caller deduplicates the rebuilt list. -/
def inlineSels (fuel : Nat) (fm : List (String × FragNode)) (l : List Selection) :
    IRes (List Selection) :=
  match l with
  | [] => .ok []
  | .fragmentSpread n :: rest =>
    match jsObjGet fm n with
    | none => .err ("Fragment \"" ++ n ++ "\" not found")
    | some frag =>
      match fuel with
      | 0 => .out
      | fuel' + 1 =>
        match inlineSels fuel' fm frag.selections with
        | .out => .out
        | .err msg => .err msg
        | .ok inner =>
          match inlineSels (fuel' + 1) fm rest with
          | .out => .out
          | .err msg => .err msg
          | .ok restSels => .ok (deduplicateSelections inner ++ restSels)
  | .field a n ar (some s) :: rest =>
    match inlineSels fuel fm s with
    | .out => .out
    | .err msg => .err msg
    | .ok inner =>
      match inlineSels fuel fm rest with
      | .out => .out
      | .err msg => .err msg
      | .ok restSels => .ok (.field a n ar (some (deduplicateSelections inner)) :: restSels)
  | .field a n ar none :: rest =>
    match inlineSels fuel fm rest with
    | .out => .out
    | .err msg => .err msg
    | .ok restSels => .ok (.field a n ar none :: restSels)
  | .inlineFragment t s :: rest =>
    match inlineSels fuel fm s with
    | .out => .out
    | .err msg => .err msg
    | .ok inner =>
      match inlineSels fuel fm rest with
      | .out => .out
      | .err msg => .err msg
      | .ok restSels => .ok (.inlineFragment t (deduplicateSelections inner) :: restSels)
termination_by (fuel, sizeL l)
decreasing_by all_goals
  (simp only [Prod.lex_def, sizeL_cons, sizeSel, true_and, and_true]; omega)

/-- A definition is an operation definition (`def.kind === OPERATION_DEFINITION`). -/
def isOperationDef : DefinitionNode → Bool
  | .operationDef _ _ => true
  | .fragmentDef _ _ _ => false

/-- Inline one operation definition: process and deduplicate its selection
set (`inlineFragmentSpreads` applied to the operation node). -/
def inlineOperation (fuel : Nat) (fm : List (String × FragNode)) :
    DefinitionNode → IRes DefinitionNode
  | .operationDef nm sels =>
    match inlineSels fuel fm sels with
    | .out => .out
    | .err msg => .err msg
    | .ok newSels => .ok (.operationDef nm (deduplicateSelections newSels))
  | .fragmentDef nm tc sels =>
    -- never reached: the document pipeline filters to operation definitions
    match inlineSels fuel fm sels with
    | .out => .out
    | .err msg => .err msg
    | .ok newSels => .ok (.fragmentDef nm tc (deduplicateSelections newSels))

/-- Sequential `.map` over the kept definitions (a thrown error aborts the
whole call, as a JavaScript exception does). -/
def inlineDefs (fuel : Nat) (fm : List (String × FragNode)) :
    List DefinitionNode → IRes (List DefinitionNode)
  | [] => .ok []
  | d :: rest =>
    match inlineOperation fuel fm d with
    | .out => .out
    | .err msg => .err msg
    | .ok d2 =>
      match inlineDefs fuel fm rest with
      | .out => .out
      | .err msg => .err msg
      | .ok rest2 => .ok (d2 :: rest2)

/-- Model of `inlineFragmentsInDocument`: build the fragment map once, keep
only operation definitions, and inline each of them. -/
def inlineFragmentsInDocument (fuel : Nat) (doc : DocumentNode) : IRes DocumentNode :=
  match inlineDefs fuel (buildFragmentMap doc) (doc.definitions.filter isOperationDef) with
  | .out => .out
  | .err msg => .err msg
  | .ok ds => .ok ⟨ds⟩


/-! ## The `src/lib/inline-relay-query.ts` implementation (`Lib` suffix)

Its merge key for a field is the alias (else name) concatenated with
`JSON.stringify` of the raw argument AST nodes in source order (no
normalization, no sorting); merged entries are tracked in a `seen` map and
also patched in place in the output array through `findIndex` on the alias
(for fields) or the type-condition name (for inline fragments).  Fragment
spreads are pushed through unchanged (never deduplicated). -/

mutual

/-- The loc-free JSON form of a raw `ValueNode`, as `JSON.stringify` sees it
(the `block` flag of string values and `loc` spans are omitted; they could
only make the serialized keys finer). -/
def jsonOfValueAst : Value → JsValue
  | .variableV n =>
    .objJ [("kind", .strJ "Variable"),
           ("name", .objJ [("kind", .strJ "Name"), ("value", .strJ n)])]
  | .intV v => .objJ [("kind", .strJ "IntValue"), ("value", .strJ v)]
  | .floatV v => .objJ [("kind", .strJ "FloatValue"), ("value", .strJ v)]
  | .stringV v => .objJ [("kind", .strJ "StringValue"), ("value", .strJ v)]
  | .booleanV b => .objJ [("kind", .strJ "BooleanValue"), ("value", .boolJ b)]
  | .nullV => .objJ [("kind", .strJ "NullValue")]
  | .enumV v => .objJ [("kind", .strJ "EnumValue"), ("value", .strJ v)]
  | .listV vs => .objJ [("kind", .strJ "ListValue"), ("values", .arrJ (jsonOfValueList vs))]
  | .objectV fields =>
    .objJ [("kind", .strJ "ObjectValue"), ("fields", .arrJ (jsonOfObjFields fields))]

/-- Element-wise raw JSON of a `ListValue`. -/
def jsonOfValueList : List Value → List JsValue
  | [] => []
  | v :: rest => jsonOfValueAst v :: jsonOfValueList rest

/-- Raw JSON of `ObjectValue` fields (`ObjectFieldNode`s). -/
def jsonOfObjFields : List (String × Value) → List JsValue
  | [] => []
  | (k, v) :: rest =>
    .objJ [("kind", .strJ "ObjectField"),
           ("name", .objJ [("kind", .strJ "Name"), ("value", .strJ k)]),
           ("value", jsonOfValueAst v)] :: jsonOfObjFields rest

end

/-- Raw JSON of an `ArgumentNode`. -/
def jsonOfArgument (a : Argument) : JsValue :=
  .objJ [("kind", .strJ "Argument"),
         ("name", .objJ [("kind", .strJ "Name"), ("value", .strJ a.name)]),
         ("value", jsonOfValueAst a.value)]

/-- The `Lib` merge key of a field: the alias when the alias node is present,
else the field name, concatenated with `JSON.stringify(selection.arguments
|| [])`. -/
def libFieldKey (alias? : Option String) (name : String) (args : List Argument) : String :=
  alias?.getD name ++ stringify (.arrJ (args.map jsonOfArgument))

/-- The `node.alias?.value || node.name.value` test of the `findIndex` call:
an *empty* alias string is falsy and falls back to the name (unlike the key
computation, which only tests the presence of the alias node). -/
def aliasFalsy (alias? : Option String) (name : String) : String :=
  match alias? with
  | some a => if a = "" then name else a
  | none => name

/-- Does this node match `node.kind === 'Field' && (node.alias?.value ||
node.name.value) === alias`? -/
def isFieldWithAlias (al : String) : Selection → Bool
  | .field a n _ _ => aliasFalsy a n = al
  | _ => false

/-- Does this node match `node.kind === 'InlineFragment' &&
(node.typeCondition?.name.value || '') === typeName`? -/
def isInlineWithTc (tn : String) : Selection → Bool
  | .inlineFragment t _ => t.getD "" = tn
  | _ => false

/-- Model of `merged.findIndex(...)` followed by `merged[index] = newNode`
(no change when the index is `-1`). -/
def replaceFirst (p : Selection → Bool) (v : Selection) : List Selection → List Selection
  | [] => []
  | x :: xs => if p x then v :: xs else x :: replaceFirst p v xs

/-- The `mergeSelections` loop of `inline-relay-query.ts`: `seen` is the key
map, `out` the `merged` output array.  Fuel is consumed exactly when two
recorded selection sets are merged recursively; as with `dedupGoF`, the
total selection size strictly shrinks at each nesting level, so the entry
points below supply sufficient fuel. -/
def msGoF : Nat → List (String × Selection) → List Selection → List Selection →
    List Selection
  | _, _, out, [] => out
  | fuel, seen, out, sel :: rest =>
    match sel with
    | .field a n ar so =>
      match jsObjGet seen (libFieldKey a n ar) with
      | some existing =>
        match so with
        | none =>
          -- `if (selection.selectionSet)` fails: nothing is updated
          msGoF fuel seen out rest
        | some s2 =>
          match getSet existing with
          | some s1 =>
            match fuel with
            | 0 => out
            | fuel' + 1 =>
              msGoF (fuel' + 1)
                (jsObjSet seen (libFieldKey a n ar)
                  (withSet existing (some (msGoF fuel' [] [] (s1 ++ s2)))))
                (replaceFirst (isFieldWithAlias (a.getD n))
                  (withSet existing (some (msGoF fuel' [] [] (s1 ++ s2)))) out)
                rest
          | none =>
            -- the recorded entry is a leaf: it adopts the new selection set
            msGoF fuel
              (jsObjSet seen (libFieldKey a n ar) (withSet existing (some s2)))
              (replaceFirst (isFieldWithAlias (a.getD n)) (withSet existing (some s2)) out)
              rest
      | none =>
        msGoF fuel (jsObjSet seen (libFieldKey a n ar) (.field a n ar so))
          (out ++ [.field a n ar so]) rest
    | .inlineFragment t s2 =>
      match jsObjGet seen ("inline:" ++ t.getD "") with
      | some existing =>
        match fuel with
        | 0 => out
        | fuel' + 1 =>
          msGoF (fuel' + 1)
            (jsObjSet seen ("inline:" ++ t.getD "")
              (withSet existing (some (msGoF fuel' [] [] ((getSet existing).getD [] ++ s2)))))
            (replaceFirst (isInlineWithTc (t.getD ""))
              (withSet existing (some (msGoF fuel' [] [] ((getSet existing).getD [] ++ s2))))
              out)
            rest
      | none =>
        msGoF fuel (jsObjSet seen ("inline:" ++ t.getD "") (.inlineFragment t s2))
          (out ++ [.inlineFragment t s2]) rest
    | .fragmentSpread n =>
      -- other kinds are pushed unconditionally, never recorded in `seen`
      msGoF fuel seen (out ++ [.fragmentSpread n]) rest
termination_by fuel seen out l => (fuel, l.length)
decreasing_by all_goals
  (simp only [Prod.lex_def, List.length_cons, true_and, and_true]; omega)

/-- Model of `mergeSelections` (`inline-relay-query.ts`). -/
def mergeSelectionsLib (l : List Selection) : List Selection :=
  msGoF (sizeL l) [] [] l

/-- The fueled inliner of `inline-relay-query.ts` (same recursion structure
as `inlineSels`, but deduplicating with `mergeSelectionsLib` and throwing
`Fragment NAME not found` without quotes). -/
def inlineSelsLib (fuel : Nat) (fm : List (String × FragNode)) (l : List Selection) :
    IRes (List Selection) :=
  match l with
  | [] => .ok []
  | .fragmentSpread n :: rest =>
    match jsObjGet fm n with
    | none => .err ("Fragment " ++ n ++ " not found")
    | some frag =>
      match fuel with
      | 0 => .out
      | fuel' + 1 =>
        match inlineSelsLib fuel' fm frag.selections with
        | .out => .out
        | .err msg => .err msg
        | .ok inner =>
          match inlineSelsLib (fuel' + 1) fm rest with
          | .out => .out
          | .err msg => .err msg
          | .ok restSels => .ok (mergeSelectionsLib inner ++ restSels)
  | .field a n ar (some s) :: rest =>
    match inlineSelsLib fuel fm s with
    | .out => .out
    | .err msg => .err msg
    | .ok inner =>
      match inlineSelsLib fuel fm rest with
      | .out => .out
      | .err msg => .err msg
      | .ok restSels => .ok (.field a n ar (some (mergeSelectionsLib inner)) :: restSels)
  | .field a n ar none :: rest =>
    match inlineSelsLib fuel fm rest with
    | .out => .out
    | .err msg => .err msg
    | .ok restSels => .ok (.field a n ar none :: restSels)
  | .inlineFragment t s :: rest =>
    match inlineSelsLib fuel fm s with
    | .out => .out
    | .err msg => .err msg
    | .ok inner =>
      match inlineSelsLib fuel fm rest with
      | .out => .out
      | .err msg => .err msg
      | .ok restSels => .ok (.inlineFragment t (mergeSelectionsLib inner) :: restSels)
termination_by (fuel, sizeL l)
decreasing_by all_goals
  (simp only [Prod.lex_def, sizeL_cons, sizeSel, true_and, and_true]; omega)

/-- Inline one operation definition (`inlineFragments` applied to it). -/
def inlineOperationLib (fuel : Nat) (fm : List (String × FragNode)) :
    DefinitionNode → IRes DefinitionNode
  | .operationDef nm sels =>
    match inlineSelsLib fuel fm sels with
    | .out => .out
    | .err msg => .err msg
    | .ok newSels => .ok (.operationDef nm (mergeSelectionsLib newSels))
  | .fragmentDef nm tc sels =>
    match inlineSelsLib fuel fm sels with
    | .out => .out
    | .err msg => .err msg
    | .ok newSels => .ok (.fragmentDef nm tc (mergeSelectionsLib newSels))

/-- Sequential `.map` over the kept definitions. -/
def inlineDefsLib (fuel : Nat) (fm : List (String × FragNode)) :
    List DefinitionNode → IRes (List DefinitionNode)
  | [] => .ok []
  | d :: rest =>
    match inlineOperationLib fuel fm d with
    | .out => .out
    | .err msg => .err msg
    | .ok d2 =>
      match inlineDefsLib fuel fm rest with
      | .out => .out
      | .err msg => .err msg
      | .ok rest2 => .ok (d2 :: rest2)

/-- Model of `inlineRelayQueryFromAST`: build the fragment map, keep the
definitions that are not fragment definitions and carry an `operation`
property (exactly the operation definitions of this model), inline each. -/
def inlineRelayQueryFromAST (fuel : Nat) (doc : DocumentNode) : IRes DocumentNode :=
  match inlineDefsLib fuel (buildFragmentMap doc) (doc.definitions.filter isOperationDef) with
  | .out => .out
  | .err msg => .err msg
  | .ok ds => .ok ⟨ds⟩


/-! ## The definition splitter (`src/lib/graphql-parser.ts`)

`parseGraphQLDefinitions` scans raw text with an index: skip whitespace, try
the literal keywords `query` / `fragment`, read an identifier name, skip to
the first opening brace, and take the brace-balanced block; the emitted
record carries the kind, a filename derived from the name, and the exact
source substring from the keyword through the matching closing brace.  Text
is modelled as `List Char`; the JavaScript `\s` class is modelled by its
ASCII members (space, tab, newline, carriage return, vertical tab, form
feed), which covers the inputs this program receives. -/

inductive DefType where
  | query
  | fragment
  deriving DecidableEq

/-- The record emitted by the splitter (`Definition` in the sources). -/
structure Definition where
  type : DefType
  filename : String
  content : String
  deriving DecidableEq

/-- ASCII members of the JavaScript `\s` character class. -/
def isJsSpace (c : Char) : Bool :=
  c = ' ' ∨ c = '\t' ∨ c = '\n' ∨ c.toNat = 13 ∨ c.toNat = 11 ∨ c.toNat = 12

/-- Characters matched by the name pattern `[A-Za-z0-9_]`. -/
def isIdentChar (c : Char) : Bool :=
  (65 ≤ c.toNat ∧ c.toNat ≤ 90) ∨ (97 ≤ c.toNat ∧ c.toNat ≤ 122) ∨
    (48 ≤ c.toNat ∧ c.toNat ≤ 57) ∨ c = '_'

/-- Length of the longest prefix satisfying `p` (the `while` loops that skip
matching characters). -/
def countWhile (p : Char → Bool) : List Char → Nat
  | [] => 0
  | c :: rest => if p c then countWhile p rest + 1 else 0

/-- First index at or after `i` holding a non-whitespace character. -/
def skipWs (inp : List Char) (i : Nat) : Nat :=
  i + countWhile isJsSpace (inp.drop i)

/-- Does the literal `kw` begin at position `i` (`input.startsWith(kw, i)`)? -/
def matchesAt (inp : List Char) (i : Nat) (kw : List Char) : Bool :=
  (inp.drop i).take kw.length = kw

/-- The maximal identifier run at position `i` (the regex
`^[A-Za-z0-9_]+` applied to the remaining input). -/
def takeName (inp : List Char) (i : Nat) : List Char :=
  (inp.drop i).takeWhile isIdentChar

/-- The brace counter loop, on the suffix starting at the first `{` with the
given entry depth: returns the relative offset of the brace that brings the
counter back to zero, or `none` at end of input. -/
def scanCloseRel : List Char → Nat → Option Nat
  | [], _ => none
  | c :: rest, depth =>
    if c = '\x7b' then (scanCloseRel rest (depth + 1)).map (· + 1)
    else if c = '\x7d' then
      if depth = 1 then some 0 else (scanCloseRel rest (depth - 1)).map (· + 1)
    else (scanCloseRel rest depth).map (· + 1)

theorem scanCloseRel_lt {l : List Char} {d r : Nat} (h : scanCloseRel l d = some r) :
    r < l.length := by
  induction l generalizing d r with
  | nil => simp [scanCloseRel] at h
  | cons c rest ih =>
    simp only [scanCloseRel] at h
    by_cases h1 : c = '\x7b'
    · rw [if_pos h1] at h
      cases hr : scanCloseRel rest (d + 1) with
      | none => simp [hr] at h
      | some r2 =>
        simp only [hr, Option.map, Option.some.injEq] at h
        have := ih hr
        simp only [List.length_cons]
        omega
    · rw [if_neg h1] at h
      by_cases h2 : c = '\x7d'
      · rw [if_pos h2] at h
        by_cases h3 : d = 1
        · rw [if_pos h3] at h
          simp only [Option.some.injEq] at h
          simp only [List.length_cons]
          omega
        · rw [if_neg h3] at h
          cases hr : scanCloseRel rest (d - 1) with
          | none => simp [hr] at h
          | some r2 =>
            simp only [hr, Option.map, Option.some.injEq] at h
            have := ih hr
            simp only [List.length_cons]
            omega
      · rw [if_neg h2] at h
        cases hr : scanCloseRel rest d with
        | none => simp [hr] at h
        | some r2 =>
          simp only [hr, Option.map, Option.some.injEq] at h
          have := ih hr
          simp only [List.length_cons]
          omega

/-- Strip a trailing literal `Query` from a query name, when present. -/
def stripQueryEnd (nm : List Char) : List Char :=
  if nm.length ≥ 5 ∧ nm.drop (nm.length - 5) = "Query".toList
  then nm.take (nm.length - 5) else nm

/-- Filename derivation: queries drop a trailing `Query`, fragments keep the
part before the first underscore; both append `.js`. -/
def computeFilename : DefType → List Char → String
  | .query, nm => String.mk (stripQueryEnd nm) ++ ".js"
  | .fragment, nm => String.mk (nm.takeWhile (· ≠ '_')) ++ ".js"

/-- The keyword test of one scanning step: does `query` begin at the first
non-whitespace position at or after `i`? -/
def isQueryAt (inp : List Char) (i : Nat) : Bool :=
  matchesAt inp (skipWs inp i) "query".toList

/-- The matched keyword's length (`type.length` added to the index). -/
def defKwLen (inp : List Char) (i : Nat) : Nat :=
  if isQueryAt inp i then 5 else 8

/-- The definition type recorded for the step. -/
def defTypeAt (inp : List Char) (i : Nat) : DefType :=
  if isQueryAt inp i then .query else .fragment

/-- Position of the definition name: whitespace after the keyword skipped. -/
def defNamePos (inp : List Char) (i : Nat) : Nat :=
  skipWs inp (skipWs inp i + defKwLen inp i)

/-- The definition's name (`^[A-Za-z0-9_]+` at `defNamePos`). -/
def defName (inp : List Char) (i : Nat) : List Char :=
  takeName inp (defNamePos inp i)

/-- Position just after the name. -/
def defBodyPos (inp : List Char) (i : Nat) : Nat :=
  defNamePos inp i + (defName inp i).length

/-- Position of the first `\x7b` at or after the name (or the input's end):
the `while (input[index] !== ...)` skip. -/
def defBracePos (inp : List Char) (i : Nat) : Nat :=
  defBodyPos inp i + countWhile (fun c => ¬ c = '\x7b') (inp.drop (defBodyPos inp i))

theorem skipWs_ge (inp : List Char) (i : Nat) : i ≤ skipWs inp i :=
  Nat.le_add_right _ _

theorem defNamePos_ge (inp : List Char) (i : Nat) : skipWs inp i ≤ defNamePos inp i :=
  le_trans (Nat.le_add_right _ (defKwLen inp i))
    (skipWs_ge inp (skipWs inp i + defKwLen inp i))

theorem defBodyPos_ge (inp : List Char) (i : Nat) : defNamePos inp i ≤ defBodyPos inp i :=
  Nat.le_add_right _ _

theorem defBracePos_ge (inp : List Char) (i : Nat) : defBodyPos inp i ≤ defBracePos inp i :=
  Nat.le_add_right _ _

theorem defBracePos_ge_start (inp : List Char) (i : Nat) : i ≤ defBracePos inp i :=
  le_trans (skipWs_ge inp i) (le_trans (defNamePos_ge inp i)
    (le_trans (defBodyPos_ge inp i) (defBracePos_ge inp i)))

/-- The scanning loop of `parseGraphQLDefinitions`, starting at index `i`:
returns the definitions found from there on, or the thrown error.  The
emitted content is the exact substring from the keyword's start through the
matching closing brace. -/
def parseLoop (inp : List Char) (i : Nat) : Except String (List Definition) :=
  if hj : inp.length ≤ skipWs inp i then .ok []
  else
    if matchesAt inp (skipWs inp i) "query".toList ∨
        matchesAt inp (skipWs inp i) "fragment".toList then
      if defName inp i = [] then
        .error ("Could not parse definition name at position " ++ toString (defNamePos inp i))
      else
        if inp.length ≤ defBracePos inp i then .ok []
        else
          match scanCloseRel (inp.drop (defBracePos inp i)) 0 with
          | none =>
            .error ("No matching closing brace found for definition " ++
              String.mk (defName inp i))
          | some relEnd =>
            match parseLoop inp (defBracePos inp i + relEnd + 1) with
            | .error e => .error e
            | .ok ds =>
              .ok ({ type := defTypeAt inp i,
                     filename := computeFilename (defTypeAt inp i) (defName inp i),
                     content := String.mk ((inp.drop (skipWs inp i)).take
                       (defBracePos inp i + relEnd + 1 - skipWs inp i)) } :: ds)
    else
      match parseLoop inp (skipWs inp i + 1) with
      | .error e => .error e
      | .ok ds => .ok ds
termination_by inp.length - i
decreasing_by
  · have h1 := skipWs_ge inp i
    have h2 := defBracePos_ge_start inp i
    omega
  · have h1 := skipWs_ge inp i
    omega

/-- Model of `parseGraphQLDefinitions`. -/
def parseGraphQLDefinitions (input : List Char) : Except String (List Definition) :=
  parseLoop input 0

/-! ## The definition grouper (`src/lib/graphql-merge.ts`) -/

/-- The merged output record. -/
structure MergedDefinition where
  filename : String
  content : String
  deriving DecidableEq

/-- One step of the grouping `reduce`: `(acc[def.filename] ??= []).push(def)`
(append to the existing group in place, else append a new group). -/
def gInsert (groups : List (String × List Definition)) (d : Definition) :
    List (String × List Definition) :=
  match groups with
  | [] => [(d.filename, [d])]
  | (k, ds) :: rest =>
    if k = d.filename then (k, ds ++ [d]) :: rest else (k, ds) :: gInsert rest d

/-- Group definitions by filename, keys in first-occurrence order
(`Object.entries` of the reduced record). -/
def groupByFilename (defs : List Definition) : List (String × List Definition) :=
  defs.foldl gInsert []

/-- The in-group comparator as a `<= 0` test: equal types compare their raw
content with `localeCompare`, otherwise queries sort before fragments. -/
def defLe (a b : Definition) : Bool :=
  if a.type = b.type then localeLe a.content b.content
  else a.type = DefType.query

/-- Model of `mergeDefinitions`: group by filename, order groups by
`localeCompare` of filename, order entries in each group with `defLe`, wrap
each content in the `graphql` template tag and join with newlines. -/
def mergeDefinitions (defs : List Definition) : List MergedDefinition :=
  (jsSortBy (fun g1 g2 => localeLe g1.1 g2.1) (groupByFilename defs)).map
    (fun g =>
      { filename := g.1,
        content := String.intercalate "\n"
          ((jsSortBy defLe g.2).map fun d => "graphql`" ++ d.content ++ "`") })


/-! ## Claim C1: merge correctness of the Selection Merger -/

/-- Unfold a two-element deduplication run (helper). -/
theorem dedup_pair (x y : Selection) :
    deduplicateSelections [x, y] = mValues (dedupStep (dedupStep [] x) y) := by
  rw [deduplicateSelections_eq_run, dedupRun_cons, dedupRun_cons, dedupRun_nil]

/-- C1 (claim): two sibling field selections with the same merge key, one a
leaf and one bearing a nested selection set, merge into a single field whose
nested selection set is the recursive merge of the two — the leaf adopts the
set — and the alias and arguments of the first occurrence are retained.  The
first three conjuncts settle it for `deduplicateSelections` of
`src/unnamed/part_001` (whose field key is the alias-or-name plus the
canonical argument key); the last two for `mergeSelections` of
`src/lib/inline-relay-query.ts` (whose key appends the raw serialized
argument list, and which patches the merged entry into the output array by
alias). -/
theorem c1_merge_correctness
    (a1 : Option String) (n1 : String) (ar1 : List Argument)
    (a2 : Option String) (n2 : String) (ar2 : List Argument)
    (s : List Selection)
    (halias : a1.getD n1 = a2.getD n2)
    (hargs : createArgumentKey ar1 = createArgumentKey ar2)
    (hargsL : stringify (.arrJ (ar1.map jsonOfArgument)) =
      stringify (.arrJ (ar2.map jsonOfArgument)))
    (hfalsy : aliasFalsy a1 n1 = a1.getD n1) :
    deduplicateSelections [.field a1 n1 ar1 none, .field a2 n2 ar2 (some s)] =
      [.field a1 n1 ar1 (some s)] ∧
    deduplicateSelections [.field a1 n1 ar1 (some s), .field a2 n2 ar2 none] =
      [.field a1 n1 ar1 (some s)] ∧
    (∀ s1 s2, deduplicateSelections [.field a1 n1 ar1 (some s1), .field a2 n2 ar2 (some s2)] =
      [.field a1 n1 ar1 (some (deduplicateSelections (s1 ++ s2)))]) ∧
    mergeSelectionsLib [.field a1 n1 ar1 none, .field a2 n2 ar2 (some s)] =
      [.field a1 n1 ar1 (some s)] ∧
    mergeSelectionsLib [.field a1 n1 ar1 (some s), .field a2 n2 ar2 none] =
      [.field a1 n1 ar1 (some s)] := by
  have hk : createFieldKey a2 n2 ar2 = createFieldKey a1 n1 ar1 := by
    simp [createFieldKey, halias, hargs]
  have hkL : libFieldKey a2 n2 ar2 = libFieldKey a1 n1 ar1 := by
    simp [libFieldKey, halias, hargsL]
  refine ⟨?_, ?_, ?_, ?_, ?_⟩
  · rw [dedup_pair]
    simp [dedupStep, jsObjGet, jsObjSet, hk, mValues, getSet, withSet]
  · rw [dedup_pair]
    simp [dedupStep, jsObjGet, jsObjSet, hk, mValues, getSet, withSet]
  · intro s1 s2
    rw [dedup_pair]
    simp [dedupStep, jsObjGet, jsObjSet, hk, mValues, getSet, withSet]
  · show msGoF _ [] [] _ = _
    simp [msGoF, jsObjGet, jsObjSet, hkL, getSet, withSet, replaceFirst,
      isFieldWithAlias, hfalsy, halias]
  · show msGoF _ [] [] _ = _
    simp [msGoF, jsObjGet, jsObjSet, hkL, getSet, withSet, replaceFirst]

/-- C1 witness: the theorem applied at a concrete aliased leaf field and a
set-bearing field with the same merge key. -/
theorem c1_merge_correctness_witness :
    deduplicateSelections
        [.field (some "al") "f" [] none, .field none "al" [] (some [.field none "x" [] none])] =
      [.field (some "al") "f" [] (some [.field none "x" [] none])] :=
  (c1_merge_correctness (some "al") "f" [] none "al" [] [.field none "x" [] none]
    rfl rfl rfl rfl).1


/-! ## Claim C2: end-to-end inlining of Scenario 1 -/

/-- Scenario 1 input: operation `{ id, account { id }, ...F }` with fragment
`F` on type `T` selecting `{ id, account { x } }`. -/
def scenario1Doc : DocumentNode := ⟨[
  .operationDef "Q" [
    .field none "id" [] none,
    .field none "account" [] (some [.field none "id" [] none]),
    .fragmentSpread "F"],
  .fragmentDef "F" "T" [
    .field none "id" [] none,
    .field none "account" [] (some [.field none "x" [] none])]]⟩

/-- The expected inlined operation: `{ id, account { id, x } }` — the two
`account` occurrences merged, inner selections in first-occurrence order
`id` then `x`, outer selections in order `id` then `account`. -/
def scenario1Expected : DocumentNode := ⟨[
  .operationDef "Q" [
    .field none "id" [] none,
    .field none "account" [] (some [.field none "id" [] none, .field none "x" [] none])]]⟩

/-- C2 (claim): inlining Scenario 1 produces `{ id, account { id, x } }`,
in both implementations of the Fragment Inliner (fuel 5 is ample: the input
nests fragments one level deep). -/
theorem c2_scenario1_inlining :
    inlineFragmentsInDocument 5 scenario1Doc = .ok scenario1Expected ∧
    inlineRelayQueryFromAST 5 scenario1Doc = .ok scenario1Expected := by
  constructor
  · simp [scenario1Doc, scenario1Expected, inlineFragmentsInDocument, buildFragmentMap,
      inlineDefs, inlineOperation, inlineSels, deduplicateSelections, dedupGoF, jsObjGet,
      jsObjSet, mValues, sizeL, sizeSel, createFieldKey, createArgumentKey, isOperationDef,
      List.filter, List.foldl, otherKey]
  · simp [scenario1Doc, scenario1Expected, inlineRelayQueryFromAST, buildFragmentMap,
      inlineDefsLib, inlineOperationLib, inlineSelsLib, mergeSelectionsLib, msGoF, jsObjGet,
      jsObjSet, sizeL, sizeSel, libFieldKey, jsonOfArgument, stringify, stringifyArr,
      isOperationDef, List.filter, List.foldl, getSet, withSet, replaceFirst,
      isFieldWithAlias, aliasFalsy]


/-! ## Properties of the `localeCompare` model and the stable sort -/

theorem lexNat_eq_iff (a b : List Nat) : lexNat a b = .eq ↔ a = b := by
  induction a generalizing b with
  | nil => cases b <;> simp [lexNat]
  | cons x xs ih =>
    cases b with
    | nil => simp [lexNat]
    | cons y ys =>
      simp only [lexNat]
      by_cases h1 : x < y
      · simp only [if_pos h1]
        constructor
        · intro h; cases h
        · intro h
          cases h
          omega
      · rw [if_neg h1]
        by_cases h2 : y < x
        · simp only [if_pos h2]
          constructor
          · intro h; cases h
          · intro h; cases h; omega
        · rw [if_neg h2]
          rw [ih ys]
          constructor
          · intro h
            cases h
            have hxy : x = y := by omega
            rw [hxy]
          · intro h
            cases h
            rfl

theorem lexNat_gt_iff_lt (a b : List Nat) : lexNat a b = .gt ↔ lexNat b a = .lt := by
  induction a generalizing b with
  | nil => cases b <;> simp [lexNat]
  | cons x xs ih =>
    cases b with
    | nil => simp [lexNat]
    | cons y ys =>
      simp only [lexNat]
      by_cases h1 : x < y
      · have h2 : ¬ y < x := by omega
        rw [if_pos h1, if_neg h2, if_pos h1]
        simp
      · rw [if_neg h1]
        by_cases h2 : y < x
        · rw [if_pos h2, if_pos h2]
          simp
        · rw [if_neg h2, if_neg h2, if_neg h1]
          exact ih ys

theorem lexNat_le_trans {a b c : List Nat} (h1 : lexNat a b ≠ .gt) (h2 : lexNat b c ≠ .gt) :
    lexNat a c ≠ .gt := by
  induction a generalizing b c with
  | nil =>
    cases c with
    | nil => simp [lexNat]
    | cons z zs => simp [lexNat]
  | cons x xs ih =>
    cases b with
    | nil =>
      cases c with
      | nil => exact h1
      | cons z zs => simp [lexNat] at h1
    | cons y ys =>
      cases c with
      | nil => simp [lexNat] at h2
      | cons z zs =>
        simp only [lexNat] at h1 h2 ⊢
        rcases Nat.lt_trichotomy x y with hxy | hxy | hxy
        · -- x < y: from h2, y ≤ z, so x < z
          rcases Nat.lt_trichotomy y z with hyz | hyz | hyz
          · rw [if_pos (by omega : x < z)]
            simp
          · rw [if_pos (by omega : x < z)]
            simp
          · exfalso
            apply h2
            rw [if_neg (by omega : ¬ y < z), if_pos hyz]
        · -- x = y
          rw [if_neg (by omega : ¬ x < y), if_neg (by omega : ¬ y < x)] at h1
          rcases Nat.lt_trichotomy y z with hyz | hyz | hyz
          · rw [if_pos (by omega : x < z)]
            simp
          · rw [if_neg (by omega : ¬ x < z), if_neg (by omega : ¬ z < x)]
            rw [if_neg (by omega : ¬ y < z), if_neg (by omega : ¬ z < y)] at h2
            exact ih h1 h2
          · exfalso
            apply h2
            rw [if_neg (by omega : ¬ y < z), if_pos hyz]
        · -- y < x: h1 is gt
          exfalso
          apply h1
          rw [if_neg (by omega : ¬ x < y), if_pos hxy]

theorem lexNat_total (a b : List Nat) : lexNat a b ≠ .gt ∨ lexNat b a ≠ .gt := by
  by_cases h : lexNat a b = .gt
  · right
    rw [lexNat_gt_iff_lt] at h
    rw [h]
    simp
  · left
    exact h





theorem weight_inj {c d : Char} (hp : primWeight c = primWeight d)
    (hc : caseWeight c = caseWeight d) : c = d := by
  have htn : c.toNat = d.toNat := by
    by_cases h1 : 65 ≤ c.toNat ∧ c.toNat ≤ 90
    · by_cases h2 : 65 ≤ d.toNat ∧ d.toNat ≤ 90
      · simp only [primWeight, if_pos h1, if_pos h2] at hp
        omega
      · simp only [caseWeight, if_pos h1, if_neg h2] at hc
        omega
    · by_cases h2 : 65 ≤ d.toNat ∧ d.toNat ≤ 90
      · simp only [caseWeight, if_neg h1, if_pos h2] at hc
        omega
      · simp only [primWeight, if_neg h1, if_neg h2] at hp
        exact hp
  calc c = Char.ofNat c.toNat := (Char.ofNat_toNat c).symm
    _ = Char.ofNat d.toNat := by rw [htn]
    _ = d := Char.ofNat_toNat d

theorem weights_inj : ∀ (l1 l2 : List Char),
    l1.map primWeight = l2.map primWeight → l1.map caseWeight = l2.map caseWeight →
    l1 = l2 := by
  intro l1
  induction l1 with
  | nil =>
    intro l2 hp hc
    cases l2 with
    | nil => rfl
    | cons y ys => simp at hp
  | cons x xs ih =>
    intro l2 hp hc
    cases l2 with
    | nil => simp at hp
    | cons y ys =>
      simp only [List.map_cons, List.cons.injEq] at hp hc
      rw [weight_inj hp.1 hc.1, ih ys hp.2 hc.2]

theorem localeCompare_eq_eq {a b : String} (h : localeCompare a b = .eq) : a = b := by
  unfold localeCompare at h
  cases hp : lexNat (a.toList.map primWeight) (b.toList.map primWeight) with
  | eq =>
    rw [hp] at h
    have h1 := (lexNat_eq_iff _ _).mp hp
    have h2 := (lexNat_eq_iff _ _).mp h
    have := weights_inj _ _ h1 h2
    exact String.ext (by
      have : a.toList = b.toList := this
      simpa [String.toList] using this)
  | lt => rw [hp] at h; cases h
  | gt => rw [hp] at h; cases h

theorem localeLe_total (a b : String) : localeLe a b = true ∨ localeLe b a = true := by
  simp only [localeLe, ne_eq, decide_eq_true_eq]
  unfold localeCompare
  rcases lexNat_total (a.toList.map primWeight) (b.toList.map primWeight) with h | h
  · cases hp : lexNat (a.toList.map primWeight) (b.toList.map primWeight) with
    | eq =>
      have hpe := (lexNat_eq_iff _ _).mp hp
      have hpe2 : lexNat (b.toList.map primWeight) (a.toList.map primWeight) = .eq :=
        (lexNat_eq_iff _ _).mpr hpe.symm
      rw [hpe2]
      rcases lexNat_total (a.toList.map caseWeight) (b.toList.map caseWeight) with h2 | h2
      · left; exact h2
      · right; exact h2
    | lt =>
      left
      simp
    | gt => rw [hp] at h; simp at h
  · cases hp : lexNat (b.toList.map primWeight) (a.toList.map primWeight) with
    | eq =>
      have hpe := (lexNat_eq_iff _ _).mp hp
      have hpe2 : lexNat (a.toList.map primWeight) (b.toList.map primWeight) = .eq :=
        (lexNat_eq_iff _ _).mpr hpe.symm
      rw [hpe2]
      rcases lexNat_total (a.toList.map caseWeight) (b.toList.map caseWeight) with h2 | h2
      · left; exact h2
      · right; exact h2
    | lt =>
      right
      simp
    | gt => rw [hp] at h; simp at h

theorem localeLe_trans {a b c : String} (h1 : localeLe a b = true) (h2 : localeLe b c = true) :
    localeLe a c = true := by
  simp only [localeLe, ne_eq, decide_eq_true_eq] at h1 h2 ⊢
  unfold localeCompare at h1 h2 ⊢
  cases hab : lexNat (a.toList.map primWeight) (b.toList.map primWeight) with
  | gt => rw [hab] at h1; simp at h1
  | lt =>
    rw [hab] at h1
    cases hbc : lexNat (b.toList.map primWeight) (c.toList.map primWeight) with
    | gt => rw [hbc] at h2; simp at h2
    | lt =>
      have hac : lexNat (a.toList.map primWeight) (c.toList.map primWeight) ≠ .gt := by
        apply lexNat_le_trans (by rw [hab]; simp) (by rw [hbc]; simp)
      cases hac2 : lexNat (a.toList.map primWeight) (c.toList.map primWeight) with
      | gt => exact absurd hac2 hac
      | lt => simp
      | eq =>
        -- prim a = prim c; then prim b is both above a (? no)
        have he := (lexNat_eq_iff _ _).mp hac2
        rw [← he] at hbc
        have hgt : lexNat (b.toList.map primWeight) (a.toList.map primWeight) = .gt :=
          (lexNat_gt_iff_lt _ _).mpr hab
        rw [hgt] at hbc
        cases hbc
    | eq =>
      have he := (lexNat_eq_iff _ _).mp hbc
      rw [he] at hab
      rw [hab]
      simp
  | eq =>
    rw [hab] at h1
    have he := (lexNat_eq_iff _ _).mp hab
    cases hbc : lexNat (b.toList.map primWeight) (c.toList.map primWeight) with
    | gt => rw [hbc] at h2; simp at h2
    | lt =>
      rw [he]
      rw [hbc]
      simp
    | eq =>
      rw [hbc] at h2
      have he2 := (lexNat_eq_iff _ _).mp hbc
      have hace : lexNat (a.toList.map primWeight) (c.toList.map primWeight) = .eq := by
        rw [lexNat_eq_iff]
        rw [he, he2]
      rw [hace]
      exact lexNat_le_trans h1 h2



theorem jsInsert_perm (le : α → α → Bool) (x : α) (l : List α) :
    (jsInsert le x l).Perm (x :: l) := by
  induction l with
  | nil => simp [jsInsert]
  | cons y ys ih =>
    simp only [jsInsert]
    by_cases h : le y x ∧ ¬ le x y
    · rw [if_pos h]
      exact (List.Perm.cons y ih).trans (List.Perm.swap x y ys)
    · rw [if_neg h]

theorem jsSortBy_perm (le : α → α → Bool) (l : List α) : (jsSortBy le l).Perm l := by
  induction l with
  | nil => simp [jsSortBy]
  | cons x xs ih =>
    simp only [jsSortBy]
    exact (jsInsert_perm le x _).trans (List.Perm.cons x ih)

theorem jsInsert_pairwise (le : α → α → Bool)
    (htot : ∀ a b, le a b = true ∨ le b a = true)
    (htrans : ∀ a b c, le a b = true → le b c = true → le a c = true)
    (x : α) (l : List α) (hl : l.Pairwise (fun a b => le a b = true)) :
    (jsInsert le x l).Pairwise (fun a b => le a b = true) := by
  induction l with
  | nil => simp [jsInsert]
  | cons y ys ih =>
    simp only [jsInsert]
    rcases List.pairwise_cons.mp hl with ⟨hy, hys⟩
    by_cases h : le y x ∧ ¬ le x y
    · rw [if_pos h]
      rw [List.pairwise_cons]
      refine ⟨?_, ih hys⟩
      intro b hb
      have hmem : b ∈ x :: ys := (jsInsert_perm le x ys).mem_iff.mp hb
      rcases List.mem_cons.mp hmem with rfl | hb2
      · exact h.1
      · exact hy b hb2
    · rw [if_neg h]
      rw [List.pairwise_cons]
      have hxy : le x y = true := by
        rcases htot x y with h2 | h2
        · exact h2
        · by_cases h3 : le x y = true
          · exact h3
          · exact absurd ⟨h2, h3⟩ h
      refine ⟨?_, hl⟩
      intro b hb
      rcases List.mem_cons.mp hb with rfl | hb2
      · exact hxy
      · exact htrans x y b hxy (hy b hb2)

theorem jsSortBy_pairwise (le : α → α → Bool)
    (htot : ∀ a b, le a b = true ∨ le b a = true)
    (htrans : ∀ a b c, le a b = true → le b c = true → le a c = true)
    (l : List α) : (jsSortBy le l).Pairwise (fun a b => le a b = true) := by
  induction l with
  | nil => simp [jsSortBy]
  | cons x xs ih =>
    simp only [jsSortBy]
    exact jsInsert_pairwise le htot htrans x _ ih

theorem sorted_perm_unique (le : α → α → Bool) :
    ∀ (l1 l2 : List α), l1.Perm l2 →
    l1.Pairwise (fun a b => le a b = true) →
    l2.Pairwise (fun a b => le a b = true) →
    (∀ a ∈ l1, ∀ b ∈ l1, le a b = true → le b a = true → a = b) →
    l1 = l2 := by
  intro l1
  induction l1 with
  | nil =>
    intro l2 hperm _ _ _
    exact List.Perm.nil_eq hperm
  | cons x t1 ih =>
    intro l2 hperm h1 h2 hA
    cases l2 with
    | nil => exact absurd hperm.symm (by simp)
    | cons y t2 =>
      by_cases hxy : x = y
      · subst hxy
        have hperm2 : t1.Perm t2 := (List.perm_cons x).mp hperm
        rw [ih t2 hperm2 (List.pairwise_cons.mp h1).2 (List.pairwise_cons.mp h2).2
          (fun a ha b hb => hA a (List.mem_cons_of_mem x ha) b (List.mem_cons_of_mem x hb))]
      · exfalso
        have hymem : y ∈ x :: t1 := hperm.symm.subset (List.mem_cons_self y t2)
        have hy1 : y ∈ t1 := by
          rcases List.mem_cons.mp hymem with h | h
          · exact absurd h.symm hxy
          · exact h
        have hxmem : x ∈ y :: t2 := hperm.subset (List.mem_cons_self x t1)
        have hx2 : x ∈ t2 := by
          rcases List.mem_cons.mp hxmem with h | h
          · exact absurd h hxy
          · exact h
        have hlexy : le x y = true := (List.pairwise_cons.mp h1).1 y hy1
        have hleyx : le y x = true := (List.pairwise_cons.mp h2).1 x hx2
        exact hxy (hA x (List.mem_cons_self x t1) y (List.mem_cons_of_mem x hy1) hlexy hleyx)

theorem localeCompare_gt_iff_lt (a b : String) :
    localeCompare a b = .gt ↔ localeCompare b a = .lt := by
  unfold localeCompare
  cases hp : lexNat (a.toList.map primWeight) (b.toList.map primWeight) with
  | eq =>
    have hpe := (lexNat_eq_iff _ _).mp hp
    have hp2 : lexNat (b.toList.map primWeight) (a.toList.map primWeight) = .eq :=
      (lexNat_eq_iff _ _).mpr hpe.symm
    rw [hp2]
    exact lexNat_gt_iff_lt _ _
  | lt =>
    have hp2 : lexNat (b.toList.map primWeight) (a.toList.map primWeight) = .gt :=
      (lexNat_gt_iff_lt _ _).mpr hp
    rw [hp2]
    simp
  | gt =>
    have hp2 : lexNat (b.toList.map primWeight) (a.toList.map primWeight) = .lt :=
      (lexNat_gt_iff_lt _ _).mp hp
    rw [hp2]
    simp

theorem localeLe_antisymm {a b : String} (h1 : localeLe a b = true) (h2 : localeLe b a = true) :
    a = b := by
  simp only [localeLe, ne_eq, decide_eq_true_eq] at h1 h2
  apply localeCompare_eq_eq
  cases h : localeCompare a b with
  | eq => rfl
  | gt => exact absurd h h1
  | lt =>
    exfalso
    apply h2
    exact (localeCompare_gt_iff_lt b a).mpr h

theorem eq_of_fst_eq_of_nodup_keys {β : Type} :
    ∀ {l : List (String × β)}, (l.map Prod.fst).Nodup →
    ∀ {a b : String × β}, a ∈ l → b ∈ l → a.1 = b.1 → a = b := by
  intro l
  induction l with
  | nil =>
    intro _ a b ha
    simp at ha
  | cons p rest ih =>
    intro hnd a b ha hb hfst
    simp only [List.map_cons, List.nodup_cons] at hnd
    rcases List.mem_cons.mp ha with rfl | ha2
    · rcases List.mem_cons.mp hb with rfl | hb2
      · rfl
      · exfalso
        apply hnd.1
        rw [hfst]
        exact List.mem_map_of_mem Prod.fst hb2
    · rcases List.mem_cons.mp hb with rfl | hb2
      · exfalso
        apply hnd.1
        rw [← hfst]
        exact List.mem_map_of_mem Prod.fst ha2
      · exact ih hnd.2 ha2 hb2 hfst


/-! ## Claim C3: argument-order invariance -/

/-- The normalized `{ name, value }` record of one argument (helper). -/
def normalizedArgPair (a : Argument) : String × JsValue :=
  (a.name, normalizeValueNode a.value)

theorem createArgumentKey_perm (args1 args2 : List Argument)
    (hperm : args1.Perm args2) (hnd : (args1.map Argument.name).Nodup) :
    createArgumentKey args1 = createArgumentKey args2 := by
  cases args1 with
  | nil =>
    rw [List.Perm.nil_eq hperm]
  | cons a rest =>
    cases h2 : args2 with
    | nil =>
      subst h2
      exact absurd (List.Perm.nil_eq hperm.symm) (by simp)
    | cons b rest2 =>
      subst h2
      show stringify _ = stringify _
      have hpermL : ((a :: rest).map fun x => (x.name, normalizeValueNode x.value)).Perm
          ((b :: rest2).map fun x => (x.name, normalizeValueNode x.value)) :=
        hperm.map _
      have htot : ∀ p q : String × JsValue,
          (fun p q : String × JsValue => localeLe p.1 q.1) p q = true ∨
          (fun p q : String × JsValue => localeLe p.1 q.1) q p = true := by
        intro p q
        exact localeLe_total p.1 q.1
      have htrans : ∀ p q r : String × JsValue,
          (fun p q : String × JsValue => localeLe p.1 q.1) p q = true →
          (fun p q : String × JsValue => localeLe p.1 q.1) q r = true →
          (fun p q : String × JsValue => localeLe p.1 q.1) p r = true := by
        intro p q r h1 h2
        exact localeLe_trans h1 h2
      have hS : jsSortBy (fun p q : String × JsValue => localeLe p.1 q.1)
            ((a :: rest).map fun x => (x.name, normalizeValueNode x.value)) =
          jsSortBy (fun p q : String × JsValue => localeLe p.1 q.1)
            ((b :: rest2).map fun x => (x.name, normalizeValueNode x.value)) := by
        apply sorted_perm_unique
        · exact ((jsSortBy_perm _ _).trans hpermL).trans (jsSortBy_perm _ _).symm
        · exact jsSortBy_pairwise _ htot htrans _
        · exact jsSortBy_pairwise _ htot htrans _
        · intro p hp q hq hle1 hle2
          have hfst : p.1 = q.1 := localeLe_antisymm hle1 hle2
          have hmem := (jsSortBy_perm (fun p q : String × JsValue => localeLe p.1 q.1)
            ((a :: rest).map fun x => (x.name, normalizeValueNode x.value))).subset
          have hkeys : (((a :: rest).map fun x => (x.name, normalizeValueNode x.value)).map
              Prod.fst).Nodup := by
            rw [List.map_map]
            exact hnd
          exact eq_of_fst_eq_of_nodup_keys hkeys (hmem hp) (hmem hq) hfst
      rw [hS]

/-- C3 counterexample input: `f(a: 1, b: 2)`. -/
def c3FieldAB : Selection := .field none "f" [⟨"a", .intV "1"⟩, ⟨"b", .intV "2"⟩] none

/-- C3 counterexample input: `f(b: 2, a: 1)`. -/
def c3FieldBA : Selection := .field none "f" [⟨"b", .intV "2"⟩, ⟨"a", .intV "1"⟩] none

/-- C3 counterexample: in `mergeSelections` of `inline-relay-query.ts` the
fields `f(a: 1, b: 2)` and `f(b: 2, a: 1)`, which differ only in the order of
their argument pairs, receive different merge keys and are not merged — the
output keeps both sibling fields. -/
theorem c3_lib_not_order_invariant :
    libFieldKey none "f" [⟨"a", .intV "1"⟩, ⟨"b", .intV "2"⟩] ≠
      libFieldKey none "f" [⟨"b", .intV "2"⟩, ⟨"a", .intV "1"⟩] ∧
    mergeSelectionsLib [c3FieldAB, c3FieldBA] = [c3FieldAB, c3FieldBA] := by
  constructor
  · decide
  · show msGoF _ [] [] _ = _
    simp [msGoF, c3FieldAB, c3FieldBA, jsObjGet, jsObjSet, libFieldKey, jsonOfArgument,
      jsonOfValueAst, stringify, stringifyArr, stringifyObj, jsonEscape, jsonEscapeChar,
      String.join]

/-- C3 (amended): the canonicalization `createArgumentKey` sorts the argument
pairs by name, so any two argument lists equal up to reordering (with the
language-guaranteed distinct names) produce byte-identical keys, and two
sibling fields differing only in argument order merge into one field in
`deduplicateSelections`.  (`mergeSelections` of `inline-relay-query.ts`,
which serializes the raw argument list without sorting, does not have this
property — see the counterexample.) -/
theorem c3_argument_order_invariance (args1 args2 : List Argument)
    (hperm : args1.Perm args2) (hnd : (args1.map Argument.name).Nodup) :
    createArgumentKey args1 = createArgumentKey args2 ∧
    ∀ (a : Option String) (n : String),
      deduplicateSelections [.field a n args1 none, .field a n args2 none] =
        [.field a n args1 none] := by
  have hkey := createArgumentKey_perm args1 args2 hperm hnd
  refine ⟨hkey, ?_⟩
  intro a n
  have hk : createFieldKey a n args2 = createFieldKey a n args1 := by
    simp [createFieldKey, hkey]
  rw [dedup_pair]
  simp [dedupStep, jsObjGet, jsObjSet, hk, mValues, getSet, withSet]

/-- C3 witness: the amended theorem applied to `(a: 1, b: 2)` versus
`(b: 2, a: 1)`. -/
theorem c3_argument_order_invariance_witness :
    createArgumentKey [⟨"a", .intV "1"⟩, ⟨"b", .intV "2"⟩] =
      createArgumentKey [⟨"b", .intV "2"⟩, ⟨"a", .intV "1"⟩] ∧
    deduplicateSelections [c3FieldAB, c3FieldBA] = [c3FieldAB] := by
  have h := c3_argument_order_invariance
    [⟨"a", .intV "1"⟩, ⟨"b", .intV "2"⟩] [⟨"b", .intV "2"⟩, ⟨"a", .intV "1"⟩]
    (List.Perm.swap (⟨"b", .intV "2"⟩ : Argument) (⟨"a", .intV "1"⟩ : Argument) [])
    (by simp)
  exact ⟨h.1, h.2 none "f"⟩

/-! ## Spread-freeness and its preservation by the merger

`noSpreadSel` / `noSpreadL` decide that a selection tree (or forest)
contains no `FragmentSpread` node at any depth — the postcondition the
inliner is claimed to establish. -/

mutual

/-- No `FragmentSpread` occurs anywhere in this selection tree. -/
def noSpreadSel : Selection → Bool
  | .field _ _ _ none => true
  | .field _ _ _ (some s) => noSpreadL s
  | .inlineFragment _ s => noSpreadL s
  | .fragmentSpread _ => false

/-- No `FragmentSpread` occurs anywhere in this selection forest. -/
def noSpreadL : List Selection → Bool
  | [] => true
  | s :: rest => noSpreadSel s && noSpreadL rest

end

@[simp] theorem noSpreadL_nil : noSpreadL [] = true := rfl

@[simp] theorem noSpreadL_cons (s : Selection) (l : List Selection) :
    noSpreadL (s :: l) = (noSpreadSel s && noSpreadL l) := rfl

theorem noSpreadL_append (l1 l2 : List Selection) :
    noSpreadL (l1 ++ l2) = (noSpreadL l1 && noSpreadL l2) := by
  induction l1 with
  | nil => simp
  | cons x xs ih => simp [ih, Bool.and_assoc]

/-- A value read back from a spread-free map is spread-free. -/
theorem noSpread_get {m : List (String × Selection)} {k : String} {v : Selection}
    (hm : noSpreadL (mValues m) = true) (hget : jsObjGet m k = some v) :
    noSpreadSel v = true := by
  induction m with
  | nil => simp [jsObjGet] at hget
  | cons p rest ih =>
    obtain ⟨k1, v1⟩ := p
    simp only [mValues, List.map_cons, noSpreadL_cons, Bool.and_eq_true] at hm
    simp only [jsObjGet] at hget
    by_cases hk : k1 = k
    · rw [if_pos hk] at hget
      cases hget
      exact hm.1
    · rw [if_neg hk] at hget
      exact ih hm.2 hget

/-- Upserting a spread-free value into a spread-free map keeps every value
spread-free. -/
theorem noSpread_set {m : List (String × Selection)} (k : String) {v : Selection}
    (hm : noSpreadL (mValues m) = true) (hv : noSpreadSel v = true) :
    noSpreadL (mValues (jsObjSet m k v)) = true := by
  induction m with
  | nil => simp [jsObjSet, mValues, hv]
  | cons p rest ih =>
    obtain ⟨k1, v1⟩ := p
    simp only [mValues, List.map_cons, noSpreadL_cons, Bool.and_eq_true] at hm
    simp only [jsObjSet]
    by_cases hk : k1 = k
    · rw [if_pos hk]
      simp only [mValues, List.map_cons, noSpreadL_cons, Bool.and_eq_true]
      exact ⟨hv, hm.2⟩
    · rw [if_neg hk]
      simp only [mValues, List.map_cons, noSpreadL_cons, Bool.and_eq_true]
      exact ⟨hm.1, ih hm.2⟩

/-- `withSet` with a spread-free set on a spread-free node is spread-free. -/
theorem noSpread_withSet {x : Selection} {s : List Selection}
    (hx : noSpreadSel x = true) (hs : noSpreadL s = true) :
    noSpreadSel (withSet x (some s)) = true := by
  cases x with
  | field a n ar so => simpa [withSet, noSpreadSel] using hs
  | inlineFragment t u => simpa [withSet, noSpreadSel] using hs
  | fragmentSpread n => simp [noSpreadSel] at hx

/-- The defaulted nested set of a spread-free node is spread-free. -/
theorem noSpread_getSetD {x : Selection} (hx : noSpreadSel x = true) :
    noSpreadL ((getSet x).getD []) = true := by
  cases x with
  | field a n ar so =>
    cases so with
    | none => simp [getSet]
    | some s => simpa [getSet, noSpreadSel] using hx
  | inlineFragment t s => simpa [getSet, noSpreadSel] using hx
  | fragmentSpread n => simp [noSpreadSel] at hx

/-- The merge loop preserves spread-freeness: if every map value and every
pending selection is spread-free, so is every value of the resulting map
(at any fuel, since a fuel-exhausted branch returns the accumulated map). -/
theorem dedupGoF_noSpread (fuel : Nat) (m : List (String × Selection)) (l : List Selection) :
    noSpreadL (mValues m) = true → noSpreadL l = true →
    noSpreadL (mValues (dedupGoF fuel m l)) = true := by
  induction fuel, m, l using dedupGoF.induct with
  | case1 x m =>
    intro hm hl
    simpa [dedupGoF] using hm
  | case2 m rest a n ar a1 n1 ar1 s1 s2 hget =>
    intro hm hl
    simpa [dedupGoF, hget] using hm
  | case3 m rest a n ar a1 n1 ar1 s1 s2 fuel2 hget ih1 ih2 =>
    intro hm hl
    simp only [noSpreadL_cons, noSpreadSel, Bool.and_eq_true] at hl
    have hs1 : noSpreadL s1 = true := by
      have hx := noSpread_get hm hget
      simpa [noSpreadSel] using hx
    have hInner : noSpreadL (mValues (dedupGoF fuel2 [] (s1 ++ s2))) = true := by
      apply ih1
      · simp [mValues]
      · rw [noSpreadL_append, hs1, hl.1]
        rfl
    simp only [dedupGoF, hget]
    apply ih2
    · apply noSpread_set _ hm
      simpa [noSpreadSel] using hInner
    · exact hl.2
  | case4 fuel m rest a n ar a1 n1 ar1 s1 hget ih =>
    intro hm hl
    simp only [noSpreadL_cons, noSpreadSel, Bool.and_eq_true] at hl
    simp only [dedupGoF, hget]
    apply ih
    · exact noSpread_set _ hm (noSpread_get hm hget)
    · exact hl.2
  | case5 fuel m rest a n ar a1 n1 ar1 s2 hget ih =>
    intro hm hl
    simp only [noSpreadL_cons, noSpreadSel, Bool.and_eq_true] at hl
    simp only [dedupGoF, hget]
    apply ih
    · apply noSpread_set _ hm
      simpa [noSpreadSel] using hl.1
    · exact hl.2
  | case6 fuel m rest a n ar a1 n1 ar1 hget ih =>
    intro hm hl
    simp only [noSpreadL_cons, noSpreadSel, Bool.and_eq_true] at hl
    simp only [dedupGoF, hget]
    exact ih hm hl.2
  | case7 m rest a n ar t1 s1 s2 hget =>
    intro hm hl
    simpa [dedupGoF, hget] using hm
  | case8 m rest a n ar t1 s1 s2 fuel2 hget ih1 ih2 =>
    intro hm hl
    simp only [noSpreadL_cons, noSpreadSel, Bool.and_eq_true] at hl
    have hs1 : noSpreadL s1 = true := by
      have hx := noSpread_get hm hget
      simpa [noSpreadSel] using hx
    have hInner : noSpreadL (mValues (dedupGoF fuel2 [] (s1 ++ s2))) = true := by
      apply ih1
      · simp [mValues]
      · rw [noSpreadL_append, hs1, hl.1]
        rfl
    simp only [dedupGoF, hget]
    apply ih2
    · apply noSpread_set _ hm
      simpa [noSpreadSel] using hInner
    · exact hl.2
  | case9 fuel m rest a n ar t1 s1 hget ih =>
    intro hm hl
    simp only [noSpreadL_cons, noSpreadSel, Bool.and_eq_true] at hl
    simp only [dedupGoF, hget]
    apply ih
    · exact noSpread_set _ hm (noSpread_get hm hget)
    · exact hl.2
  | case10 fuel m rest a n ar n1 s2 hget ih =>
    intro hm hl
    have hx := noSpread_get hm hget
    simp [noSpreadSel] at hx
  | case11 fuel m rest a n ar n1 hget ih =>
    intro hm hl
    simp only [noSpreadL_cons, noSpreadSel, Bool.and_eq_true] at hl
    simp only [dedupGoF, hget]
    exact ih hm hl.2
  | case12 fuel m rest a n ar so hget ih =>
    intro hm hl
    simp only [noSpreadL_cons, Bool.and_eq_true] at hl
    simp only [dedupGoF, hget]
    exact ih (noSpread_set _ hm hl.1) hl.2
  | case13 m rest t s existing hget =>
    intro hm hl
    simpa [dedupGoF, hget] using hm
  | case14 m rest t s existing hget fuel2 ih1 ih2 =>
    intro hm hl
    simp only [noSpreadL_cons, noSpreadSel, Bool.and_eq_true] at hl
    have hx := noSpread_get hm hget
    have hInner : noSpreadL (mValues (dedupGoF fuel2 []
        ((getSet existing).getD [] ++ s))) = true := by
      apply ih1
      · simp [mValues]
      · rw [noSpreadL_append, noSpread_getSetD hx, hl.1]
        rfl
    simp only [dedupGoF, hget]
    apply ih2
    · exact noSpread_set _ hm (noSpread_withSet hx hInner)
    · exact hl.2
  | case15 fuel m rest t s hget ih =>
    intro hm hl
    simp only [noSpreadL_cons, noSpreadSel, Bool.and_eq_true] at hl
    simp only [dedupGoF, hget]
    apply ih
    · apply noSpread_set _ hm
      simpa [noSpreadSel] using hl.1
    · exact hl.2
  | case16 fuel m rest n ih =>
    intro hm hl
    simp [noSpreadSel] at hl

/-- `deduplicateSelections` preserves spread-freeness. -/
theorem noSpread_dedup {l : List Selection} (hl : noSpreadL l = true) :
    noSpreadL (deduplicateSelections l) = true := by
  unfold deduplicateSelections
  apply dedupGoF_noSpread
  · simp [mValues]
  · exact hl

/-- A successful `inlineSels` run leaves no fragment spread anywhere in its
output, at any depth: every spread is replaced by its (recursively inlined)
fragment body, whose own successful run is spread-free by induction. -/
theorem inlineSels_noSpread (fuel : Nat) (fm : List (String × FragNode))
    (l : List Selection) : ∀ r, inlineSels fuel fm l = .ok r → noSpreadL r = true := by
  induction fuel, fm, l using inlineSels.induct with
  | case1 fuel fm =>
    intro r hok
    simp only [inlineSels] at hok
    cases hok
    simp
  | case2 fuel fm n rest hget =>
    intro r hok
    simp [inlineSels, hget] at hok
  | case3 fm n rest frag hget =>
    intro r hok
    simp [inlineSels, hget] at hok
  | case4 fm n rest frag hget fuel2 hinner ih =>
    intro r hok
    simp [inlineSels, hget, hinner] at hok
  | case5 fm n rest frag hget fuel2 msg hinner ih =>
    intro r hok
    simp [inlineSels, hget, hinner] at hok
  | case6 fm n rest frag hget fuel2 inner hinner hrest ih1 ih2 =>
    intro r hok
    simp [inlineSels, hget, hinner, hrest] at hok
  | case7 fm n rest frag hget fuel2 inner hinner msg hrest ih1 ih2 =>
    intro r hok
    simp [inlineSels, hget, hinner, hrest] at hok
  | case8 fm n rest frag hget fuel2 inner hinner restR hrest ih1 ih2 =>
    intro r hok
    simp only [inlineSels, hget, hinner, hrest] at hok
    cases hok
    rw [noSpreadL_append]
    rw [noSpread_dedup (ih1 inner hinner), ih2 restR hrest]
    rfl
  | case9 fuel fm a n ar s rest hinner ih =>
    intro r hok
    simp [inlineSels, hinner] at hok
  | case10 fuel fm a n ar s rest msg hinner ih =>
    intro r hok
    simp [inlineSels, hinner] at hok
  | case11 fuel fm a n ar s rest inner hinner hrest ih1 ih2 =>
    intro r hok
    simp [inlineSels, hinner, hrest] at hok
  | case12 fuel fm a n ar s rest inner hinner msg hrest ih1 ih2 =>
    intro r hok
    simp [inlineSels, hinner, hrest] at hok
  | case13 fuel fm a n ar s rest inner hinner restR hrest ih1 ih2 =>
    intro r hok
    simp only [inlineSels, hinner, hrest] at hok
    cases hok
    simp only [noSpreadL_cons, noSpreadSel]
    rw [noSpread_dedup (ih1 inner hinner), ih2 restR hrest]
    rfl
  | case14 fuel fm a n ar rest hrest ih =>
    intro r hok
    simp [inlineSels, hrest] at hok
  | case15 fuel fm a n ar rest msg hrest ih =>
    intro r hok
    simp [inlineSels, hrest] at hok
  | case16 fuel fm a n ar rest restR hrest ih =>
    intro r hok
    simp only [inlineSels, hrest] at hok
    cases hok
    simp only [noSpreadL_cons, noSpreadSel]
    rw [ih restR hrest]
    rfl
  | case17 fuel fm t s rest hinner ih =>
    intro r hok
    simp [inlineSels, hinner] at hok
  | case18 fuel fm t s rest msg hinner ih =>
    intro r hok
    simp [inlineSels, hinner] at hok
  | case19 fuel fm t s rest inner hinner hrest ih1 ih2 =>
    intro r hok
    simp [inlineSels, hinner, hrest] at hok
  | case20 fuel fm t s rest inner hinner msg hrest ih1 ih2 =>
    intro r hok
    simp [inlineSels, hinner, hrest] at hok
  | case21 fuel fm t s rest inner hinner restR hrest ih1 ih2 =>
    intro r hok
    simp only [inlineSels, hinner, hrest] at hok
    cases hok
    simp only [noSpreadL_cons, noSpreadSel]
    rw [noSpread_dedup (ih1 inner hinner), ih2 restR hrest]
    rfl

/-- The nested set of a spread-free node is spread-free. -/
theorem noSpread_getSet {x : Selection} {s : List Selection}
    (hx : noSpreadSel x = true) (hs : getSet x = some s) : noSpreadL s = true := by
  have h := noSpread_getSetD hx
  rw [hs] at h
  simpa using h

/-- `replaceFirst` with a spread-free replacement preserves spread-freeness. -/
theorem noSpread_replaceFirst (p : Selection → Bool) {v : Selection}
    (hv : noSpreadSel v = true) :
    ∀ {out : List Selection}, noSpreadL out = true →
      noSpreadL (replaceFirst p v out) = true := by
  intro out
  induction out with
  | nil => intro h; simpa [replaceFirst] using h
  | cons x xs ih =>
    intro h
    simp only [noSpreadL_cons, Bool.and_eq_true] at h
    simp only [replaceFirst]
    by_cases hp : p x = true
    · rw [if_pos hp]
      simp only [noSpreadL_cons, Bool.and_eq_true]
      exact ⟨hv, h.2⟩
    · rw [if_neg hp]
      simp only [noSpreadL_cons, Bool.and_eq_true]
      exact ⟨h.1, ih h.2⟩

/-- The `mergeSelections` loop of `inline-relay-query.ts` preserves
spread-freeness of the accumulated output when the `seen` map, the output so
far and the pending list are spread-free (any fuel: exhaustion returns the
accumulated output). -/
theorem msGoF_noSpread (fuel : Nat) (seen : List (String × Selection))
    (out l : List Selection) :
    noSpreadL (mValues seen) = true → noSpreadL out = true → noSpreadL l = true →
    noSpreadL (msGoF fuel seen out l) = true := by
  induction fuel, seen, out, l using msGoF.induct with
  | case1 x m out =>
    intro hseen hout hl
    simpa [msGoF] using hout
  | case2 fuel seen out rest a n ar existing hget ih =>
    intro hseen hout hl
    simp only [noSpreadL_cons, Bool.and_eq_true] at hl
    simp only [msGoF, hget]
    exact ih hseen hout hl.2
  | case3 seen out rest a n ar existing hget s2 s1 hset =>
    intro hseen hout hl
    simpa [msGoF, hget, hset] using hout
  | case4 seen out rest a n ar existing hget s2 s1 hset fuel2 ih1 ih2 =>
    intro hseen hout hl
    simp only [noSpreadL_cons, noSpreadSel, Bool.and_eq_true] at hl
    have hx := noSpread_get hseen hget
    have hs1 := noSpread_getSet hx hset
    have hInner : noSpreadL (msGoF fuel2 [] [] (s1 ++ s2)) = true := by
      apply ih1
      · simp [mValues]
      · rfl
      · rw [noSpreadL_append, hs1, hl.1]
        rfl
    have hv := noSpread_withSet hx hInner
    simp only [msGoF, hget, hset]
    apply ih2
    · exact noSpread_set _ hseen hv
    · exact noSpread_replaceFirst _ hv hout
    · exact hl.2
  | case5 fuel seen out rest a n ar existing hget s2 hset ih =>
    intro hseen hout hl
    simp only [noSpreadL_cons, noSpreadSel, Bool.and_eq_true] at hl
    have hx := noSpread_get hseen hget
    have hv := noSpread_withSet hx hl.1
    simp only [msGoF, hget, hset]
    apply ih
    · exact noSpread_set _ hseen hv
    · exact noSpread_replaceFirst _ hv hout
    · exact hl.2
  | case6 fuel seen out rest a n ar so hget ih =>
    intro hseen hout hl
    simp only [noSpreadL_cons, Bool.and_eq_true] at hl
    simp only [msGoF, hget]
    apply ih
    · exact noSpread_set _ hseen hl.1
    · rw [noSpreadL_append, hout]
      simpa using hl.1
    · exact hl.2
  | case7 seen out rest t s existing hget =>
    intro hseen hout hl
    simpa [msGoF, hget] using hout
  | case8 seen out rest t s existing hget fuel2 ih1 ih2 =>
    intro hseen hout hl
    simp only [noSpreadL_cons, noSpreadSel, Bool.and_eq_true] at hl
    have hx := noSpread_get hseen hget
    have hInner : noSpreadL (msGoF fuel2 [] [] ((getSet existing).getD [] ++ s)) = true := by
      apply ih1
      · simp [mValues]
      · rfl
      · rw [noSpreadL_append, noSpread_getSetD hx, hl.1]
        rfl
    have hv := noSpread_withSet hx hInner
    simp only [msGoF, hget]
    apply ih2
    · exact noSpread_set _ hseen hv
    · exact noSpread_replaceFirst _ hv hout
    · exact hl.2
  | case9 fuel seen out rest t s hget ih =>
    intro hseen hout hl
    simp only [noSpreadL_cons, noSpreadSel, Bool.and_eq_true] at hl
    simp only [msGoF, hget]
    apply ih
    · apply noSpread_set _ hseen
      simpa [noSpreadSel] using hl.1
    · rw [noSpreadL_append, hout]
      simpa [noSpreadSel] using hl.1
    · exact hl.2
  | case10 fuel seen out rest n ih =>
    intro hseen hout hl
    simp [noSpreadSel] at hl

/-- `mergeSelectionsLib` preserves spread-freeness. -/
theorem noSpread_mergeLib {l : List Selection} (hl : noSpreadL l = true) :
    noSpreadL (mergeSelectionsLib l) = true := by
  unfold mergeSelectionsLib
  apply msGoF_noSpread
  · simp [mValues]
  · rfl
  · exact hl

/-- A successful `inlineSelsLib` run (the `inline-relay-query.ts` walk) also
leaves no fragment spread anywhere in its output. -/
theorem inlineSelsLib_noSpread (fuel : Nat) (fm : List (String × FragNode))
    (l : List Selection) : ∀ r, inlineSelsLib fuel fm l = .ok r → noSpreadL r = true := by
  induction fuel, fm, l using inlineSelsLib.induct with
  | case1 fuel fm =>
    intro r hok
    simp only [inlineSelsLib] at hok
    cases hok
    simp
  | case2 fuel fm n rest hget =>
    intro r hok
    simp [inlineSelsLib, hget] at hok
  | case3 fm n rest frag hget =>
    intro r hok
    simp [inlineSelsLib, hget] at hok
  | case4 fm n rest frag hget fuel2 hinner ih =>
    intro r hok
    simp [inlineSelsLib, hget, hinner] at hok
  | case5 fm n rest frag hget fuel2 msg hinner ih =>
    intro r hok
    simp [inlineSelsLib, hget, hinner] at hok
  | case6 fm n rest frag hget fuel2 inner hinner hrest ih1 ih2 =>
    intro r hok
    simp [inlineSelsLib, hget, hinner, hrest] at hok
  | case7 fm n rest frag hget fuel2 inner hinner msg hrest ih1 ih2 =>
    intro r hok
    simp [inlineSelsLib, hget, hinner, hrest] at hok
  | case8 fm n rest frag hget fuel2 inner hinner restR hrest ih1 ih2 =>
    intro r hok
    simp only [inlineSelsLib, hget, hinner, hrest] at hok
    cases hok
    rw [noSpreadL_append]
    rw [noSpread_mergeLib (ih1 inner hinner), ih2 restR hrest]
    rfl
  | case9 fuel fm a n ar s rest hinner ih =>
    intro r hok
    simp [inlineSelsLib, hinner] at hok
  | case10 fuel fm a n ar s rest msg hinner ih =>
    intro r hok
    simp [inlineSelsLib, hinner] at hok
  | case11 fuel fm a n ar s rest inner hinner hrest ih1 ih2 =>
    intro r hok
    simp [inlineSelsLib, hinner, hrest] at hok
  | case12 fuel fm a n ar s rest inner hinner msg hrest ih1 ih2 =>
    intro r hok
    simp [inlineSelsLib, hinner, hrest] at hok
  | case13 fuel fm a n ar s rest inner hinner restR hrest ih1 ih2 =>
    intro r hok
    simp only [inlineSelsLib, hinner, hrest] at hok
    cases hok
    simp only [noSpreadL_cons, noSpreadSel]
    rw [noSpread_mergeLib (ih1 inner hinner), ih2 restR hrest]
    rfl
  | case14 fuel fm a n ar rest hrest ih =>
    intro r hok
    simp [inlineSelsLib, hrest] at hok
  | case15 fuel fm a n ar rest msg hrest ih =>
    intro r hok
    simp [inlineSelsLib, hrest] at hok
  | case16 fuel fm a n ar rest restR hrest ih =>
    intro r hok
    simp only [inlineSelsLib, hrest] at hok
    cases hok
    simp only [noSpreadL_cons, noSpreadSel]
    rw [ih restR hrest]
    rfl
  | case17 fuel fm t s rest hinner ih =>
    intro r hok
    simp [inlineSelsLib, hinner] at hok
  | case18 fuel fm t s rest msg hinner ih =>
    intro r hok
    simp [inlineSelsLib, hinner] at hok
  | case19 fuel fm t s rest inner hinner hrest ih1 ih2 =>
    intro r hok
    simp [inlineSelsLib, hinner, hrest] at hok
  | case20 fuel fm t s rest inner hinner msg hrest ih1 ih2 =>
    intro r hok
    simp [inlineSelsLib, hinner, hrest] at hok
  | case21 fuel fm t s rest inner hinner restR hrest ih1 ih2 =>
    intro r hok
    simp only [inlineSelsLib, hinner, hrest] at hok
    cases hok
    simp only [noSpreadL_cons, noSpreadSel]
    rw [noSpread_mergeLib (ih1 inner hinner), ih2 restR hrest]
    rfl

/-- Spread-freeness of one definition's selection tree. -/
def noSpreadDef : DefinitionNode → Bool
  | .operationDef _ sels => noSpreadL sels
  | .fragmentDef _ _ sels => noSpreadL sels

/-- Spread-freeness of every definition of a document. -/
def noSpreadDoc (doc : DocumentNode) : Bool :=
  doc.definitions.all noSpreadDef

/-- One successful `inlineOperation` keeps the definition's kind and returns
a spread-free definition. -/
theorem inlineOperation_ok (fuel : Nat) (fm : List (String × FragNode))
    (d d2 : DefinitionNode) (h : inlineOperation fuel fm d = .ok d2) :
    isOperationDef d2 = isOperationDef d ∧ noSpreadDef d2 = true := by
  cases d with
  | operationDef nm sels =>
    cases hr : inlineSels fuel fm sels with
    | out => simp [inlineOperation, hr] at h
    | err msg => simp [inlineOperation, hr] at h
    | ok newSels =>
      simp only [inlineOperation, hr] at h
      cases h
      refine ⟨rfl, ?_⟩
      simp only [noSpreadDef]
      exact noSpread_dedup (inlineSels_noSpread fuel fm sels newSels hr)
  | fragmentDef nm tc sels =>
    cases hr : inlineSels fuel fm sels with
    | out => simp [inlineOperation, hr] at h
    | err msg => simp [inlineOperation, hr] at h
    | ok newSels =>
      simp only [inlineOperation, hr] at h
      cases h
      refine ⟨rfl, ?_⟩
      simp only [noSpreadDef]
      exact noSpread_dedup (inlineSels_noSpread fuel fm sels newSels hr)

/-- A successful `inlineDefs` run maps operation definitions to spread-free
operation definitions. -/
theorem inlineDefs_ok (fuel : Nat) (fm : List (String × FragNode)) :
    ∀ ds ds2, inlineDefs fuel fm ds = .ok ds2 →
    (∀ d ∈ ds, isOperationDef d = true) →
    ds2.all isOperationDef = true ∧ ds2.all noSpreadDef = true := by
  intro ds
  induction ds with
  | nil =>
    intro ds2 h hops
    simp only [inlineDefs] at h
    cases h
    simp
  | cons d rest ih =>
    intro ds2 h hops
    cases hd : inlineOperation fuel fm d with
    | out => simp [inlineDefs, hd] at h
    | err msg => simp [inlineDefs, hd] at h
    | ok d2 =>
      cases hr : inlineDefs fuel fm rest with
      | out => simp [inlineDefs, hd, hr] at h
      | err msg => simp [inlineDefs, hd, hr] at h
      | ok rest2 =>
        simp only [inlineDefs, hd, hr] at h
        cases h
        have hdp := inlineOperation_ok fuel fm d d2 hd
        have hrp := ih rest2 hr (fun x hx => hops x (List.mem_cons_of_mem d hx))
        simp only [List.all_cons, Bool.and_eq_true]
        refine ⟨⟨?_, hrp.1⟩, ⟨hdp.2, hrp.2⟩⟩
        rw [hdp.1]
        exact hops d (List.mem_cons_self d rest)

/-- Same for the `inline-relay-query.ts` pipeline. -/
theorem inlineOperationLib_ok (fuel : Nat) (fm : List (String × FragNode))
    (d d2 : DefinitionNode) (h : inlineOperationLib fuel fm d = .ok d2) :
    isOperationDef d2 = isOperationDef d ∧ noSpreadDef d2 = true := by
  cases d with
  | operationDef nm sels =>
    cases hr : inlineSelsLib fuel fm sels with
    | out => simp [inlineOperationLib, hr] at h
    | err msg => simp [inlineOperationLib, hr] at h
    | ok newSels =>
      simp only [inlineOperationLib, hr] at h
      cases h
      refine ⟨rfl, ?_⟩
      simp only [noSpreadDef]
      exact noSpread_mergeLib (inlineSelsLib_noSpread fuel fm sels newSels hr)
  | fragmentDef nm tc sels =>
    cases hr : inlineSelsLib fuel fm sels with
    | out => simp [inlineOperationLib, hr] at h
    | err msg => simp [inlineOperationLib, hr] at h
    | ok newSels =>
      simp only [inlineOperationLib, hr] at h
      cases h
      refine ⟨rfl, ?_⟩
      simp only [noSpreadDef]
      exact noSpread_mergeLib (inlineSelsLib_noSpread fuel fm sels newSels hr)

/-- A successful `inlineDefsLib` run maps operation definitions to
spread-free operation definitions. -/
theorem inlineDefsLib_ok (fuel : Nat) (fm : List (String × FragNode)) :
    ∀ ds ds2, inlineDefsLib fuel fm ds = .ok ds2 →
    (∀ d ∈ ds, isOperationDef d = true) →
    ds2.all isOperationDef = true ∧ ds2.all noSpreadDef = true := by
  intro ds
  induction ds with
  | nil =>
    intro ds2 h hops
    simp only [inlineDefsLib] at h
    cases h
    simp
  | cons d rest ih =>
    intro ds2 h hops
    cases hd : inlineOperationLib fuel fm d with
    | out => simp [inlineDefsLib, hd] at h
    | err msg => simp [inlineDefsLib, hd] at h
    | ok d2 =>
      cases hr : inlineDefsLib fuel fm rest with
      | out => simp [inlineDefsLib, hd, hr] at h
      | err msg => simp [inlineDefsLib, hd, hr] at h
      | ok rest2 =>
        simp only [inlineDefsLib, hd, hr] at h
        cases h
        have hdp := inlineOperationLib_ok fuel fm d d2 hd
        have hrp := ih rest2 hr (fun x hx => hops x (List.mem_cons_of_mem d hx))
        simp only [List.all_cons, Bool.and_eq_true]
        refine ⟨⟨?_, hrp.1⟩, ⟨hdp.2, hrp.2⟩⟩
        rw [hdp.1]
        exact hops d (List.mem_cons_self d rest)

/-! ## Spread occurrence, resolution, and divergence -/

mutual

/-- The names of all fragment spreads occurring in a selection tree. -/
def spreadNamesSel : Selection → List String
  | .field _ _ _ none => []
  | .field _ _ _ (some s) => spreadNamesL s
  | .inlineFragment _ s => spreadNamesL s
  | .fragmentSpread n => [n]

/-- The names of all fragment spreads occurring in a selection forest. -/
def spreadNamesL : List Selection → List String
  | [] => []
  | s :: rest => spreadNamesSel s ++ spreadNamesL rest

end

/-- The selection set of a definition. -/
def defSelections : DefinitionNode → List Selection
  | .operationDef _ sels => sels
  | .fragmentDef _ _ sels => sels

/-- Every fragment spread occurring anywhere in the document names a
fragment present in the document's fragment map ("all spreads resolve"). -/
def allSpreadsResolve (doc : DocumentNode) : Bool :=
  doc.definitions.all (fun d =>
    (spreadNamesL (defSelections d)).all (fun n =>
      (jsObjGet (buildFragmentMap doc) n).isSome))

/-- The part_001 inliner never returns on this document, whatever fuel it is
given: divergence of the modelled JavaScript recursion. -/
def DivergesInl (doc : DocumentNode) : Prop :=
  ∀ fuel, inlineFragmentsInDocument fuel doc = .out

/-- The `inline-relay-query.ts` inliner never returns on this document. -/
def DivergesInlLib (doc : DocumentNode) : Prop :=
  ∀ fuel, inlineRelayQueryFromAST fuel doc = .out

/-! ## Claim C4: inliner postcondition -/

/-- C4 counterexample document: operation `Q { ...A }` with the self-cyclic
fragment `A on T { ...A }` — every spread resolves, yet inlining recurses
without bound. -/
def c4CycleDoc : DocumentNode := ⟨[
  .operationDef "Q" [.fragmentSpread "A"],
  .fragmentDef "A" "T" [.fragmentSpread "A"]]⟩

/-- Expanding the self-cyclic spread `...A` runs out of any amount of fuel. -/
theorem c4FragOut : ∀ fuel,
    inlineSels fuel [("A", ⟨"A", "T", [.fragmentSpread "A"]⟩)]
      [.fragmentSpread "A"] = .out := by
  intro fuel
  induction fuel with
  | zero => simp [inlineSels, jsObjGet]
  | succ n ih => simp [inlineSels, jsObjGet, ih]

/-- C4 counterexample: in `c4CycleDoc` every fragment spread resolves, yet
`inlineFragmentsInDocument` returns no document at any fuel — the JavaScript
recursion diverges instead of returning the claimed spread-free document. -/
theorem c4_cyclic_resolving_diverges :
    allSpreadsResolve c4CycleDoc = true ∧ DivergesInl c4CycleDoc := by
  constructor
  · rfl
  · intro fuel
    simp [inlineFragmentsInDocument, c4CycleDoc, buildFragmentMap, List.filter,
      isOperationDef, List.foldl, jsObjSet, inlineDefs, inlineOperation, c4FragOut fuel]

/-- C4 (amended): whenever the inliner does return a document (in either
implementation), that document contains only Operation definitions (every
Fragment definition is dropped) and no FragmentSpread node remains anywhere
in any selection tree at any depth; on cyclic documents whose spreads all
resolve the recursion instead diverges (see the counterexample). -/
theorem c4_inliner_postcondition (fuel fuelB : Nat) (doc docB d dB : DocumentNode)
    (h1 : inlineFragmentsInDocument fuel doc = .ok d)
    (h2 : inlineRelayQueryFromAST fuelB docB = .ok dB) :
    (d.definitions.all isOperationDef = true ∧ noSpreadDoc d = true) ∧
    (dB.definitions.all isOperationDef = true ∧ noSpreadDoc dB = true) := by
  constructor
  · cases hr : inlineDefs fuel (buildFragmentMap doc) (doc.definitions.filter isOperationDef) with
    | out => simp [inlineFragmentsInDocument, hr] at h1
    | err msg => simp [inlineFragmentsInDocument, hr] at h1
    | ok ds =>
      simp only [inlineFragmentsInDocument, hr] at h1
      cases h1
      have := inlineDefs_ok fuel (buildFragmentMap doc) _ ds hr
        (fun x hx => List.of_mem_filter hx)
      exact ⟨this.1, this.2⟩
  · cases hr : inlineDefsLib fuelB (buildFragmentMap docB)
        (docB.definitions.filter isOperationDef) with
    | out => simp [inlineRelayQueryFromAST, hr] at h2
    | err msg => simp [inlineRelayQueryFromAST, hr] at h2
    | ok ds =>
      simp only [inlineRelayQueryFromAST, hr] at h2
      cases h2
      have := inlineDefsLib_ok fuelB (buildFragmentMap docB) _ ds hr
        (fun x hx => List.of_mem_filter hx)
      exact ⟨this.1, this.2⟩

/-- C4 witness: the postcondition theorem applied to the Scenario 1 document
in both implementations. -/
theorem c4_inliner_postcondition_witness :
    (scenario1Expected.definitions.all isOperationDef = true ∧
      noSpreadDoc scenario1Expected = true) ∧
    (scenario1Expected.definitions.all isOperationDef = true ∧
      noSpreadDoc scenario1Expected = true) := by
  have h1 : inlineFragmentsInDocument 5 scenario1Doc = .ok scenario1Expected := by
    simp [scenario1Doc, scenario1Expected, inlineFragmentsInDocument, buildFragmentMap,
      inlineDefs, inlineOperation, inlineSels, deduplicateSelections, dedupGoF, jsObjGet,
      jsObjSet, mValues, sizeL, sizeSel, createFieldKey, createArgumentKey, isOperationDef,
      List.filter, List.foldl, otherKey]
  have h2 : inlineRelayQueryFromAST 5 scenario1Doc = .ok scenario1Expected := by
    simp [scenario1Doc, scenario1Expected, inlineRelayQueryFromAST, buildFragmentMap,
      inlineDefsLib, inlineOperationLib, inlineSelsLib, mergeSelectionsLib, msGoF, jsObjGet,
      jsObjSet, sizeL, sizeSel, libFieldKey, jsonOfArgument, stringify, stringifyArr,
      isOperationDef, List.filter, List.foldl, getSet, withSet, replaceFirst,
      isFieldWithAlias, aliasFalsy]
  exact c4_inliner_postcondition 5 5 scenario1Doc scenario1Doc
    scenario1Expected scenario1Expected h1 h2

/-- A successful lookup returns a pair of the map. -/
theorem jsObjGet_mem {m : List (String × β)} {k : String} {v : β}
    (h : jsObjGet m k = some v) : (k, v) ∈ m := by
  induction m with
  | nil => simp [jsObjGet] at h
  | cons p rest ih =>
    obtain ⟨k1, v1⟩ := p
    simp only [jsObjGet] at h
    by_cases hk : k1 = k
    · rw [if_pos hk] at h
      cases h
      subst hk
      exact List.mem_cons_self _ _
    · rw [if_neg hk] at h
      exact List.mem_cons_of_mem _ (ih h)

/-- A pair of an upserted map comes from the map or is the upserted pair. -/
theorem jsObjSet_mem {m : List (String × β)} {k : String} {v : β} {p : String × β}
    (h : p ∈ jsObjSet m k v) : p ∈ m ∨ p = (k, v) := by
  induction m with
  | nil =>
    simp only [jsObjSet, List.mem_singleton] at h
    exact Or.inr h
  | cons q rest ih =>
    obtain ⟨k1, v1⟩ := q
    simp only [jsObjSet] at h
    by_cases hk : k1 = k
    · rw [if_pos hk] at h
      rcases List.mem_cons.mp h with h1 | h1
      · subst hk
        exact Or.inr h1
      · exact Or.inl (List.mem_cons_of_mem _ h1)
    · rw [if_neg hk] at h
      rcases List.mem_cons.mp h with h1 | h1
      · exact Or.inl (h1 ▸ List.mem_cons_self _ _)
      · rcases ih h1 with h2 | h2
        · exact Or.inl (List.mem_cons_of_mem _ h2)
        · exact Or.inr h2

/-- Every value of the fragment map is the node of some fragment definition
of the document. -/
theorem buildFragmentMap_mem {doc : DocumentNode} {p : String × FragNode}
    (h : p ∈ buildFragmentMap doc) :
    ∃ n tc sels, DefinitionNode.fragmentDef n tc sels ∈ doc.definitions ∧
      p.2 = ({ fname := n, typeCondition := tc, selections := sels } : FragNode) := by
  have haux : ∀ (ds : List DefinitionNode) (acc : List (String × FragNode))
      (q : String × FragNode),
      q ∈ List.foldl
        (fun fm d =>
          match d with
          | .fragmentDef n tc sels => jsObjSet fm n ⟨n, tc, sels⟩
          | .operationDef _ _ => fm) acc ds →
      q ∈ acc ∨ ∃ n tc sels, DefinitionNode.fragmentDef n tc sels ∈ ds ∧
        q.2 = ({ fname := n, typeCondition := tc, selections := sels } : FragNode) := by
    intro ds
    induction ds with
    | nil =>
      intro acc q hq
      exact Or.inl hq
    | cons d rest ih =>
      intro acc q hq
      simp only [List.foldl_cons] at hq
      cases d with
      | operationDef nm sels =>
        rcases ih _ q hq with h1 | ⟨n, tc, sels2, hmem, hval⟩
        · exact Or.inl h1
        · exact Or.inr ⟨n, tc, sels2, List.mem_cons_of_mem _ hmem, hval⟩
      | fragmentDef nm tc sels =>
        rcases ih _ q hq with h1 | ⟨n2, tc2, sels2, hmem, hval⟩
        · rcases jsObjSet_mem h1 with h2 | h2
          · exact Or.inl h2
          · refine Or.inr ⟨nm, tc, sels, List.mem_cons_self _ _, ?_⟩
            rw [h2]
        · exact Or.inr ⟨n2, tc2, sels2, List.mem_cons_of_mem _ hmem, hval⟩
  rcases haux doc.definitions [] p h with h1 | h1
  · simp at h1
  · exact h1

@[simp] theorem spreadNamesL_nil : spreadNamesL [] = [] := rfl

@[simp] theorem spreadNamesL_cons (s : Selection) (l : List Selection) :
    spreadNamesL (s :: l) = spreadNamesSel s ++ spreadNamesL l := rfl

/-- Error soundness of the part_001 inliner walk: an error carries the
message `Fragment "NAME" not found` for a name that is absent from the
fragment map and occurs as a spread either in the pending selections or in
the body of some mapped fragment. -/
theorem inlineSels_err (fuel : Nat) (fm : List (String × FragNode))
    (l : List Selection) : ∀ msg, inlineSels fuel fm l = .err msg →
    ∃ n, msg = "Fragment \"" ++ n ++ "\" not found" ∧ jsObjGet fm n = none ∧
      (n ∈ spreadNamesL l ∨ ∃ p ∈ fm, n ∈ spreadNamesL p.2.selections) := by
  induction fuel, fm, l using inlineSels.induct with
  | case1 fuel fm =>
    intro msg h
    simp [inlineSels] at h
  | case2 fuel fm n rest hget =>
    intro msg h
    simp only [inlineSels, hget] at h
    cases h
    refine ⟨n, rfl, hget, Or.inl ?_⟩
    simp [spreadNamesSel]
  | case3 fm n rest frag hget =>
    intro msg h
    simp [inlineSels, hget] at h
  | case4 fm n rest frag hget fuel2 hinner ih =>
    intro msg h
    simp [inlineSels, hget, hinner] at h
  | case5 fm n rest frag hget fuel2 msg2 hinner ih =>
    intro msg h
    simp only [inlineSels, hget, hinner] at h
    cases h
    rcases ih msg2 hinner with ⟨n2, hmsg, hnone, hocc⟩
    refine ⟨n2, hmsg, hnone, Or.inr ?_⟩
    rcases hocc with h1 | h1
    · exact ⟨(n, frag), jsObjGet_mem hget, h1⟩
    · exact h1
  | case6 fm n rest frag hget fuel2 inner hinner hrest ih1 ih2 =>
    intro msg h
    simp [inlineSels, hget, hinner, hrest] at h
  | case7 fm n rest frag hget fuel2 inner hinner msg2 hrest ih1 ih2 =>
    intro msg h
    simp only [inlineSels, hget, hinner, hrest] at h
    cases h
    rcases ih2 msg2 hrest with ⟨n2, hmsg, hnone, hocc⟩
    refine ⟨n2, hmsg, hnone, ?_⟩
    rcases hocc with h1 | h1
    · exact Or.inl (by simp [spreadNamesSel, h1])
    · exact Or.inr h1
  | case8 fm n rest frag hget fuel2 inner hinner restR hrest ih1 ih2 =>
    intro msg h
    simp [inlineSels, hget, hinner, hrest] at h
  | case9 fuel fm a n ar s rest hinner ih =>
    intro msg h
    simp [inlineSels, hinner] at h
  | case10 fuel fm a n ar s rest msg2 hinner ih =>
    intro msg h
    simp only [inlineSels, hinner] at h
    cases h
    rcases ih msg2 hinner with ⟨n2, hmsg, hnone, hocc⟩
    refine ⟨n2, hmsg, hnone, ?_⟩
    rcases hocc with h1 | h1
    · exact Or.inl (by simp [spreadNamesSel, h1])
    · exact Or.inr h1
  | case11 fuel fm a n ar s rest inner hinner hrest ih1 ih2 =>
    intro msg h
    simp [inlineSels, hinner, hrest] at h
  | case12 fuel fm a n ar s rest inner hinner msg2 hrest ih1 ih2 =>
    intro msg h
    simp only [inlineSels, hinner, hrest] at h
    cases h
    rcases ih2 msg2 hrest with ⟨n2, hmsg, hnone, hocc⟩
    refine ⟨n2, hmsg, hnone, ?_⟩
    rcases hocc with h1 | h1
    · exact Or.inl (by simp [h1])
    · exact Or.inr h1
  | case13 fuel fm a n ar s rest inner hinner restR hrest ih1 ih2 =>
    intro msg h
    simp [inlineSels, hinner, hrest] at h
  | case14 fuel fm a n ar rest hrest ih =>
    intro msg h
    simp [inlineSels, hrest] at h
  | case15 fuel fm a n ar rest msg2 hrest ih =>
    intro msg h
    simp only [inlineSels, hrest] at h
    cases h
    rcases ih msg2 hrest with ⟨n2, hmsg, hnone, hocc⟩
    refine ⟨n2, hmsg, hnone, ?_⟩
    rcases hocc with h1 | h1
    · exact Or.inl (by simp [h1])
    · exact Or.inr h1
  | case16 fuel fm a n ar rest restR hrest ih =>
    intro msg h
    simp [inlineSels, hrest] at h
  | case17 fuel fm t s rest hinner ih =>
    intro msg h
    simp [inlineSels, hinner] at h
  | case18 fuel fm t s rest msg2 hinner ih =>
    intro msg h
    simp only [inlineSels, hinner] at h
    cases h
    rcases ih msg2 hinner with ⟨n2, hmsg, hnone, hocc⟩
    refine ⟨n2, hmsg, hnone, ?_⟩
    rcases hocc with h1 | h1
    · exact Or.inl (by simp [spreadNamesSel, h1])
    · exact Or.inr h1
  | case19 fuel fm t s rest inner hinner hrest ih1 ih2 =>
    intro msg h
    simp [inlineSels, hinner, hrest] at h
  | case20 fuel fm t s rest inner hinner msg2 hrest ih1 ih2 =>
    intro msg h
    simp only [inlineSels, hinner, hrest] at h
    cases h
    rcases ih2 msg2 hrest with ⟨n2, hmsg, hnone, hocc⟩
    refine ⟨n2, hmsg, hnone, ?_⟩
    rcases hocc with h1 | h1
    · exact Or.inl (by simp [spreadNamesSel, h1])
    · exact Or.inr h1
  | case21 fuel fm t s rest inner hinner restR hrest ih1 ih2 =>
    intro msg h
    simp [inlineSels, hinner, hrest] at h

/-- Error soundness lifted to one definition. -/
theorem inlineOperation_err (fuel : Nat) (fm : List (String × FragNode))
    (d : DefinitionNode) (msg : String) (h : inlineOperation fuel fm d = .err msg) :
    ∃ n, msg = "Fragment \"" ++ n ++ "\" not found" ∧ jsObjGet fm n = none ∧
      (n ∈ spreadNamesL (defSelections d) ∨ ∃ p ∈ fm, n ∈ spreadNamesL p.2.selections) := by
  cases d with
  | operationDef nm sels =>
    cases hr : inlineSels fuel fm sels with
    | out => simp [inlineOperation, hr] at h
    | err msg2 =>
      simp only [inlineOperation, hr] at h
      cases h
      exact inlineSels_err fuel fm sels msg hr
    | ok newSels => simp [inlineOperation, hr] at h
  | fragmentDef nm tc sels =>
    cases hr : inlineSels fuel fm sels with
    | out => simp [inlineOperation, hr] at h
    | err msg2 =>
      simp only [inlineOperation, hr] at h
      cases h
      exact inlineSels_err fuel fm sels msg hr
    | ok newSels => simp [inlineOperation, hr] at h

/-- Error soundness lifted to a definition list. -/
theorem inlineDefs_err (fuel : Nat) (fm : List (String × FragNode)) :
    ∀ ds msg, inlineDefs fuel fm ds = .err msg →
    ∃ n, msg = "Fragment \"" ++ n ++ "\" not found" ∧ jsObjGet fm n = none ∧
      ((∃ d ∈ ds, n ∈ spreadNamesL (defSelections d)) ∨
        ∃ p ∈ fm, n ∈ spreadNamesL p.2.selections) := by
  intro ds
  induction ds with
  | nil =>
    intro msg h
    simp [inlineDefs] at h
  | cons d rest ih =>
    intro msg h
    cases hd : inlineOperation fuel fm d with
    | out => simp [inlineDefs, hd] at h
    | err msg2 =>
      simp only [inlineDefs, hd] at h
      cases h
      rcases inlineOperation_err fuel fm d msg hd with ⟨n, hmsg, hnone, hocc⟩
      refine ⟨n, hmsg, hnone, ?_⟩
      rcases hocc with h1 | h1
      · exact Or.inl ⟨d, List.mem_cons_self _ _, h1⟩
      · exact Or.inr h1
    | ok d2 =>
      cases hr : inlineDefs fuel fm rest with
      | out => simp [inlineDefs, hd, hr] at h
      | err msg2 =>
        simp only [inlineDefs, hd, hr] at h
        cases h
        rcases ih msg hr with ⟨n, hmsg, hnone, hocc⟩
        refine ⟨n, hmsg, hnone, ?_⟩
        rcases hocc with ⟨d3, hd3, h1⟩ | h1
        · exact Or.inl ⟨d3, List.mem_cons_of_mem _ hd3, h1⟩
        · exact Or.inr h1
      | ok rest2 => simp [inlineDefs, hd, hr] at h

/-- Error soundness at the document level: an error of
`inlineFragmentsInDocument` names a fragment that is absent from the
document's fragment map and is spread somewhere in the document. -/
theorem inlineDoc_err (fuel : Nat) (doc : DocumentNode) (msg : String)
    (h : inlineFragmentsInDocument fuel doc = .err msg) :
    ∃ n, msg = "Fragment \"" ++ n ++ "\" not found" ∧
      jsObjGet (buildFragmentMap doc) n = none ∧
      ∃ d ∈ doc.definitions, n ∈ spreadNamesL (defSelections d) := by
  cases hr : inlineDefs fuel (buildFragmentMap doc) (doc.definitions.filter isOperationDef) with
  | out => simp [inlineFragmentsInDocument, hr] at h
  | err msg2 =>
    simp only [inlineFragmentsInDocument, hr] at h
    cases h
    rcases inlineDefs_err fuel (buildFragmentMap doc) _ msg hr with ⟨n, hmsg, hnone, hocc⟩
    refine ⟨n, hmsg, hnone, ?_⟩
    rcases hocc with ⟨d, hd, h1⟩ | ⟨p, hp, h1⟩
    · exact ⟨d, List.mem_of_mem_filter hd, h1⟩
    · rcases buildFragmentMap_mem hp with ⟨n2, tc2, sels2, hmem, hval⟩
      refine ⟨DefinitionNode.fragmentDef n2 tc2 sels2, hmem, ?_⟩
      rw [hval] at h1
      exact h1
  | ok ds => simp [inlineFragmentsInDocument, hr] at h

/-- Error soundness of the `inline-relay-query.ts` walk: same property, with
the unquoted message format `Fragment NAME not found`. -/
theorem inlineSelsLib_err (fuel : Nat) (fm : List (String × FragNode))
    (l : List Selection) : ∀ msg, inlineSelsLib fuel fm l = .err msg →
    ∃ n, msg = "Fragment " ++ n ++ " not found" ∧ jsObjGet fm n = none ∧
      (n ∈ spreadNamesL l ∨ ∃ p ∈ fm, n ∈ spreadNamesL p.2.selections) := by
  induction fuel, fm, l using inlineSelsLib.induct with
  | case1 fuel fm =>
    intro msg h
    simp [inlineSelsLib] at h
  | case2 fuel fm n rest hget =>
    intro msg h
    simp only [inlineSelsLib, hget] at h
    cases h
    refine ⟨n, rfl, hget, Or.inl ?_⟩
    simp [spreadNamesSel]
  | case3 fm n rest frag hget =>
    intro msg h
    simp [inlineSelsLib, hget] at h
  | case4 fm n rest frag hget fuel2 hinner ih =>
    intro msg h
    simp [inlineSelsLib, hget, hinner] at h
  | case5 fm n rest frag hget fuel2 msg2 hinner ih =>
    intro msg h
    simp only [inlineSelsLib, hget, hinner] at h
    cases h
    rcases ih msg2 hinner with ⟨n2, hmsg, hnone, hocc⟩
    refine ⟨n2, hmsg, hnone, Or.inr ?_⟩
    rcases hocc with h1 | h1
    · exact ⟨(n, frag), jsObjGet_mem hget, h1⟩
    · exact h1
  | case6 fm n rest frag hget fuel2 inner hinner hrest ih1 ih2 =>
    intro msg h
    simp [inlineSelsLib, hget, hinner, hrest] at h
  | case7 fm n rest frag hget fuel2 inner hinner msg2 hrest ih1 ih2 =>
    intro msg h
    simp only [inlineSelsLib, hget, hinner, hrest] at h
    cases h
    rcases ih2 msg2 hrest with ⟨n2, hmsg, hnone, hocc⟩
    refine ⟨n2, hmsg, hnone, ?_⟩
    rcases hocc with h1 | h1
    · exact Or.inl (by simp [spreadNamesSel, h1])
    · exact Or.inr h1
  | case8 fm n rest frag hget fuel2 inner hinner restR hrest ih1 ih2 =>
    intro msg h
    simp [inlineSelsLib, hget, hinner, hrest] at h
  | case9 fuel fm a n ar s rest hinner ih =>
    intro msg h
    simp [inlineSelsLib, hinner] at h
  | case10 fuel fm a n ar s rest msg2 hinner ih =>
    intro msg h
    simp only [inlineSelsLib, hinner] at h
    cases h
    rcases ih msg2 hinner with ⟨n2, hmsg, hnone, hocc⟩
    refine ⟨n2, hmsg, hnone, ?_⟩
    rcases hocc with h1 | h1
    · exact Or.inl (by simp [spreadNamesSel, h1])
    · exact Or.inr h1
  | case11 fuel fm a n ar s rest inner hinner hrest ih1 ih2 =>
    intro msg h
    simp [inlineSelsLib, hinner, hrest] at h
  | case12 fuel fm a n ar s rest inner hinner msg2 hrest ih1 ih2 =>
    intro msg h
    simp only [inlineSelsLib, hinner, hrest] at h
    cases h
    rcases ih2 msg2 hrest with ⟨n2, hmsg, hnone, hocc⟩
    refine ⟨n2, hmsg, hnone, ?_⟩
    rcases hocc with h1 | h1
    · exact Or.inl (by simp [h1])
    · exact Or.inr h1
  | case13 fuel fm a n ar s rest inner hinner restR hrest ih1 ih2 =>
    intro msg h
    simp [inlineSelsLib, hinner, hrest] at h
  | case14 fuel fm a n ar rest hrest ih =>
    intro msg h
    simp [inlineSelsLib, hrest] at h
  | case15 fuel fm a n ar rest msg2 hrest ih =>
    intro msg h
    simp only [inlineSelsLib, hrest] at h
    cases h
    rcases ih msg2 hrest with ⟨n2, hmsg, hnone, hocc⟩
    refine ⟨n2, hmsg, hnone, ?_⟩
    rcases hocc with h1 | h1
    · exact Or.inl (by simp [h1])
    · exact Or.inr h1
  | case16 fuel fm a n ar rest restR hrest ih =>
    intro msg h
    simp [inlineSelsLib, hrest] at h
  | case17 fuel fm t s rest hinner ih =>
    intro msg h
    simp [inlineSelsLib, hinner] at h
  | case18 fuel fm t s rest msg2 hinner ih =>
    intro msg h
    simp only [inlineSelsLib, hinner] at h
    cases h
    rcases ih msg2 hinner with ⟨n2, hmsg, hnone, hocc⟩
    refine ⟨n2, hmsg, hnone, ?_⟩
    rcases hocc with h1 | h1
    · exact Or.inl (by simp [spreadNamesSel, h1])
    · exact Or.inr h1
  | case19 fuel fm t s rest inner hinner hrest ih1 ih2 =>
    intro msg h
    simp [inlineSelsLib, hinner, hrest] at h
  | case20 fuel fm t s rest inner hinner msg2 hrest ih1 ih2 =>
    intro msg h
    simp only [inlineSelsLib, hinner, hrest] at h
    cases h
    rcases ih2 msg2 hrest with ⟨n2, hmsg, hnone, hocc⟩
    refine ⟨n2, hmsg, hnone, ?_⟩
    rcases hocc with h1 | h1
    · exact Or.inl (by simp [spreadNamesSel, h1])
    · exact Or.inr h1
  | case21 fuel fm t s rest inner hinner restR hrest ih1 ih2 =>
    intro msg h
    simp [inlineSelsLib, hinner, hrest] at h

/-- Error soundness lifted to one definition (`inline-relay-query.ts`). -/
theorem inlineOperationLib_err (fuel : Nat) (fm : List (String × FragNode))
    (d : DefinitionNode) (msg : String) (h : inlineOperationLib fuel fm d = .err msg) :
    ∃ n, msg = "Fragment " ++ n ++ " not found" ∧ jsObjGet fm n = none ∧
      (n ∈ spreadNamesL (defSelections d) ∨ ∃ p ∈ fm, n ∈ spreadNamesL p.2.selections) := by
  cases d with
  | operationDef nm sels =>
    cases hr : inlineSelsLib fuel fm sels with
    | out => simp [inlineOperationLib, hr] at h
    | err msg2 =>
      simp only [inlineOperationLib, hr] at h
      cases h
      exact inlineSelsLib_err fuel fm sels _ hr
    | ok newSels => simp [inlineOperationLib, hr] at h
  | fragmentDef nm tc sels =>
    cases hr : inlineSelsLib fuel fm sels with
    | out => simp [inlineOperationLib, hr] at h
    | err msg2 =>
      simp only [inlineOperationLib, hr] at h
      cases h
      exact inlineSelsLib_err fuel fm sels _ hr
    | ok newSels => simp [inlineOperationLib, hr] at h

/-- Error soundness lifted to a definition list (`inline-relay-query.ts`). -/
theorem inlineDefsLib_err (fuel : Nat) (fm : List (String × FragNode)) :
    ∀ ds msg, inlineDefsLib fuel fm ds = .err msg →
    ∃ n, msg = "Fragment " ++ n ++ " not found" ∧ jsObjGet fm n = none ∧
      ((∃ d ∈ ds, n ∈ spreadNamesL (defSelections d)) ∨
        ∃ p ∈ fm, n ∈ spreadNamesL p.2.selections) := by
  intro ds
  induction ds with
  | nil =>
    intro msg h
    simp [inlineDefsLib] at h
  | cons d rest ih =>
    intro msg h
    cases hd : inlineOperationLib fuel fm d with
    | out => simp [inlineDefsLib, hd] at h
    | err msg2 =>
      simp only [inlineDefsLib, hd] at h
      cases h
      rcases inlineOperationLib_err fuel fm d _ hd with ⟨n, hmsg, hnone, hocc⟩
      refine ⟨n, hmsg, hnone, ?_⟩
      rcases hocc with h1 | h1
      · exact Or.inl ⟨d, List.mem_cons_self _ _, h1⟩
      · exact Or.inr h1
    | ok d2 =>
      cases hr : inlineDefsLib fuel fm rest with
      | out => simp [inlineDefsLib, hd, hr] at h
      | err msg2 =>
        simp only [inlineDefsLib, hd, hr] at h
        cases h
        rcases ih _ hr with ⟨n, hmsg, hnone, hocc⟩
        refine ⟨n, hmsg, hnone, ?_⟩
        rcases hocc with ⟨d3, hd3, h1⟩ | h1
        · exact Or.inl ⟨d3, List.mem_cons_of_mem _ hd3, h1⟩
        · exact Or.inr h1
      | ok rest2 => simp [inlineDefsLib, hd, hr] at h

/-- Error soundness at the document level (`inlineRelayQueryFromAST`). -/
theorem inlineDocLib_err (fuel : Nat) (doc : DocumentNode) (msg : String)
    (h : inlineRelayQueryFromAST fuel doc = .err msg) :
    ∃ n, msg = "Fragment " ++ n ++ " not found" ∧
      jsObjGet (buildFragmentMap doc) n = none ∧
      ∃ d ∈ doc.definitions, n ∈ spreadNamesL (defSelections d) := by
  cases hr : inlineDefsLib fuel (buildFragmentMap doc)
      (doc.definitions.filter isOperationDef) with
  | out => simp [inlineRelayQueryFromAST, hr] at h
  | err msg2 =>
    simp only [inlineRelayQueryFromAST, hr] at h
    cases h
    rcases inlineDefsLib_err fuel (buildFragmentMap doc) _ _ hr with ⟨n, hmsg, hnone, hocc⟩
    refine ⟨n, hmsg, hnone, ?_⟩
    rcases hocc with ⟨d, hd, h1⟩ | ⟨p, hp, h1⟩
    · exact ⟨d, List.mem_of_mem_filter hd, h1⟩
    · rcases buildFragmentMap_mem hp with ⟨n2, tc2, sels2, hmem, hval⟩
      refine ⟨DefinitionNode.fragmentDef n2 tc2 sels2, hmem, ?_⟩
      rw [hval] at h1
      exact h1
  | ok ds => simp [inlineRelayQueryFromAST, hr] at h

/-! ## Claim C5: resolution failure -/

/-- C5 counterexample document: operation `Q { ...A }`, fragment
`A on T { ...A ...Missing }` — the spread `...Missing` is reachable from the
operation and names a fragment absent from the map, but the self-cycle
`...A` is expanded first. -/
def c5Doc : DocumentNode := ⟨[
  .operationDef "Q" [.fragmentSpread "A"],
  .fragmentDef "A" "T" [.fragmentSpread "A", .fragmentSpread "Missing"]]⟩

/-- Expanding the body of `A` in `c5Doc` consumes any amount of fuel without
returning (and in particular without reaching the missing spread). -/
theorem c5BodyOut : ∀ fuel,
    inlineSels fuel [("A", ⟨"A", "T", [.fragmentSpread "A", .fragmentSpread "Missing"]⟩)]
      [.fragmentSpread "A", .fragmentSpread "Missing"] = .out := by
  intro fuel
  induction fuel with
  | zero => simp [inlineSels, jsObjGet]
  | succ n ih => simp [inlineSels, jsObjGet, ih]

/-- The operation body of `c5Doc` likewise never returns. -/
theorem c5OpOut : ∀ fuel,
    inlineSels fuel [("A", ⟨"A", "T", [.fragmentSpread "A", .fragmentSpread "Missing"]⟩)]
      [.fragmentSpread "A"] = .out := by
  intro fuel
  cases fuel with
  | zero => simp [inlineSels, jsObjGet]
  | succ n => simp [inlineSels, jsObjGet, c5BodyOut n]

/-- Lib variant of `c5BodyOut`. -/
theorem c5BodyOutLib : ∀ fuel,
    inlineSelsLib fuel [("A", ⟨"A", "T", [.fragmentSpread "A", .fragmentSpread "Missing"]⟩)]
      [.fragmentSpread "A", .fragmentSpread "Missing"] = .out := by
  intro fuel
  induction fuel with
  | zero => simp [inlineSelsLib, jsObjGet]
  | succ n ih => simp [inlineSelsLib, jsObjGet, ih]

/-- Lib variant of `c5OpOut`. -/
theorem c5OpOutLib : ∀ fuel,
    inlineSelsLib fuel [("A", ⟨"A", "T", [.fragmentSpread "A", .fragmentSpread "Missing"]⟩)]
      [.fragmentSpread "A"] = .out := by
  intro fuel
  cases fuel with
  | zero => simp [inlineSelsLib, jsObjGet]
  | succ n => simp [inlineSelsLib, jsObjGet, c5BodyOutLib n]

/-- C5 counterexample: in `c5Doc` the spread `...Missing` (reachable from
operation `Q` through fragment `A`) names a fragment absent from the map,
yet neither implementation ever raises an UnresolvedFragment error: both
diverge expanding the cycle `...A` that precedes it. -/
theorem c5_reachable_missing_no_error :
    jsObjGet (buildFragmentMap c5Doc) "Missing" = none ∧
    jsObjGet (buildFragmentMap c5Doc) "A" =
      some ⟨"A", "T", [.fragmentSpread "A", .fragmentSpread "Missing"]⟩ ∧
    DivergesInl c5Doc ∧ DivergesInlLib c5Doc := by
  refine ⟨rfl, rfl, ?_, ?_⟩
  · intro fuel
    simp [inlineFragmentsInDocument, c5Doc, buildFragmentMap, List.filter,
      isOperationDef, List.foldl, jsObjSet, inlineDefs, inlineOperation, c5OpOut fuel]
  · intro fuel
    simp [inlineRelayQueryFromAST, c5Doc, buildFragmentMap, List.filter,
      isOperationDef, List.foldl, jsObjSet, inlineDefsLib, inlineOperationLib,
      c5OpOutLib fuel]

/-- C5 (amended): in both implementations, every raised error is an
UnresolvedFragment error — its message names a fragment that is absent from
the FragmentMap and is spread somewhere in the document (part_001 quotes the
name, `inline-relay-query.ts` does not) — and when every spread occurring in
the document resolves, no error is ever raised.  The stronger original claim
(a reachable missing fragment always produces this error) fails: a cyclic
spread expanded before the missing one makes the run diverge instead (see
the counterexample). -/
theorem c5_resolution_failure (fuel : Nat) (doc : DocumentNode) :
    (∀ msg, inlineFragmentsInDocument fuel doc = .err msg →
      ∃ n, msg = "Fragment \"" ++ n ++ "\" not found" ∧
        jsObjGet (buildFragmentMap doc) n = none ∧
        ∃ d ∈ doc.definitions, n ∈ spreadNamesL (defSelections d)) ∧
    (allSpreadsResolve doc = true →
      ∀ msg, inlineFragmentsInDocument fuel doc ≠ .err msg) ∧
    (∀ msg, inlineRelayQueryFromAST fuel doc = .err msg →
      ∃ n, msg = "Fragment " ++ n ++ " not found" ∧
        jsObjGet (buildFragmentMap doc) n = none ∧
        ∃ d ∈ doc.definitions, n ∈ spreadNamesL (defSelections d)) ∧
    (allSpreadsResolve doc = true →
      ∀ msg, inlineRelayQueryFromAST fuel doc ≠ .err msg) := by
  refine ⟨fun msg h => inlineDoc_err fuel doc msg h, ?_,
    fun msg h => inlineDocLib_err fuel doc msg h, ?_⟩
  · intro hres msg h
    rcases inlineDoc_err fuel doc msg h with ⟨n, _, hnone, d, hd, hocc⟩
    have h1 := List.all_eq_true.mp hres d hd
    have h2 := List.all_eq_true.mp h1 n hocc
    rw [hnone] at h2
    simp at h2
  · intro hres msg h
    rcases inlineDocLib_err fuel doc msg h with ⟨n, _, hnone, d, hd, hocc⟩
    have h1 := List.all_eq_true.mp hres d hd
    have h2 := List.all_eq_true.mp h1 n hocc
    rw [hnone] at h2
    simp at h2

/-- Document whose single operation spreads an absent fragment. -/
def c5MissingDoc : DocumentNode := ⟨[.operationDef "W" [.fragmentSpread "Nope"]]⟩

/-- C5 witness: the theorem applied to a document that spreads the absent
fragment `Nope` (error raised, name identified) and to the fully resolving
Scenario 1 document (no error possible). -/
theorem c5_resolution_failure_witness :
    (∃ n, ("Fragment \"Nope\" not found" = "Fragment \"" ++ n ++ "\" not found") ∧
      jsObjGet (buildFragmentMap c5MissingDoc) n = none ∧
      ∃ d ∈ c5MissingDoc.definitions, n ∈ spreadNamesL (defSelections d)) ∧
    inlineFragmentsInDocument 5 scenario1Doc ≠ .err "no" ∧
    (∃ n, ("Fragment Nope not found" = "Fragment " ++ n ++ " not found") ∧
      jsObjGet (buildFragmentMap c5MissingDoc) n = none ∧
      ∃ d ∈ c5MissingDoc.definitions, n ∈ spreadNamesL (defSelections d)) ∧
    inlineRelayQueryFromAST 5 scenario1Doc ≠ .err "no" := by
  refine ⟨?_, ?_, ?_, ?_⟩
  · exact (c5_resolution_failure 1 c5MissingDoc).1 _
      (by simp [c5MissingDoc, inlineFragmentsInDocument, buildFragmentMap, List.filter,
        isOperationDef, List.foldl, inlineDefs, inlineOperation, inlineSels, jsObjGet])
  · exact (c5_resolution_failure 5 scenario1Doc).2.1 rfl "no"
  · exact (c5_resolution_failure 1 c5MissingDoc).2.2.1 _
      (by simp [c5MissingDoc, inlineRelayQueryFromAST, buildFragmentMap, List.filter,
        isOperationDef, List.foldl, inlineDefsLib, inlineOperationLib, inlineSelsLib,
        jsObjGet])
  · exact (c5_resolution_failure 5 scenario1Doc).2.2.2 rfl "no"

/-! ## Claim C6: cyclic references and termination -/

/-- Termination of the inliner walk for depth-bounded fragment maps: if a
depth function decreases across every resolving spread edge of the map (as
it does exactly when the fragment-reference graph is acyclic) and the fuel
exceeds the depth of every resolving spread of the pending list, the walk
returns (no fuel exhaustion). -/
theorem inlineSels_terminates (dep : String → Nat) :
    ∀ (fuel : Nat) (fm : List (String × FragNode)) (l : List Selection),
    (∀ n F, jsObjGet fm n = some F → ∀ m ∈ spreadNamesL F.selections,
      ∀ G, jsObjGet fm m = some G → dep m < dep n) →
    (∀ n ∈ spreadNamesL l, ∀ F, jsObjGet fm n = some F → dep n < fuel) →
    inlineSels fuel fm l ≠ .out := by
  intro fuel fm l
  induction fuel, fm, l using inlineSels.induct with
  | case1 fuel fm =>
    intro hadm hin
    simp [inlineSels]
  | case2 fuel fm n rest hget =>
    intro hadm hin
    simp [inlineSels, hget]
  | case3 fm n rest frag hget =>
    intro hadm hin
    have h := hin n (by simp [spreadNamesSel]) frag hget
    omega
  | case4 fm n rest frag hget fuel2 hinner ih =>
    intro hadm hin
    have hn := hin n (by simp [spreadNamesSel]) frag hget
    refine absurd hinner (ih hadm ?_)
    intro m hm G hG
    have := hadm n frag hget m hm G hG
    omega
  | case5 fm n rest frag hget fuel2 msg hinner ih =>
    intro hadm hin
    simp [inlineSels, hget, hinner]
  | case6 fm n rest frag hget fuel2 inner hinner hrest ih1 ih2 =>
    intro hadm hin
    refine absurd hrest (ih2 hadm ?_)
    intro m hm G hG
    exact hin m (by simp [spreadNamesSel, hm]) G hG
  | case7 fm n rest frag hget fuel2 inner hinner msg hrest ih1 ih2 =>
    intro hadm hin
    simp [inlineSels, hget, hinner, hrest]
  | case8 fm n rest frag hget fuel2 inner hinner restR hrest ih1 ih2 =>
    intro hadm hin
    simp [inlineSels, hget, hinner, hrest]
  | case9 fuel fm a n ar s rest hinner ih =>
    intro hadm hin
    refine absurd hinner (ih hadm ?_)
    intro m hm G hG
    exact hin m (by simp [spreadNamesSel, hm]) G hG
  | case10 fuel fm a n ar s rest msg hinner ih =>
    intro hadm hin
    simp [inlineSels, hinner]
  | case11 fuel fm a n ar s rest inner hinner hrest ih1 ih2 =>
    intro hadm hin
    refine absurd hrest (ih2 hadm ?_)
    intro m hm G hG
    exact hin m (by simp [hm]) G hG
  | case12 fuel fm a n ar s rest inner hinner msg hrest ih1 ih2 =>
    intro hadm hin
    simp [inlineSels, hinner, hrest]
  | case13 fuel fm a n ar s rest inner hinner restR hrest ih1 ih2 =>
    intro hadm hin
    simp [inlineSels, hinner, hrest]
  | case14 fuel fm a n ar rest hrest ih =>
    intro hadm hin
    refine absurd hrest (ih hadm ?_)
    intro m hm G hG
    exact hin m (by simp [hm]) G hG
  | case15 fuel fm a n ar rest msg hrest ih =>
    intro hadm hin
    simp [inlineSels, hrest]
  | case16 fuel fm a n ar rest restR hrest ih =>
    intro hadm hin
    simp [inlineSels, hrest]
  | case17 fuel fm t s rest hinner ih =>
    intro hadm hin
    refine absurd hinner (ih hadm ?_)
    intro m hm G hG
    exact hin m (by simp [spreadNamesSel, hm]) G hG
  | case18 fuel fm t s rest msg hinner ih =>
    intro hadm hin
    simp [inlineSels, hinner]
  | case19 fuel fm t s rest inner hinner hrest ih1 ih2 =>
    intro hadm hin
    refine absurd hrest (ih2 hadm ?_)
    intro m hm G hG
    exact hin m (by simp [spreadNamesSel, hm]) G hG
  | case20 fuel fm t s rest inner hinner msg hrest ih1 ih2 =>
    intro hadm hin
    simp [inlineSels, hinner, hrest]
  | case21 fuel fm t s rest inner hinner restR hrest ih1 ih2 =>
    intro hadm hin
    simp [inlineSels, hinner, hrest]

/-- Termination lifted to one definition. -/
theorem inlineOperation_terminates (dep : String → Nat) (fuel : Nat)
    (fm : List (String × FragNode)) (d : DefinitionNode)
    (hadm : ∀ n F, jsObjGet fm n = some F → ∀ m ∈ spreadNamesL F.selections,
      ∀ G, jsObjGet fm m = some G → dep m < dep n)
    (hin : ∀ n ∈ spreadNamesL (defSelections d), ∀ F, jsObjGet fm n = some F →
      dep n < fuel) :
    inlineOperation fuel fm d ≠ .out := by
  cases d with
  | operationDef nm sels =>
    cases hr : inlineSels fuel fm sels with
    | out => exact absurd hr (inlineSels_terminates dep fuel fm sels hadm hin)
    | err msg => simp [inlineOperation, hr]
    | ok newSels => simp [inlineOperation, hr]
  | fragmentDef nm tc sels =>
    cases hr : inlineSels fuel fm sels with
    | out => exact absurd hr (inlineSels_terminates dep fuel fm sels hadm hin)
    | err msg => simp [inlineOperation, hr]
    | ok newSels => simp [inlineOperation, hr]

/-- Termination lifted to a definition list. -/
theorem inlineDefs_terminates (dep : String → Nat) (fuel : Nat)
    (fm : List (String × FragNode))
    (hadm : ∀ n F, jsObjGet fm n = some F → ∀ m ∈ spreadNamesL F.selections,
      ∀ G, jsObjGet fm m = some G → dep m < dep n) :
    ∀ ds, (∀ d ∈ ds, ∀ n ∈ spreadNamesL (defSelections d), ∀ F,
      jsObjGet fm n = some F → dep n < fuel) →
    inlineDefs fuel fm ds ≠ .out := by
  intro ds
  induction ds with
  | nil =>
    intro hin
    simp [inlineDefs]
  | cons d rest ih =>
    intro hin
    cases hd : inlineOperation fuel fm d with
    | out =>
      exact absurd hd (inlineOperation_terminates dep fuel fm d hadm
        (hin d (List.mem_cons_self _ _)))
    | err msg => simp [inlineDefs, hd]
    | ok d2 =>
      cases hr : inlineDefs fuel fm rest with
      | out =>
        exact absurd hr (ih (fun x hx => hin x (List.mem_cons_of_mem _ hx)))
      | err msg => simp [inlineDefs, hd, hr]
      | ok rest2 => simp [inlineDefs, hd, hr]

/-- C6 counterexample document: `Q { ...A }`, `A on T { ...B }`,
`B on T { ...A }` — the two-fragment cycle of the claim. -/
def c6CycleDoc : DocumentNode := ⟨[
  .operationDef "Q" [.fragmentSpread "A"],
  .fragmentDef "A" "T" [.fragmentSpread "B"],
  .fragmentDef "B" "T" [.fragmentSpread "A"]]⟩

/-- Expanding either side of the `A`/`B` cycle runs out of any fuel. -/
theorem c6ABOut : ∀ fuel,
    inlineSels fuel
      [("A", ⟨"A", "T", [.fragmentSpread "B"]⟩), ("B", ⟨"B", "T", [.fragmentSpread "A"]⟩)]
      [.fragmentSpread "A"] = .out ∧
    inlineSels fuel
      [("A", ⟨"A", "T", [.fragmentSpread "B"]⟩), ("B", ⟨"B", "T", [.fragmentSpread "A"]⟩)]
      [.fragmentSpread "B"] = .out := by
  intro fuel
  induction fuel with
  | zero => constructor <;> simp [inlineSels, jsObjGet]
  | succ n ih =>
    constructor
    · simp [inlineSels, jsObjGet, ih.2]
    · simp [inlineSels, jsObjGet, ih.1]

/-- Lib variant of `c6ABOut`. -/
theorem c6ABOutLib : ∀ fuel,
    inlineSelsLib fuel
      [("A", ⟨"A", "T", [.fragmentSpread "B"]⟩), ("B", ⟨"B", "T", [.fragmentSpread "A"]⟩)]
      [.fragmentSpread "A"] = .out ∧
    inlineSelsLib fuel
      [("A", ⟨"A", "T", [.fragmentSpread "B"]⟩), ("B", ⟨"B", "T", [.fragmentSpread "A"]⟩)]
      [.fragmentSpread "B"] = .out := by
  intro fuel
  induction fuel with
  | zero => constructor <;> simp [inlineSelsLib, jsObjGet]
  | succ n ih =>
    constructor
    · simp [inlineSelsLib, jsObjGet, ih.2]
    · simp [inlineSelsLib, jsObjGet, ih.1]

/-- C6 counterexample: on the cyclic document `A spreads B, B spreads A`
neither implementation fails with any error (let alone a CyclicFragment
error): both recurse without bound, returning nothing at any fuel. -/
theorem c6_cyclic_no_error :
    allSpreadsResolve c6CycleDoc = true ∧
    DivergesInl c6CycleDoc ∧ DivergesInlLib c6CycleDoc := by
  refine ⟨rfl, ?_, ?_⟩
  · intro fuel
    simp [inlineFragmentsInDocument, c6CycleDoc, buildFragmentMap, List.filter,
      isOperationDef, List.foldl, jsObjSet, inlineDefs, inlineOperation, (c6ABOut fuel).1]
  · intro fuel
    simp [inlineRelayQueryFromAST, c6CycleDoc, buildFragmentMap, List.filter,
      isOperationDef, List.foldl, jsObjSet, inlineDefsLib, inlineOperationLib,
      (c6ABOutLib fuel).1]

/-- C6 (amended): the recursion depth is indeed bounded by fragment nesting
depth — whenever a depth function decreases across every resolving spread
edge of the document's fragment map (exactly the acyclic case) and the fuel
majorizes the depths of the document's spreads, `inlineFragmentsInDocument`
terminates (returns or errs, never exhausting its fuel).  The claim's second
half is false: the code has no visited set and no CyclicFragment error; on
the cyclic `A`/`B` document it recurses without bound (see the
counterexample). -/
theorem c6_cycle_handling (dep : String → Nat) (fuel : Nat) (doc : DocumentNode)
    (hadm : ∀ n F, jsObjGet (buildFragmentMap doc) n = some F →
      ∀ m ∈ spreadNamesL F.selections, ∀ G,
        jsObjGet (buildFragmentMap doc) m = some G → dep m < dep n)
    (hfuel : ∀ d ∈ doc.definitions, ∀ n ∈ spreadNamesL (defSelections d), ∀ F,
      jsObjGet (buildFragmentMap doc) n = some F → dep n < fuel) :
    inlineFragmentsInDocument fuel doc ≠ .out := by
  cases hr : inlineDefs fuel (buildFragmentMap doc)
      (doc.definitions.filter isOperationDef) with
  | out =>
    refine absurd hr (inlineDefs_terminates dep fuel (buildFragmentMap doc) hadm _ ?_)
    intro d hd
    exact hfuel d (List.mem_of_mem_filter hd)
  | err msg => simp [inlineFragmentsInDocument, hr]
  | ok ds => simp [inlineFragmentsInDocument, hr]

/-- Keys of a singleton map. -/
theorem jsObjGet_singleton {β : Type} {k n : String} {v : β} {w : β}
    (h : jsObjGet [(k, v)] n = some w) : k = n ∧ w = v := by
  simp only [jsObjGet] at h
  by_cases hk : k = n
  · rw [if_pos hk] at h
    cases h
    exact ⟨hk, rfl⟩
  · rw [if_neg hk] at h
    cases h

/-- C6 witness: the termination theorem applied to the acyclic Scenario 1
document with the constant-zero depth function and fuel 5. -/
theorem c6_cycle_handling_witness :
    inlineFragmentsInDocument 5 scenario1Doc ≠ .out := by
  apply c6_cycle_handling (fun _ => 0) 5 scenario1Doc
  · intro n F hget m hm G hG
    have hfm : buildFragmentMap scenario1Doc =
        [("F", ⟨"F", "T", [Selection.field none "id" [] none,
          Selection.field none "account" [] (some [Selection.field none "x" [] none])]⟩)] :=
      rfl
    rw [hfm] at hget
    obtain ⟨hn, hF⟩ := jsObjGet_singleton hget
    subst hF
    simp [spreadNamesSel] at hm
  · intro d hd n hn F hget
    omega

/-! ## Claim C9: inlining a spread-free document -/

mutual

/-- The recursive Selection-Merger normal form of one selection: nested
selection sets are recursively merged with `deduplicateSelections`, exactly
as the inliner rebuilds a spread-free tree. -/
def recMergeSel : Selection → Selection
  | .field a n ar none => .field a n ar none
  | .field a n ar (some s) => .field a n ar (some (deduplicateSelections (recMergeEach s)))
  | .inlineFragment t s => .inlineFragment t (deduplicateSelections (recMergeEach s))
  | .fragmentSpread n => .fragmentSpread n

/-- Element-wise recursive merge of a selection forest. -/
def recMergeEach : List Selection → List Selection
  | [] => []
  | s :: rest => recMergeSel s :: recMergeEach rest

end

/-- The recursive merge of a definition's selection tree. -/
def recMergeDef : DefinitionNode → DefinitionNode
  | .operationDef nm sels => .operationDef nm (deduplicateSelections (recMergeEach sels))
  | .fragmentDef nm tc sels => .fragmentDef nm tc (deduplicateSelections (recMergeEach sels))

/-- On a spread-free selection list the inliner walk consumes no fuel and
returns, for every fuel and fragment map, the recursive merge of the list. -/
theorem inlineSels_noSpread_eq (fuel : Nat) (fm : List (String × FragNode))
    (l : List Selection) : noSpreadL l = true →
    inlineSels fuel fm l = .ok (recMergeEach l) := by
  induction fuel, fm, l using inlineSels.induct with
  | case1 fuel fm =>
    intro hl
    simp [inlineSels, recMergeEach]
  | case2 fuel fm n rest hget =>
    intro hl
    simp [noSpreadSel] at hl
  | case3 fm n rest frag hget =>
    intro hl
    simp [noSpreadSel] at hl
  | case4 fm n rest frag hget fuel2 hinner ih =>
    intro hl
    simp [noSpreadSel] at hl
  | case5 fm n rest frag hget fuel2 msg hinner ih =>
    intro hl
    simp [noSpreadSel] at hl
  | case6 fm n rest frag hget fuel2 inner hinner hrest ih1 ih2 =>
    intro hl
    simp [noSpreadSel] at hl
  | case7 fm n rest frag hget fuel2 inner hinner msg hrest ih1 ih2 =>
    intro hl
    simp [noSpreadSel] at hl
  | case8 fm n rest frag hget fuel2 inner hinner restR hrest ih1 ih2 =>
    intro hl
    simp [noSpreadSel] at hl
  | case9 fuel fm a n ar s rest hinner ih =>
    intro hl
    simp only [noSpreadL_cons, noSpreadSel, Bool.and_eq_true] at hl
    have h1 := ih hl.1
    rw [hinner] at h1
    cases h1
  | case10 fuel fm a n ar s rest msg hinner ih =>
    intro hl
    simp only [noSpreadL_cons, noSpreadSel, Bool.and_eq_true] at hl
    have h1 := ih hl.1
    rw [hinner] at h1
    cases h1
  | case11 fuel fm a n ar s rest inner hinner hrest ih1 ih2 =>
    intro hl
    simp only [noSpreadL_cons, noSpreadSel, Bool.and_eq_true] at hl
    have h2 := ih2 hl.2
    rw [hrest] at h2
    cases h2
  | case12 fuel fm a n ar s rest inner hinner msg hrest ih1 ih2 =>
    intro hl
    simp only [noSpreadL_cons, noSpreadSel, Bool.and_eq_true] at hl
    have h2 := ih2 hl.2
    rw [hrest] at h2
    cases h2
  | case13 fuel fm a n ar s rest inner hinner restR hrest ih1 ih2 =>
    intro hl
    simp only [noSpreadL_cons, noSpreadSel, Bool.and_eq_true] at hl
    have h1 := ih1 hl.1
    rw [hinner] at h1
    cases h1
    have h2 := ih2 hl.2
    rw [hrest] at h2
    cases h2
    simp [inlineSels, hinner, hrest, recMergeEach, recMergeSel]
  | case14 fuel fm a n ar rest hrest ih =>
    intro hl
    simp only [noSpreadL_cons, noSpreadSel, Bool.and_eq_true] at hl
    have h2 := ih hl.2
    rw [hrest] at h2
    cases h2
  | case15 fuel fm a n ar rest msg hrest ih =>
    intro hl
    simp only [noSpreadL_cons, noSpreadSel, Bool.and_eq_true] at hl
    have h2 := ih hl.2
    rw [hrest] at h2
    cases h2
  | case16 fuel fm a n ar rest restR hrest ih =>
    intro hl
    simp only [noSpreadL_cons, noSpreadSel, Bool.and_eq_true] at hl
    have h2 := ih hl.2
    rw [hrest] at h2
    cases h2
    simp [inlineSels, hrest, recMergeEach, recMergeSel]
  | case17 fuel fm t s rest hinner ih =>
    intro hl
    simp only [noSpreadL_cons, noSpreadSel, Bool.and_eq_true] at hl
    have h1 := ih hl.1
    rw [hinner] at h1
    cases h1
  | case18 fuel fm t s rest msg hinner ih =>
    intro hl
    simp only [noSpreadL_cons, noSpreadSel, Bool.and_eq_true] at hl
    have h1 := ih hl.1
    rw [hinner] at h1
    cases h1
  | case19 fuel fm t s rest inner hinner hrest ih1 ih2 =>
    intro hl
    simp only [noSpreadL_cons, noSpreadSel, Bool.and_eq_true] at hl
    have h2 := ih2 hl.2
    rw [hrest] at h2
    cases h2
  | case20 fuel fm t s rest inner hinner msg hrest ih1 ih2 =>
    intro hl
    simp only [noSpreadL_cons, noSpreadSel, Bool.and_eq_true] at hl
    have h2 := ih2 hl.2
    rw [hrest] at h2
    cases h2
  | case21 fuel fm t s rest inner hinner restR hrest ih1 ih2 =>
    intro hl
    simp only [noSpreadL_cons, noSpreadSel, Bool.and_eq_true] at hl
    have h1 := ih1 hl.1
    rw [hinner] at h1
    cases h1
    have h2 := ih2 hl.2
    rw [hrest] at h2
    cases h2
    simp [inlineSels, hinner, hrest, recMergeEach, recMergeSel]

/-- One spread-free definition inlines to its recursive merge. -/
theorem inlineOperation_noSpread_eq (fuel : Nat) (fm : List (String × FragNode))
    (d : DefinitionNode) (hd : noSpreadDef d = true) :
    inlineOperation fuel fm d = .ok (recMergeDef d) := by
  cases d with
  | operationDef nm sels =>
    simp only [noSpreadDef] at hd
    simp [inlineOperation, inlineSels_noSpread_eq fuel fm sels hd, recMergeDef]
  | fragmentDef nm tc sels =>
    simp only [noSpreadDef] at hd
    simp [inlineOperation, inlineSels_noSpread_eq fuel fm sels hd, recMergeDef]

/-- A spread-free definition list inlines to its element-wise recursive
merge. -/
theorem inlineDefs_noSpread_eq (fuel : Nat) (fm : List (String × FragNode)) :
    ∀ ds, (∀ d ∈ ds, noSpreadDef d = true) →
    inlineDefs fuel fm ds = .ok (ds.map recMergeDef) := by
  intro ds
  induction ds with
  | nil =>
    intro hds
    simp [inlineDefs]
  | cons d rest ih =>
    intro hds
    have hd := inlineOperation_noSpread_eq fuel fm d (hds d (List.mem_cons_self _ _))
    have hr := ih (fun x hx => hds x (List.mem_cons_of_mem _ hx))
    simp [inlineDefs, hd, hr]

/-- C9 counterexample document: a single spread-free fragment definition. -/
def c9Doc : DocumentNode := ⟨[.fragmentDef "G" "T" [.field none "id" [] none]]⟩

/-- C9 counterexample: inlining the spread-free document consisting of the
single fragment definition `G` does not return the same definitions — both
implementations return an empty document (the fragment definition is
dropped by the operation filter), even though nothing needed inlining. -/
theorem c9_not_unchanged :
    inlineFragmentsInDocument 3 c9Doc = .ok ⟨[]⟩ ∧
    inlineRelayQueryFromAST 3 c9Doc = .ok ⟨[]⟩ ∧
    c9Doc.definitions.length = 1 := by
  refine ⟨?_, ?_, rfl⟩
  · simp [inlineFragmentsInDocument, c9Doc, buildFragmentMap, List.filter,
      isOperationDef, List.foldl, jsObjSet, inlineDefs]
  · simp [inlineRelayQueryFromAST, c9Doc, buildFragmentMap, List.filter,
      isOperationDef, List.foldl, jsObjSet, inlineDefsLib]

/-- C9 (amended): on a Document already free of FragmentSpreads the inliner
returns — at every fuel, independently of the fragment map — exactly the
operation definitions of the document (fragment definitions are dropped, so
the result is not "the same definitions"), each with its selection trees
replaced by their recursive Selection-Merger merge. -/
theorem c9_spread_free_inlining (fuel : Nat) (doc : DocumentNode)
    (h : noSpreadDoc doc = true) :
    inlineFragmentsInDocument fuel doc =
      .ok ⟨(doc.definitions.filter isOperationDef).map recMergeDef⟩ := by
  have hds : ∀ d ∈ doc.definitions.filter isOperationDef, noSpreadDef d = true := by
    intro d hd
    exact List.all_eq_true.mp h d (List.mem_of_mem_filter hd)
  simp [inlineFragmentsInDocument,
    inlineDefs_noSpread_eq fuel (buildFragmentMap doc) _ hds]

/-- C9 witness: the amended theorem applied to a spread-free document whose
operation repeats a field; the two occurrences merge. -/
theorem c9_spread_free_inlining_witness :
    inlineFragmentsInDocument 2
      ⟨[.operationDef "P" [.field none "id" [] none, .field none "id" [] none]]⟩ =
    .ok ⟨((⟨[.operationDef "P" [.field none "id" [] none, .field none "id" [] none]]⟩ :
      DocumentNode).definitions.filter isOperationDef).map recMergeDef⟩ :=
  c9_spread_free_inlining 2
    ⟨[.operationDef "P" [.field none "id" [] none, .field none "id" [] none]]⟩ rfl

/-! ## Claim C7: grouper output ordering -/

/-- Totality of the in-group comparator. -/
theorem defLe_total (a b : Definition) : defLe a b = true ∨ defLe b a = true := by
  by_cases h : a.type = b.type
  · simp only [defLe]
    rw [if_pos h, if_pos h.symm]
    exact localeLe_total a.content b.content
  · have h2 : ¬ b.type = a.type := fun hx => h hx.symm
    simp only [defLe]
    rw [if_neg h, if_neg h2]
    simp only [decide_eq_true_eq]
    cases hA : a.type with
    | query => exact Or.inl rfl
    | fragment =>
      cases hB : b.type with
      | query => exact Or.inr rfl
      | fragment => exact absurd (hA.trans hB.symm) h

/-- Transitivity of the in-group comparator. -/
theorem defLe_trans {a b c : Definition} (h1 : defLe a b = true)
    (h2 : defLe b c = true) : defLe a c = true := by
  by_cases hab : a.type = b.type
  · by_cases hbc : b.type = c.type
    · simp only [defLe] at h1 h2 ⊢
      rw [if_pos hab] at h1
      rw [if_pos hbc] at h2
      rw [if_pos (hab.trans hbc)]
      exact localeLe_trans h1 h2
    · simp only [defLe] at h2
      rw [if_neg hbc] at h2
      have hbq : b.type = DefType.query := by simpa using h2
      have hac : ¬ a.type = c.type := fun hx => hbc (hab.symm.trans hx)
      simp only [defLe]
      rw [if_neg hac]
      simpa using hab.trans hbq
  · simp only [defLe] at h1
    rw [if_neg hab] at h1
    have haq : a.type = DefType.query := by simpa using h1
    have hbf : b.type = DefType.fragment := by
      cases hB : b.type with
      | query => exact absurd (haq.trans hB.symm) hab
      | fragment => rfl
    by_cases hbc : b.type = c.type
    · have hac : ¬ a.type = c.type := fun hx => hab (hx.trans hbc.symm)
      simp only [defLe]
      rw [if_neg hac]
      simpa using haq
    · simp only [defLe] at h2
      rw [if_neg hbc] at h2
      have hq : b.type = DefType.query := by simpa using h2
      rw [hbf] at hq
      cases hq

/-- C7 counterexample input: query named `a` (filename `a.js`). -/
def c7aDef : Definition := ⟨.query, "a.js", "query a{x}"⟩

/-- C7 counterexample / Scenario 5 input: query named `B` (filename `B.js`). -/
def c7BDef : Definition := ⟨.query, "B.js", "query B{x}"⟩

/-- Scenario 5 input: query named `A` (filename `A.js`). -/
def c7ADef : Definition := ⟨.query, "A.js", "query A{x}"⟩

/-- The ordinal (case-sensitive, code-point) string comparison named by the
specification, written over the same character model as `localeCompare`: a
spec-side definition used only to compare the claimed ordering with the
implemented one. -/
def ordinalCompare (a b : String) : Ordering :=
  lexNat (a.toList.map Char.toNat) (b.toList.map Char.toNat)

/-- C7 counterexample: the grouper does not order groups by ordinal
(case-sensitive) comparison — `mergeDefinitions` puts `a.js` before `B.js`
(the `localeCompare` order), while the ordinal comparison orders `B.js`
(uppercase code points) strictly first. -/
theorem c7_not_ordinal_order :
    (mergeDefinitions [c7BDef, c7aDef]).map MergedDefinition.filename = ["a.js", "B.js"] ∧
    ordinalCompare "B.js" "a.js" = .lt := by
  constructor
  · rfl
  · rfl

/-- C7 (amended): `mergeDefinitions` orders the output groups by the
`localeCompare` comparator (case-insensitive primary, lowercase-first
tiebreak — not the ordinal comparison, see the counterexample); the sorted
groups are a permutation of the first-occurrence grouping; within a group
the emitted order is a permutation of the group sorted by the in-group
comparator (queries before fragments, `localeCompare` of raw content within
a type); and Scenario 5 (queries `A` and `B`) yields `A.js` before `B.js`
regardless of input order. -/
theorem c7_grouper_ordering (defs : List Definition) :
    ((jsSortBy (fun g1 g2 : String × List Definition => localeLe g1.1 g2.1)
        (groupByFilename defs)).map Prod.fst).Pairwise (fun a b => localeLe a b = true) ∧
    (jsSortBy (fun g1 g2 : String × List Definition => localeLe g1.1 g2.1)
        (groupByFilename defs)).Perm (groupByFilename defs) ∧
    (∀ g ∈ jsSortBy (fun g1 g2 : String × List Definition => localeLe g1.1 g2.1)
        (groupByFilename defs),
      (jsSortBy defLe g.2).Pairwise (fun a b => defLe a b = true) ∧
      (jsSortBy defLe g.2).Perm g.2) ∧
    (mergeDefinitions [c7ADef, c7BDef]).map MergedDefinition.filename = ["A.js", "B.js"] ∧
    (mergeDefinitions [c7BDef, c7ADef]).map MergedDefinition.filename = ["A.js", "B.js"] := by
  refine ⟨?_, jsSortBy_perm _ _, ?_, rfl, rfl⟩
  · have hp := jsSortBy_pairwise (fun g1 g2 : String × List Definition => localeLe g1.1 g2.1)
      (fun p q => localeLe_total p.1 q.1)
      (fun p q r h1 h2 => localeLe_trans h1 h2)
      (groupByFilename defs)
    exact List.Pairwise.map Prod.fst (fun a b h => h) hp
  · intro g hg
    exact ⟨jsSortBy_pairwise defLe defLe_total (fun p q r h1 h2 => defLe_trans h1 h2) g.2,
      jsSortBy_perm defLe g.2⟩

/-- C7 witness: the ordering theorem instantiated at the Scenario 5 input. -/
theorem c7_grouper_ordering_witness :
    ((jsSortBy (fun g1 g2 : String × List Definition => localeLe g1.1 g2.1)
        (groupByFilename [c7ADef, c7BDef])).map Prod.fst).Pairwise
      (fun a b => localeLe a b = true) ∧
    (mergeDefinitions [c7ADef, c7BDef]).map MergedDefinition.filename = ["A.js", "B.js"] :=
  ⟨(c7_grouper_ordering [c7ADef, c7BDef]).1,
    (c7_grouper_ordering [c7ADef, c7BDef]).2.2.2.1⟩

/-- Step equation: all input scanned (whitespace runs to the end). -/
theorem parseLoop_end {inp : List Char} {x : Nat} (hj : inp.length ≤ skipWs inp x) :
    parseLoop inp x = .ok [] := by
  unfold parseLoop
  rw [dif_pos hj]

/-- Step equation: keyword but no name — the thrown error. -/
theorem parseLoop_noName {inp : List Char} {x : Nat}
    (hj : ¬ inp.length ≤ skipWs inp x)
    (hkw : matchesAt inp (skipWs inp x) "query".toList = true ∨
      matchesAt inp (skipWs inp x) "fragment".toList = true)
    (hne : defName inp x = []) :
    parseLoop inp x =
      .error ("Could not parse definition name at position " ++ toString (defNamePos inp x)) := by
  conv_lhs => unfold parseLoop
  rw [dif_neg hj, if_pos hkw, if_pos hne]

/-- Step equation: keyword and name, but no opening brace before the end of
the input — the loop breaks out silently with no further definitions. -/
theorem parseLoop_noBrace {inp : List Char} {x : Nat}
    (hj : ¬ inp.length ≤ skipWs inp x)
    (hkw : matchesAt inp (skipWs inp x) "query".toList = true ∨
      matchesAt inp (skipWs inp x) "fragment".toList = true)
    (hne : ¬ defName inp x = [])
    (hbr : inp.length ≤ defBracePos inp x) :
    parseLoop inp x = .ok [] := by
  conv_lhs => unfold parseLoop
  rw [dif_neg hj, if_pos hkw, if_neg hne, if_pos hbr]

/-- Step equation: unmatched opening brace — the thrown error. -/
theorem parseLoop_scanFail {inp : List Char} {x : Nat}
    (hj : ¬ inp.length ≤ skipWs inp x)
    (hkw : matchesAt inp (skipWs inp x) "query".toList = true ∨
      matchesAt inp (skipWs inp x) "fragment".toList = true)
    (hne : ¬ defName inp x = [])
    (hbr : ¬ inp.length ≤ defBracePos inp x)
    (hscan : scanCloseRel (inp.drop (defBracePos inp x)) 0 = none) :
    parseLoop inp x =
      .error ("No matching closing brace found for definition " ++
        String.mk (defName inp x)) := by
  conv_lhs => unfold parseLoop
  rw [dif_neg hj, if_pos hkw, if_neg hne, if_neg hbr, hscan]

/-- Step equation: a definition is emitted and scanning resumes after its
closing brace. -/
theorem parseLoop_emit {inp : List Char} {x : Nat} {relEnd : Nat}
    (hj : ¬ inp.length ≤ skipWs inp x)
    (hkw : matchesAt inp (skipWs inp x) "query".toList = true ∨
      matchesAt inp (skipWs inp x) "fragment".toList = true)
    (hne : ¬ defName inp x = [])
    (hbr : ¬ inp.length ≤ defBracePos inp x)
    (hscan : scanCloseRel (inp.drop (defBracePos inp x)) 0 = some relEnd) :
    parseLoop inp x =
      match parseLoop inp (defBracePos inp x + relEnd + 1) with
      | .error e => .error e
      | .ok ds =>
        .ok ({ type := defTypeAt inp x,
               filename := computeFilename (defTypeAt inp x) (defName inp x),
               content := String.mk ((inp.drop (skipWs inp x)).take
                 (defBracePos inp x + relEnd + 1 - skipWs inp x)) } :: ds) := by
  conv_lhs => unfold parseLoop
  rw [dif_neg hj, if_pos hkw, if_neg hne, if_neg hbr, hscan]

/-- Step equation: no keyword at this position — the character is skipped. -/
theorem parseLoop_skip {inp : List Char} {x : Nat}
    (hj : ¬ inp.length ≤ skipWs inp x)
    (hkw : ¬ (matchesAt inp (skipWs inp x) "query".toList = true ∨
      matchesAt inp (skipWs inp x) "fragment".toList = true)) :
    parseLoop inp x = parseLoop inp (skipWs inp x + 1) := by
  conv_lhs => unfold parseLoop
  rw [dif_neg hj, if_neg hkw]
  cases hr : parseLoop inp (skipWs inp x + 1) with
  | error e => rfl
  | ok ds => rfl

/-- The position returned by the brace scanner holds the closing brace. -/
theorem scanCloseRel_char {l : List Char} {d r : Nat} (h : scanCloseRel l d = some r) :
    l.getD r ' ' = '\x7d' := by
  induction l generalizing d r with
  | nil => simp [scanCloseRel] at h
  | cons c rest ih =>
    simp only [scanCloseRel] at h
    by_cases h1 : c = '\x7b'
    · rw [if_pos h1] at h
      cases hr : scanCloseRel rest (d + 1) with
      | none => simp [hr] at h
      | some r2 =>
        simp only [hr, Option.map, Option.some.injEq] at h
        subst h
        simpa [List.getD] using ih hr
    · rw [if_neg h1] at h
      by_cases h2 : c = '\x7d'
      · rw [if_pos h2] at h
        by_cases h3 : d = 1
        · rw [if_pos h3] at h
          simp only [Option.some.injEq] at h
          subst h
          simpa [List.getD] using h2
        · rw [if_neg h3] at h
          cases hr : scanCloseRel rest (d - 1) with
          | none => simp [hr] at h
          | some r2 =>
            simp only [hr, Option.map, Option.some.injEq] at h
            subst h
            simpa [List.getD] using ih hr
      · rw [if_neg h2] at h
        cases hr : scanCloseRel rest d with
        | none => simp [hr] at h
        | some r2 =>
          simp only [hr, Option.map, Option.some.injEq] at h
          subst h
          simpa [List.getD] using ih hr

/-- One emitted definition occupies the exact source span `[s, e]`: a
keyword starts at `s`, a closing brace sits at `e`, and the recorded content
is precisely the characters from `s` through `e`. -/
def ContentSpan (inp : List Char) (lo : Nat) (d : Definition) (hi : Nat) : Prop :=
  ∃ s e, lo ≤ s ∧ s ≤ e ∧ e < inp.length ∧ hi = e + 1 ∧
    (matchesAt inp s "query".toList = true ∨ matchesAt inp s "fragment".toList = true) ∧
    inp.getD e ' ' = '\x7d' ∧
    d.content = String.mk ((inp.drop s).take (e + 1 - s))

/-- The emitted definitions occupy consecutive disjoint source spans from
position `lo` on: exact substrings, in source order. -/
def SpansFrom (inp : List Char) : Nat → List Definition → Prop
  | _, [] => True
  | lo, d :: rest => ∃ hi, ContentSpan inp lo d hi ∧ SpansFrom inp hi rest

theorem SpansFrom_mono (inp : List Char) :
    ∀ ds lo lo2, lo ≤ lo2 → SpansFrom inp lo2 ds → SpansFrom inp lo ds := by
  intro ds
  cases ds with
  | nil => intro lo lo2 h hs; trivial
  | cons d rest =>
    intro lo lo2 h hs
    obtain ⟨hi, ⟨s, e, hs1, hrest⟩, hnext⟩ := hs
    exact ⟨hi, ⟨s, e, le_trans h hs1, hrest⟩, hnext⟩

/-- Content exactness and source order for every successful run of the
scanning loop. -/
theorem parseLoop_spans (inp : List Char) :
    ∀ i ds, parseLoop inp i = .ok ds → SpansFrom inp i ds := by
  intro i
  refine parseLoop.induct inp
    (fun x => ∀ ds, parseLoop inp x = .ok ds → SpansFrom inp x ds)
    ?_ ?_ ?_ ?_ ?_ ?_ ?_ ?_ i
  · intro x hj ds h
    rw [parseLoop_end hj] at h
    cases h
    trivial
  · intro x hj hkw hne ds h
    rw [parseLoop_noName hj hkw hne] at h
    cases h
  · intro x hj hkw hne hbr ds h
    rw [parseLoop_noBrace hj hkw hne hbr] at h
    cases h
    trivial
  · intro x hj hkw hne hbr hscan ds h
    rw [parseLoop_scanFail hj hkw hne hbr hscan] at h
    cases h
  · intro x hj hkw hne hbr relEnd hscan e herr ih ds h
    rw [parseLoop_emit hj hkw hne hbr hscan, herr] at h
    cases h
  · intro x hj hkw hne hbr relEnd hscan ds2 hrec ih ds h
    rw [parseLoop_emit hj hkw hne hbr hscan, hrec] at h
    simp only [Except.ok.injEq] at h
    subst h
    have hxj : x ≤ skipWs inp x := skipWs_ge inp x
    have hjq : skipWs inp x ≤ defBracePos inp x :=
      le_trans (defNamePos_ge inp x) (le_trans (defBodyPos_ge inp x) (defBracePos_ge inp x))
    have hrel := scanCloseRel_lt hscan
    rw [List.length_drop] at hrel
    have hqlt : defBracePos inp x < inp.length := by omega
    refine ⟨defBracePos inp x + relEnd + 1,
      ⟨skipWs inp x, defBracePos inp x + relEnd, by omega, by omega, by omega, rfl, hkw,
        ?_, rfl⟩,
      ih (ds2) hrec⟩
    have hc := scanCloseRel_char hscan
    have hgd : (inp.drop (defBracePos inp x)).get? relEnd =
        inp.get? (defBracePos inp x + relEnd) := List.get?_drop inp _ relEnd
    show (inp.get? (defBracePos inp x + relEnd)).getD ' ' = '\x7d'
    rw [← hgd]
    exact hc
  · intro x hj hkw e herr ih ds h
    rw [parseLoop_skip hj hkw, herr] at h
    cases h
  · intro x hj hkw ds0 hok ih ds h
    rw [parseLoop_skip hj hkw, hok] at h
    cases h
    refine SpansFrom_mono inp ds0 x (skipWs inp x + 1) ?_ (ih ds0 hok)
    have := skipWs_ge inp x
    omega

/-! ## Claim C8: splitter content exactness (Scenario 2) -/

/-- The Scenario 2 input text. -/
def c8Input : List Char := "query A\x7bf\x7d fragment B_x on T\x7bg\x7d".toList

/-- C8: every successful run of `parseGraphQLDefinitions` emits definitions
in source order whose contents are the exact source substrings from the
keyword's start through the brace closing the block (inclusive); and
Scenario 2 splits into exactly the two expected raw definitions. -/
theorem c8_splitter_content_exact :
    (∀ (input : List Char) (ds : List Definition),
      parseGraphQLDefinitions input = .ok ds → SpansFrom input 0 ds) ∧
    parseGraphQLDefinitions c8Input =
      .ok [⟨.query, "A.js", "query A\x7bf\x7d"⟩,
           ⟨.fragment, "B.js", "fragment B_x on T\x7bg\x7d"⟩] := by
  constructor
  · intro input ds h
    exact parseLoop_spans input 0 ds h
  · have h3 : parseLoop c8Input 31 = .ok [] := parseLoop_end (by decide)
    have hscan2 : scanCloseRel (c8Input.drop (defBracePos c8Input 10)) 0 = some 2 := by
      decide
    have h2 : parseLoop c8Input 10 =
        .ok [⟨.fragment, "B.js", "fragment B_x on T\x7bg\x7d"⟩] := by
      rw [parseLoop_emit (by decide) (by decide) (by decide) (by decide) hscan2]
      rw [show defBracePos c8Input 10 + 2 + 1 = 31 from by decide, h3]
      rfl
    have hscan1 : scanCloseRel (c8Input.drop (defBracePos c8Input 0)) 0 = some 2 := by
      decide
    show parseLoop c8Input 0 = _
    rw [parseLoop_emit (by decide) (by decide) (by decide) (by decide) hscan1]
    rw [show defBracePos c8Input 0 + 2 + 1 = 10 from by decide, h2]
    rfl

/-- C8 witness: the exactness statement applied to the Scenario 2 run. -/
theorem c8_splitter_content_exact_witness :
    SpansFrom c8Input 0
      [⟨.query, "A.js", "query A\x7bf\x7d"⟩,
       ⟨.fragment, "B.js", "fragment B_x on T\x7bg\x7d"⟩] :=
  c8_splitter_content_exact.1 c8Input _ c8_splitter_content_exact.2

/-! ## Claim C10: truncated definition with no opening brace -/

/-- Input whose trailing `fragment B` has a name but no block. -/
def c10Input : List Char := "query A\x7bf\x7d fragment B".toList

/-- C10: when a keyword and a valid name are found but no opening brace
occurs before the end of the input, the loop returns successfully with no
further definitions (no error is raised and the truncated definition is
dropped); concretely, `query A\x7bf\x7d fragment B` parses to just the
query, the truncated fragment silently discarded. -/
theorem c10_truncated_definition_silent :
    (∀ (inp : List Char) (x : Nat),
      ¬ inp.length ≤ skipWs inp x →
      (matchesAt inp (skipWs inp x) "query".toList = true ∨
        matchesAt inp (skipWs inp x) "fragment".toList = true) →
      ¬ defName inp x = [] →
      inp.length ≤ defBracePos inp x →
      parseLoop inp x = .ok []) ∧
    parseGraphQLDefinitions c10Input = .ok [⟨.query, "A.js", "query A\x7bf\x7d"⟩] := by
  constructor
  · intro inp x hj hkw hne hbr
    exact parseLoop_noBrace hj hkw hne hbr
  · have h2 : parseLoop c10Input 10 = .ok [] :=
      parseLoop_noBrace (by decide) (by decide) (by decide) (by decide)
    have hscan1 : scanCloseRel (c10Input.drop (defBracePos c10Input 0)) 0 = some 2 := by
      decide
    show parseLoop c10Input 0 = _
    rw [parseLoop_emit (by decide) (by decide) (by decide) (by decide) hscan1]
    rw [show defBracePos c10Input 0 + 2 + 1 = 10 from by decide, h2]
    rfl

/-- C10 witness: the general statement applied to the truncated input
`query A` (keyword and name, no brace). -/
theorem c10_truncated_definition_silent_witness :
    parseLoop ("query A".toList) 0 = .ok [] :=
  c10_truncated_definition_silent.1 ("query A".toList) 0
    (by decide) (by decide) (by decide) (by decide)
